import Mathlib

/-!
Shallow embedding of the `camps_and_trees` puzzle solver.

The Rust sources are embedded as executable Lean definitions:
* `Tile`, `Grid`, `Board` mirror `tile.rs`, `grid.rs`, `board.rs`;
* the deduction rules mirror `initialize_grass.rs`, `fill_zeros.rs`,
  `fill_camps.rs`, `intersection.rs`, `associate_trees.rs`;
* Rust panics (out-of-bounds indexing, failed `assert!`, `usize`
  underflow followed by `Option::unwrap` on an empty vector) are
  modelled by the `Except String` monad `P`: a `.error` value is a
  panic, never an ordinary return.

Text is modelled as `List Char`.
-/

set_option maxHeartbeats 1000000

namespace CampsAndTrees

/-- The panic monad: `.error` models a Rust panic. -/
abbrev P (α : Type) := Except String α

/-- Embeds `enum Tile` from `tile.rs`. -/
inductive Tile where
  | Unassigned
  | Grass
  | Camp
  | Tree
deriving DecidableEq, Repr

namespace Tile

/-- Embeds `Tile::parse` from `tile.rs`: one character per tile. -/
def parse (c : Char) : P Tile :=
  if c = ' ' then .ok .Unassigned
  else if c = '-' then .ok .Grass
  else if c = 'C' then .ok .Camp
  else if c = 'T' then .ok .Tree
  else .error "unrecognized tile character"

/-- Embeds `impl fmt::Debug for Tile`: the inverse character table. -/
def debugChar : Tile → Char
  | .Unassigned => ' '
  | .Grass => '-'
  | .Camp => 'C'
  | .Tree => 'T'

end Tile

/-- Embeds `struct Grid` from `grid.rs`: a table of tiles, row major. -/
structure Grid where
  array : List (List Tile)
deriving DecidableEq, Repr

namespace Grid

/-- Embeds `Grid::get`: `None` when the coordinates are out of bounds. -/
def get (g : Grid) (row column : Nat) : Option Tile :=
  (g.array.get? row).bind (fun r => r.get? column)

/-- Embeds the `Index` impl for `Grid`: panics when out of bounds. -/
def idx (g : Grid) (row column : Nat) : P Tile :=
  match g.get row column with
  | some t => .ok t
  | none => .error "grid index out of bounds"

/-- In-place update of one cell (no bounds effect when out of range). -/
def setCell (g : Grid) (row column : Nat) (t : Tile) : Grid :=
  ⟨g.array.set row (((g.array.get? row).getD []).set column t)⟩

/-- Embeds the `IndexMut` impl for `Grid`: panics when out of bounds. -/
def write (g : Grid) (row column : Nat) (t : Tile) : P Grid :=
  match g.get row column with
  | some _ => .ok (g.setCell row column t)
  | none => .error "grid index out of bounds"

/-- Embeds `Grid::num_rows`. -/
def num_rows (g : Grid) : Nat := g.array.length

/-- Embeds `Grid::num_columns`: the length of row 0, or 0. -/
def num_columns (g : Grid) : Nat :=
  ((g.array.get? 0).map List.length).getD 0

/-- Embeds `Grid::is_solved`: no `Unassigned` tile remains. -/
def is_solved (g : Grid) : Bool :=
  g.array.all (fun row => row.all (fun x => decide (x ≠ Tile.Unassigned)))

/-- Loop body of `Grid::parse` from `grid.rs`, accumulating the finished
rows and the current row exactly like the Rust `for` loop does. -/
def parseAux : List Char → List (List Tile) → List Tile → P Grid
  | [], grid, row => .ok ⟨grid ++ [row]⟩
  | c :: rest, grid, row =>
    if c = '\n' then parseAux rest (grid ++ [row]) []
    else
      match Tile.parse c with
      | .ok t => parseAux rest grid (row ++ [t])
      | .error e => .error e

/-- Embeds `Grid::parse`: characters via `Tile::parse`, `\n` starts the
next row, and the final (possibly empty) row is always pushed. -/
def parse (s : List Char) : P Grid := parseAux s [] []

/-- Embeds `Grid::blank`: a grid of `Unassigned` tiles. -/
def blank (rows columns : Nat) : Grid :=
  ⟨List.replicate rows (List.replicate columns Tile.Unassigned)⟩

/-- One rendered row for `impl fmt::Debug for Grid`. -/
def debugRow (row : List Tile) : List Char := row.map Tile.debugChar

/-- Embeds the row loop of `impl fmt::Debug for Grid`: a `\n` before
every row except the first. -/
def debugRows : List (List Tile) → List Char
  | [] => []
  | [r] => debugRow r
  | r :: rs => debugRow r ++ '\n' :: debugRows rs

/-- Embeds `impl fmt::Debug for Grid` (also `Grid::debug`). -/
def debugChars (g : Grid) : List Char := debugRows g.array

end Grid

/-- `for i in 0..n`-style loop: `forN f i k s` runs the body `f` on the
`k` indices `i, i+1, …, i+k-1`, threading the state `s` in the panic
monad.  Every Rust `for` loop below is embedded through it. -/
def forN {σ : Type} (f : Nat → σ → P σ) : Nat → Nat → σ → P σ
  | _, 0, s => .ok s
  | i, k + 1, s => f i s >>= forN f (i + 1) k

/-- Embeds indexing `v[i]` of a `Vec<usize>`: panics out of bounds. -/
def listIdx (l : List Nat) (i : Nat) : P Nat :=
  match l.get? i with
  | some n => .ok n
  | none => .error "vec index out of bounds"

/-- Embeds `usize` subtraction `a - b`: panics on underflow (in release
mode the wrapped value later makes `intersection` unwrap an empty
vector, so both build modes panic at this point of `solve`). -/
def subUsize (a b : Nat) : P Nat :=
  if b ≤ a then .ok (a - b) else .error "usize subtraction underflow"

namespace Grid

/-- Embeds `Grid::count_in_row`: reads `(row, column)` for every
`column` below `num_columns`, so it panics on a missing cell. -/
def count_in_row (g : Grid) (row : Nat) (tile : Tile) : P Nat :=
  forN (fun column count => do
      let t ← g.idx row column
      if t = tile then pure (count + 1) else pure count)
    0 g.num_columns 0

/-- Embeds `Grid::count_in_column`. -/
def count_in_column (g : Grid) (column : Nat) (tile : Tile) : P Nat :=
  forN (fun row count => do
      let t ← g.idx row column
      if t = tile then pure (count + 1) else pure count)
    0 g.num_rows 0

/-- Embeds `Grid::surrounding_tiles`: the in-bounds 4-neighbours in the
order up, left, right, down; panics when `(row, column)` is outside the
grid (the `assert!` at the top of the Rust function). -/
def surrounding_tiles (g : Grid) (row column : Nat) :
    P (List (Nat × Nat)) :=
  if (g.get row column).isSome then
    .ok ((if row ≠ 0 then [(row - 1, column)] else []) ++
      (if column ≠ 0 then [(row, column - 1)] else []) ++
      (if column + 1 ≠ g.num_columns then [(row, column + 1)] else []) ++
      (if row + 1 ≠ g.num_rows then [(row + 1, column)] else []))
  else .error "surrounding_tiles out of bounds"

/-- The inclusive range `a..=b` of `Nat`s as a list. -/
def rangeIncl (a b : Nat) : List Nat :=
  (List.range (b + 1 - a)).map (a + ·)

/-- The 3×3 neighbourhood scan of `Grid::set_camp`: is a `Camp` at one
of `row-1..=row+1 × column-1..=column+1` (saturating, via `get`)? -/
def campNearby (g : Grid) (row column : Nat) : Bool :=
  (rangeIncl (row - 1) (row + 1)).any (fun r =>
    (rangeIncl (column - 1) (column + 1)).any (fun c =>
      g.get r c = some Tile.Camp))

/-- The second loop of `Grid::set_camp`: every `Unassigned` cell of the
3×3 neighbourhood becomes `Grass` (checked through `get`, so never a
panic). -/
def grassAround (g : Grid) (row column : Nat) : Grid :=
  (rangeIncl (row - 1) (row + 1)).foldl (fun g r =>
    (rangeIncl (column - 1) (column + 1)).foldl (fun g c =>
      if g.get r c = some Tile.Unassigned then g.setCell r c Tile.Grass
      else g) g) g

/-- Embeds `Grid::set_camp`.  `.ok none` is the recoverable `Err`
("camps next to each other", grid unmodified); `.ok (some g)` is
success; `.error` is the index panic of `self[(row, column)] = Camp`
when `(row, column)` is out of bounds. -/
def set_camp (g : Grid) (row column : Nat) : P (Option Grid) :=
  if campNearby g row column then .ok none
  else do
    let g ← g.write row column Tile.Camp
    pure (some (grassAround g row column))

end Grid

/-- Embeds `struct Board` from `board.rs`. -/
structure Board where
  rows : List Nat
  columns : List Nat
  grid : Grid
deriving DecidableEq, Repr

namespace Board

/-- Embeds `Board::new`: `none` models the `assert!` panics.  Note the
source checks every grid row's length against `rows.len()`, not
`columns.len()`. -/
def new (rows columns : List Nat) (grid : Grid) : Option Board :=
  if grid.array.length = rows.length ∧
      ∀ r ∈ grid.array, r.length = rows.length then
    some ⟨rows, columns, grid⟩
  else none

end Board

/-! ### The deduction rules -/

/-- One conditional neighbour read of `initialize_grass`: the
singleton tile list when the guard holds, read through the panicking
index. -/
def igRead (g : Grid) (q : Prop) [Decidable q] (r c : Nat) :
    P (List Tile) :=
  if q then (fun t => [t]) <$> g.idx r c else pure []

/-- The neighbour tiles gathered by `initialize_grass` for one cell, in
source order (down, right, up, left), bounds taken from the target
vector lengths; reads go through the panicking index. -/
def igNeighbors (b : Board) (row column : Nat) : P (List Tile) := do
  let t1 ← igRead b.grid (row + 1 ≠ b.rows.length) (row + 1) column
  let t2 ← igRead b.grid (column + 1 ≠ b.columns.length) row (column + 1)
  let t3 ← igRead b.grid (row ≠ 0) (row - 1) column
  let t4 ← igRead b.grid (column ≠ 0) row (column - 1)
  pure (t1 ++ t2 ++ t3 ++ t4)

/-- The cell body of `initialize_grass` from `initialize_grass.rs`. -/
def igCell (row column : Nat) (s : Board × Bool) :
    P (Board × Bool) := do
  let (b, changed) := s
  let t ← b.grid.idx row column
  if t = Tile.Unassigned then do
    let tiles ← igNeighbors b row column
    if tiles.all (fun x => decide (x ≠ Tile.Tree)) then do
      let g ← b.grid.write row column Tile.Grass
      pure ({ b with grid := g }, true)
    else pure (b, changed)
  else pure (b, changed)

/-- Embeds `initialize_grass`: every `Unassigned` cell with no
4-adjacent `Tree` (bounds from the target vector lengths) becomes
`Grass`; returns whether anything changed. -/
def initGrass (b0 : Board) : P (Board × Bool) :=
  forN (fun row s =>
      forN (fun column s => igCell row column s) 0 b0.columns.length s)
    0 b0.rows.length (b0, false)

/-- Row pass of `fill_zeros` from `fill_zeros.rs`. -/
def fzRow (b0 : Board) (row : Nat) (s : Board × Bool) :
    P (Board × Bool) := do
  let (b, changed) := s
  let cnt ← b.grid.count_in_row row Tile.Camp
  let target ← listIdx b.rows row
  if cnt = target then
    forN (fun column s => do
        let (b, changed) := s
        let t ← b.grid.idx row column
        if t = Tile.Unassigned then do
          let g ← b.grid.write row column Tile.Grass
          pure ({ b with grid := g }, true)
        else pure (b, changed))
      0 b0.columns.length (b, changed)
  else pure (b, changed)

/-- Column pass of `fill_zeros`. -/
def fzColumn (b0 : Board) (column : Nat) (s : Board × Bool) :
    P (Board × Bool) := do
  let (b, changed) := s
  let cnt ← b.grid.count_in_column column Tile.Camp
  let target ← listIdx b.columns column
  if cnt = target then
    forN (fun row s => do
        let (b, changed) := s
        let t ← b.grid.idx row column
        if t = Tile.Unassigned then do
          let g ← b.grid.write row column Tile.Grass
          pure ({ b with grid := g }, true)
        else pure (b, changed))
      0 b0.rows.length (b, changed)
  else pure (b, changed)

/-- Embeds `fill_zeros`: rows then columns whose current `Camp` count
already equals the target have their `Unassigned` cells set to
`Grass`. -/
def fillZeros (b0 : Board) : P (Board × Bool) := do
  let s ← forN (fzRow b0) 0 b0.rows.length (b0, false)
  forN (fzColumn b0) 0 b0.columns.length s

/-- Row pass of `fill_camps` from `fill_camps.rs`.  Note the cells are
set to `Camp` by plain assignment, not through `Grid::set_camp`. -/
def fcRow (b0 : Board) (row : Nat) (s : Board × Bool) :
    P (Board × Bool) := do
  let (b, changed) := s
  let target ← listIdx b.rows row
  let cntU ← b.grid.count_in_row row Tile.Unassigned
  let cntC ← b.grid.count_in_row row Tile.Camp
  if target = cntU + cntC then
    forN (fun column s => do
        let (b, changed) := s
        let t ← b.grid.idx row column
        if t = Tile.Unassigned then do
          let g ← b.grid.write row column Tile.Camp
          pure ({ b with grid := g }, true)
        else pure (b, changed))
      0 b0.columns.length (b, changed)
  else pure (b, changed)

/-- Column pass of `fill_camps`. -/
def fcColumn (b0 : Board) (column : Nat) (s : Board × Bool) :
    P (Board × Bool) := do
  let (b, changed) := s
  let target ← listIdx b.columns column
  let cntU ← b.grid.count_in_column column Tile.Unassigned
  let cntC ← b.grid.count_in_column column Tile.Camp
  if target = cntU + cntC then
    forN (fun row s => do
        let (b, changed) := s
        let t ← b.grid.idx row column
        if t = Tile.Unassigned then do
          let g ← b.grid.write row column Tile.Camp
          pure ({ b with grid := g }, true)
        else pure (b, changed))
      0 b0.rows.length (b, changed)
  else pure (b, changed)

/-- Embeds `fill_camps`: every row/column where
`target == Unassigned count + Camp count` has its `Unassigned` cells
assigned `Camp` directly. -/
def fillCamps (b0 : Board) : P (Board × Bool) := do
  let s ← forN (fcRow b0) 0 b0.rows.length (b0, false)
  forN (fcColumn b0) 0 b0.columns.length s

/-! ### Shape lemmas, needed to justify the recursion of
`process_row`/`process_column` -/

namespace Grid

/-- The length of row `r`, 0 when the row is missing. -/
def rowLen (g : Grid) (r : Nat) : Nat := ((g.array.get? r).getD []).length

theorem setCell_array_length (g : Grid) (r c : Nat) (t : Tile) :
    (g.setCell r c t).array.length = g.array.length := by
  simp [setCell]

theorem setCell_rowLen (g : Grid) (r c : Nat) (t : Tile) (i : Nat) :
    (g.setCell r c t).rowLen i = g.rowLen i := by
  unfold rowLen setCell
  rcases Nat.lt_or_ge r g.array.length with h | h
  · rcases eq_or_ne i r with rfl | hne
    · simp [List.get?_eq_getElem?, List.getElem?_set, h]
    · simp [List.get?_eq_getElem?, List.getElem?_set, Ne.symm hne]
  · rw [List.set_eq_of_length_le (by simpa using h)]

theorem grassAround_array_length (g : Grid) (r c : Nat) :
    (g.grassAround r c).array.length = g.array.length := by
  unfold grassAround
  generalize rangeIncl (r - 1) (r + 1) = rs
  generalize rangeIncl (c - 1) (c + 1) = cs
  induction rs generalizing g with
  | nil => rfl
  | cons a as ih =>
    simp only [List.foldl_cons]
    rw [ih]
    clear ih
    induction cs generalizing g with
    | nil => rfl
    | cons b bs ih2 =>
      simp only [List.foldl_cons]
      rw [ih2]
      split <;> simp [setCell_array_length]

theorem grassAround_rowLen (g : Grid) (r c i : Nat) :
    (g.grassAround r c).rowLen i = g.rowLen i := by
  unfold grassAround
  generalize rangeIncl (r - 1) (r + 1) = rs
  generalize rangeIncl (c - 1) (c + 1) = cs
  induction rs generalizing g with
  | nil => rfl
  | cons a as ih =>
    simp only [List.foldl_cons]
    rw [ih]
    clear ih
    induction cs generalizing g with
    | nil => rfl
    | cons b bs ih2 =>
      simp only [List.foldl_cons]
      rw [ih2]
      split <;> simp [setCell_rowLen]

theorem write_array_length {g g' : Grid} {r c : Nat} {t : Tile}
    (h : g.write r c t = .ok g') : g'.array.length = g.array.length := by
  unfold write at h
  split at h
  · cases h; exact setCell_array_length ..
  · cases h

theorem write_rowLen {g g' : Grid} {r c : Nat} {t : Tile}
    (h : g.write r c t = .ok g') (i : Nat) : g'.rowLen i = g.rowLen i := by
  unfold write at h
  split at h
  · cases h; exact setCell_rowLen ..
  · cases h

theorem set_camp_array_length {g g' : Grid} {r c : Nat}
    (h : g.set_camp r c = .ok (some g')) :
    g'.array.length = g.array.length := by
  unfold set_camp at h
  split at h
  · cases h
  · simp only [bind, Except.bind] at h
    split at h
    · cases h
    · rename_i g1 h1
      simp only [pure, Except.pure, Except.ok.injEq, Option.some.injEq] at h
      subst h
      rw [grassAround_array_length, write_array_length h1]

theorem set_camp_rowLen {g g' : Grid} {r c : Nat}
    (h : g.set_camp r c = .ok (some g')) (i : Nat) :
    g'.rowLen i = g.rowLen i := by
  unfold set_camp at h
  split at h
  · cases h
  · simp only [bind, Except.bind] at h
    split at h
    · cases h
    · rename_i g1 h1
      simp only [pure, Except.pure, Except.ok.injEq, Option.some.injEq] at h
      subst h
      rw [grassAround_rowLen, write_rowLen h1]

theorem idx_ok_lt_rowLen {g : Grid} {r c : Nat} {t : Tile}
    (h : g.idx r c = .ok t) : c < g.rowLen r := by
  unfold idx get at h
  split at h
  · rename_i t' heq
    rcases Option.bind_eq_some.mp heq with ⟨row, hrow, hc⟩
    unfold rowLen
    rw [hrow]
    exact (List.get?_eq_some.mp hc).1
  · cases h

theorem idx_ok_lt_num_rows {g : Grid} {r c : Nat} {t : Tile}
    (h : g.idx r c = .ok t) : r < g.array.length := by
  unfold idx get at h
  split at h
  · rename_i t' heq
    rcases Option.bind_eq_some.mp heq with ⟨row, hrow, _⟩
    exact (List.get?_eq_some.mp hrow).1
  · cases h

end Grid

/-- Embeds `process_row` from `intersection.rs`: enumerate, by
column-by-column recursion, every way of legally placing `count` camps
in `row` at or after `column`, pushing each completed working grid onto
`poss`.  Both 'place here' (when `set_camp` succeeds) and 'skip' are
explored.

The recursion is paced by `fuel`, the depth bound `rowLen row + 1 -
column` supplied by `processRow`.  The Rust recursion advances `column`
by one per level and, past the end of the row, errors on the index
read, so this bound is exact: when `fuel` runs out, `column` is past
`rowLen row` (`set_camp` never changes any row length) and the replayed
index read produces the very panic the Rust code produces; the
error after it is unreachable. -/
def processRowF (poss : List Grid) (grid : Grid)
    (count row column : Nat) : Nat → P (List Grid)
  | 0 =>
    if count = 0 then .ok (poss ++ [grid])
    else if column = grid.num_columns then .ok poss
    else do
      let _ ← grid.idx row column
      .error "process_row recursion bound exceeded"
  | fuel + 1 =>
    if count = 0 then .ok (poss ++ [grid])
    else if column = grid.num_columns then .ok poss
    else do
      let t ← grid.idx row column
      let poss2 ←
        if t = Tile.Unassigned then do
          match ← grid.set_camp row column with
          | some b => processRowF poss b (count - 1) row (column + 1) fuel
          | none => pure poss
        else pure poss
      processRowF poss2 grid count row (column + 1) fuel

/-- `process_row` at its depth bound. -/
def processRow (poss : List Grid) (grid : Grid)
    (count row column : Nat) : P (List Grid) :=
  processRowF poss grid count row column (grid.rowLen row + 1 - column)

/-- Embeds `process_column` from `intersection.rs` (rows and columns
swapped relative to `process_row`); fuel as in `processRowF`, bounded
by the number of rows. -/
def processColumnF (poss : List Grid) (grid : Grid)
    (count row column : Nat) : Nat → P (List Grid)
  | 0 =>
    if count = 0 then .ok (poss ++ [grid])
    else if row = grid.num_rows then .ok poss
    else do
      let _ ← grid.idx row column
      .error "process_column recursion bound exceeded"
  | fuel + 1 =>
    if count = 0 then .ok (poss ++ [grid])
    else if row = grid.num_rows then .ok poss
    else do
      let t ← grid.idx row column
      let poss2 ←
        if t = Tile.Unassigned then do
          match ← grid.set_camp row column with
          | some b =>
            processColumnF poss b (count - 1) (row + 1) column fuel
          | none => pure poss
        else pure poss
      processColumnF poss2 grid count (row + 1) column fuel

/-- `process_column` at its depth bound. -/
def processColumn (poss : List Grid) (grid : Grid)
    (count row column : Nat) : P (List Grid) :=
  processColumnF poss grid count row column (grid.array.length + 1 - row)

/-- The body of `intersection` for one further possibility `ng`: every
cell of the accumulated grid differing from `ng` becomes
`Unassigned`. -/
def interOne (ng : Grid) (g : Grid) : P Grid :=
  forN (fun row g1 =>
      forN (fun column g2 => do
          let a ← g2.idx row column
          let b ← ng.idx row column
          if a ≠ b then g2.write row column Tile.Unassigned else pure g2)
        0 g.num_columns g1)
    0 g.num_rows g

/-- Embeds `intersection` from `intersection.rs`: panics (the
`Option::unwrap`) when there is no possibility at all. -/
def intersection : List Grid → P Grid
  | [] => .error "intersection unwrap on empty possibilities"
  | g :: rest => rest.foldlM (fun acc ng => interOne ng acc) g

/-- Row pass body of `process_intersections`.  The `usize` subtraction
`rows[row] - camp count` is embedded by `subUsize`. -/
def piRow (row : Nat) (s : Board × Bool) : P (Board × Bool) := do
  let (b, changed) := s
  let target ← listIdx b.rows row
  let cnt ← b.grid.count_in_row row Tile.Camp
  let count ← subUsize target cnt
  let poss ← processRow [] b.grid count row 0
  let newGrid ← intersection poss
  pure ({ b with grid := newGrid }, changed || decide (b.grid ≠ newGrid))

/-- Column pass body of `process_intersections`. -/
def piColumn (column : Nat) (s : Board × Bool) : P (Board × Bool) := do
  let (b, changed) := s
  let target ← listIdx b.columns column
  let cnt ← b.grid.count_in_column column Tile.Camp
  let count ← subUsize target cnt
  let poss ← processColumn [] b.grid count 0 column
  let newGrid ← intersection poss
  pure ({ b with grid := newGrid }, changed || decide (b.grid ≠ newGrid))

/-- Embeds `process_intersections`: every row, then every column, is
narrowed to the intersection of its legal possibilities. -/
def processIntersections (b0 : Board) : P (Board × Bool) := do
  let s ← forN piRow 0 b0.rows.length (b0, false)
  forN piColumn 0 b0.columns.length s

/-! ### `associate_trees` -/

/-- Embeds `enum Association` from `associate_trees.rs`. -/
inductive Assoc where
  | CampAt (row column : Nat)
  | NoCampAssociated
  | UnassignedCamp
  | NoTree
  | Unprocessed
deriving DecidableEq, Repr

namespace Assoc

/-- Embeds `Association::is_camp_at`. -/
def is_camp_at : Assoc → Bool
  | .CampAt _ _ => true
  | _ => false

end Assoc

/-- The scratch `associations` table. -/
abbrev Table := List (List Assoc)

/-- Embeds `generate_associations`. -/
def generateAssociations (rows columns : Nat) : Table :=
  List.replicate rows (List.replicate columns Assoc.Unprocessed)

/-- Embeds `associations[row][column]` reads: panics out of bounds. -/
def tableGet (tab : Table) (row column : Nat) : P Assoc :=
  match (tab.get? row).bind (fun r => r.get? column) with
  | some a => .ok a
  | none => .error "associations index out of bounds"

/-- Embeds `associations[row][column] = a` writes: panics out of
bounds. -/
def tableSet (tab : Table) (row column : Nat) (a : Assoc) : P Table :=
  match (tab.get? row).bind (fun r => r.get? column) with
  | some _ => .ok (tab.set row (((tab.get? row).getD []).set column a))
  | none => .error "associations index out of bounds"

/-- Embeds the `filter(|&p| grid[p] == Tree)` of `associate_tree`. -/
def filterTrees (g : Grid) : List (Nat × Nat) → P (List (Nat × Nat))
  | [] => .ok []
  | p :: rest => do
    let t ← g.idx p.1 p.2
    let r ← filterTrees g rest
    pure (if t = Tile.Tree then p :: r else r)

/-- Embeds `associate_surrounding_trees`: fold a tree-association step
(the recursive call of `associate_tree`, abstracted as `f`) over a
neighbour list. -/
def assocList (f : Nat → Nat → Table → P Table) :
    List (Nat × Nat) → Table → P Table
  | [], tab => .ok tab
  | (r, c) :: rest, tab => do
    let tab ← f r c tab
    assocList f rest tab

/-- Embeds `associate_tree` from `associate_trees.rs`.  The mutual
recursion of the source is bounded here by `fuel`, one unit per
recursion level; the caller passes `num_rows * num_columns + 1`, which
always suffices because every deeper level has turned one more
`Unprocessed` entry into a processed one, so running out of fuel models
nothing reachable. -/
def assocTree : Nat → Grid → Nat → Nat → Table → P Table
  | 0, _, _, _, _ => .error "recursion depth exhausted"
  | fuel + 1, g, row, column, tab => do
    let a ← tableGet tab row column
    if a = Assoc.Unprocessed then do
      let tile ← g.idx row column
      if tile = Tile.Tree then do
        let tab ← tableSet tab row column Assoc.NoCampAssociated
        let nbrs ← g.surrounding_tiles row column
        assocList (assocTree fuel g) nbrs tab
      else if tile = Tile.Camp then do
        let tab ← tableSet tab row column Assoc.UnassignedCamp
        let nbrs ← g.surrounding_tiles row column
        let tab ← assocList (assocTree fuel g) nbrs tab
        let nbrs2 ← g.surrounding_tiles row column
        let trees ← filterTrees g nbrs2
        match trees with
        | [] => .error "assertion failed: a camp with no adjacent tree"
        | (r, c) :: rest =>
          if 4 < trees.length then
            .error "assertion failed: more than 4 adjacent trees"
          else if rest = [] then do
            let cur ← tableGet tab r c
            if cur = Assoc.NoCampAssociated then do
              let tab ← tableSet tab r c (Assoc.CampAt row column)
              tableSet tab row column Assoc.NoTree
            else .error "assertion failed: tree already associated"
          else pure tab
      else tableSet tab row column Assoc.NoTree
    else pure tab

/-- Body of the second pass of `associate_trees`: do all 4-neighbours
of an `Unassigned` cell either hold no `Tree`, or hold a `Tree` whose
association is already `CampAt`?  Mirrors the short-circuiting
`all(|x| grid[x] != Tree || associations[x.0][x.1].is_camp_at())`. -/
def allServed (g : Grid) (tab : Table) : List (Nat × Nat) → P Bool
  | [] => .ok true
  | p :: rest => do
    let t ← g.idx p.1 p.2
    let ok ← if t ≠ Tile.Tree then pure true
      else do
        let a ← tableGet tab p.1 p.2
        pure a.is_camp_at
    if ok then allServed g tab rest else pure false

/-- One cell of the second (grass-filling) pass of `associate_trees`. -/
def atCell (tab : Table) (row column : Nat) (s : Grid × Bool) :
    P (Grid × Bool) := do
  let (g, changed) := s
  let t ← g.idx row column
  if t = Tile.Unassigned then do
    let nbrs ← g.surrounding_tiles row column
    let served ← allServed g tab nbrs
    if served then do
      let g ← g.write row column Tile.Grass
      pure (g, true)
    else pure (g, changed)
  else pure (g, changed)

/-- Embeds `associate_trees`: build the association table by seeding
`associate_tree` at every cell, then turn every `Unassigned` cell all
of whose neighbouring `Tree`s already carry a `CampAt` association into
`Grass`. -/
def associateTrees (g0 : Grid) : P (Grid × Bool) := do
  let fuel := g0.num_rows * g0.num_columns + 1
  let tab ← forN (fun row t =>
      forN (fun column t => assocTree fuel g0 row column t)
        0 g0.num_columns t)
    0 g0.num_rows (generateAssociations g0.num_rows g0.num_columns)
  forN (fun row s =>
      forN (fun column s => atCell tab row column s) 0 g0.num_columns s)
    0 g0.num_rows (g0, false)

/-! ### `Board::solve` -/

/-- Number of `Unassigned` cells: the strictly decreasing quantity that
bounds the solve loop. -/
def unassignedCount (g : Grid) : Nat :=
  (g.array.map (fun r => r.countP (fun x => decide (x = Tile.Unassigned)))).sum

/-- Outcome of the fixed-point loop of `Board::solve`. -/
inductive LoopRes where
  | done (b : Board)
  | fuelOut (b : Board)
  | crashed (msg : String)
deriving DecidableEq, Repr

/-- The `loop` of `Board::solve`: `fill_zeros` (result ignored), then
`fill_camps`, `process_intersections`, `associate_trees`, restarting
whenever one of the latter three reports a change.  `fuel` bounds the
number of iterations; `unassignedCount + 1` is proven sufficient
below. -/
def solveLoop : Nat → Board → LoopRes
  | 0, b => .fuelOut b
  | n + 1, b =>
    match fillZeros b with
    | .error e => .crashed e
    | .ok (b1, _) =>
      match fillCamps b1 with
      | .error e => .crashed e
      | .ok (b2, true) => solveLoop n b2
      | .ok (b2, false) =>
        match processIntersections b2 with
        | .error e => .crashed e
        | .ok (b3, true) => solveLoop n b3
        | .ok (b3, false) =>
          match associateTrees b3.grid with
          | .error e => .crashed e
          | .ok (g4, true) => solveLoop n { b3 with grid := g4 }
          | .ok (g4, false) => .done { b3 with grid := g4 }

/-- Embeds `Board::solve`.  The result carries the final board (the
Rust function mutates in place) and `none` for `Ok(())`, or
`some msg` for `Err(msg)`; a `.error` is a panic somewhere inside the
loop.  The fuel of `solveLoop` is sufficient (see the termination
theorem), so the "loop fuel exhausted" branch is unreachable. -/
def solve (b : Board) : P (Board × Option (List Char)) :=
  match initGrass b with
  | .error e => .error e
  | .ok (b1, _) =>
    match solveLoop (unassignedCount b1.grid + 1) b1 with
    | .crashed e => .error e
    | .fuelOut _ => .error "loop fuel exhausted"
    | .done b2 =>
      if b2.grid.is_solved then .ok (b2, none)
      else .ok (b2, some ("Reached steady state\n".data ++ b2.grid.debugChars))

/-! ### Cell-level infrastructure -/

namespace Grid

theorem get_isSome_iff {g : Grid} {r c : Nat} :
    (g.get r c).isSome ↔ c < g.rowLen r ∧ r < g.array.length := by
  unfold get rowLen
  cases hrow : g.array.get? r with
  | none =>
    simp only [Option.bind, Option.isSome_none, Option.getD_none,
      List.length_nil]
    constructor
    · intro h; cases h
    · rintro ⟨h, hr⟩
      exact absurd hrow (by simp [List.get?_eq_none, not_le.mpr hr])
  | some row =>
    have hr : r < g.array.length := (List.get?_eq_some.mp hrow).1
    simp only [Option.getD_some, hr, and_true]
    cases hc : row.get? c with
    | none =>
      simp [List.get?_eq_none.mp hc, not_lt.mpr (List.get?_eq_none.mp hc)]
    | some t => simp [(List.get?_eq_some.mp hc).1]

theorem get_setCell (g : Grid) (r c : Nat) (t : Tile) (r' c' : Nat) :
    (g.setCell r c t).get r' c' =
      if r' = r ∧ c' = c ∧ (g.get r c).isSome then some t
      else g.get r' c' := by
  have harr : (g.setCell r c t).array =
      g.array.set r (((g.array.get? r).getD []).set c t) := rfl
  cases hrow : g.array.get? r with
  | none =>
    have hr : g.array.length ≤ r := List.get?_eq_none.mp hrow
    have heq : (g.setCell r c t).array = g.array := by
      rw [harr, List.set_eq_of_length_le hr]
    unfold get
    rw [heq, hrow]
    simp
  | some row =>
    have hr : r < g.array.length := (List.get?_eq_some.mp hrow).1
    have hget' : ∀ i, (g.setCell r c t).array.get? i =
        if r = i then some (row.set c t) else g.array.get? i := by
      intro i
      rw [harr, hrow]
      simpa using List.get?_set_of_lt' (row.set c t) g.array hr
    unfold get
    rcases eq_or_ne r' r with rfl | hner
    · rw [hget' r', if_pos rfl, hrow]
      simp only [Option.some_bind]
      rcases eq_or_ne c' c with rfl | hnec
      · rcases Nat.lt_or_ge c' row.length with hc | hc
        · rw [List.get?_set_eq_of_lt t hc]
          simp [List.getElem?_eq_getElem hc]
        · rw [List.set_eq_of_length_le hc]
          simp [List.getElem?_eq_none hc]
      · rw [List.get?_set_ne t row (Ne.symm hnec)]
        simp [hnec]
    · rw [hget' r', if_neg (Ne.symm hner)]
      simp [hner]

theorem get_write {g g' : Grid} {r c : Nat} {t : Tile}
    (h : g.write r c t = .ok g') (r' c' : Nat) :
    g'.get r' c' = if r' = r ∧ c' = c then some t else g.get r' c' := by
  unfold write at h
  split at h
  · rename_i t0 hg
    cases h
    rw [get_setCell]
    have : (g.get r c).isSome = true := by rw [hg]; rfl
    simp [this]
  · cases h

theorem write_ok_of_isSome {g : Grid} {r c : Nat} (t : Tile)
    (h : (g.get r c).isSome = true) : ∃ g', g.write r c t = .ok g' := by
  unfold write
  cases hg : g.get r c with
  | none => rw [hg] at h; cases h
  | some t0 => exact ⟨_, rfl⟩

end Grid

/-! ### Narrowing: cells only ever move out of `Unassigned` -/

/-- Same number of rows and same row lengths. -/
def shapeEq (g g' : Grid) : Prop :=
  g'.array.length = g.array.length ∧ ∀ i, g'.rowLen i = g.rowLen i

theorem shapeEq_refl (g : Grid) : shapeEq g g := ⟨rfl, fun _ => rfl⟩

theorem shapeEq_trans {g1 g2 g3 : Grid} (h1 : shapeEq g1 g2)
    (h2 : shapeEq g2 g3) : shapeEq g1 g3 :=
  ⟨h2.1.trans h1.1, fun i => (h2.2 i).trans (h1.2 i)⟩

theorem shapeEq_isSome {g g' : Grid} (h : shapeEq g g') (r c : Nat) :
    (g'.get r c).isSome = (g.get r c).isSome := by
  rcases h with ⟨hl, hr⟩
  by_cases hs : (g.get r c).isSome = true
  · rw [hs]
    rw [Grid.get_isSome_iff] at hs ⊢
    exact ⟨by rw [hr]; exact hs.1, by rw [hl]; exact hs.2⟩
  · have h1 : (g.get r c).isSome = false := by simpa using hs
    rw [h1]
    cases hx : (g'.get r c).isSome
    · rfl
    · rw [Grid.get_isSome_iff] at hx
      have h2 : (g.get r c).isSome = true := Grid.get_isSome_iff.mpr
        ⟨by rw [← hr]; exact hx.1, by rw [← hl]; exact hx.2⟩
      rw [h2] at h1
      cases h1

/-- The one-step narrowing relation: every cell is unchanged or has
moved from `Unassigned` to something else. -/
def Narrow (g g' : Grid) : Prop :=
  shapeEq g g' ∧ ∀ r c, g'.get r c = g.get r c ∨
    (g.get r c = some Tile.Unassigned ∧ g'.get r c ≠ some Tile.Unassigned)

theorem Narrow.refl (g : Grid) : Narrow g g :=
  ⟨shapeEq_refl g, fun _ _ => Or.inl rfl⟩

theorem Narrow.trans {g1 g2 g3 : Grid} (h1 : Narrow g1 g2)
    (h2 : Narrow g2 g3) : Narrow g1 g3 := by
  refine ⟨shapeEq_trans h1.1 h2.1, fun r c => ?_⟩
  rcases h2.2 r c with h23 | ⟨h2u, h3u⟩
  · rcases h1.2 r c with h12 | ⟨h1u, h2u⟩
    · exact Or.inl (h23.trans h12)
    · exact Or.inr ⟨h1u, h23 ▸ h2u⟩
  · rcases h1.2 r c with h12 | ⟨h1u, h2u'⟩
    · exact Or.inr ⟨h12 ▸ h2u, h3u⟩
    · exact absurd h2u h2u'

/-- Narrowing of tile lists, for the counting argument. -/
def listNarrow (l l' : List Tile) : Prop :=
  l'.length = l.length ∧ ∀ c, l'.get? c = l.get? c ∨
    (l.get? c = some Tile.Unassigned ∧ l'.get? c ≠ some Tile.Unassigned)

theorem listNarrow_countP_le {l l' : List Tile} (h : listNarrow l l') :
    l'.countP (fun x => decide (x = Tile.Unassigned)) ≤
      l.countP (fun x => decide (x = Tile.Unassigned)) := by
  induction l generalizing l' with
  | nil =>
    have : l' = [] := List.length_eq_zero.mp h.1
    subst this
    exact Nat.le_refl _
  | cons a as ih =>
    rcases l' with _ | ⟨b, bs⟩
    · cases h.1
    · have htail : listNarrow as bs := by
        refine ⟨by simpa using h.1, fun c => ?_⟩
        simpa using h.2 (c + 1)
      have hhead := h.2 0
      simp only [List.get?] at hhead
      rw [List.countP_cons, List.countP_cons]
      have := ih htail
      rcases hhead with heq | ⟨ha, hb⟩
      · cases heq
        omega
      · have ha' : a = Tile.Unassigned := by
          simpa using ha
        have hb' : b ≠ Tile.Unassigned := by
          simpa using hb
        simp [ha', hb']
        omega

theorem listNarrow_countP_lt {l l' : List Tile} (h : listNarrow l l')
    (hne : l' ≠ l) :
    l'.countP (fun x => decide (x = Tile.Unassigned)) <
      l.countP (fun x => decide (x = Tile.Unassigned)) := by
  induction l generalizing l' with
  | nil =>
    have : l' = [] := List.length_eq_zero.mp h.1
    exact absurd this hne
  | cons a as ih =>
    rcases l' with _ | ⟨b, bs⟩
    · cases h.1
    · have htail : listNarrow as bs := by
        refine ⟨by simpa using h.1, fun c => ?_⟩
        simpa using h.2 (c + 1)
      have hhead := h.2 0
      simp only [List.get?] at hhead
      rw [List.countP_cons, List.countP_cons]
      rcases hhead with heq | ⟨ha, hb⟩
      · cases heq
        have hbs : bs ≠ as := by
          intro hh
          exact hne (by rw [hh])
        have := ih htail hbs
        omega
      · have ha' : a = Tile.Unassigned := by simpa using ha
        have hb' : b ≠ Tile.Unassigned := by simpa using hb
        have := listNarrow_countP_le htail
        simp [ha', hb']
        omega

theorem narrow_listNarrow {g g' : Grid} (h : Narrow g g') {i : Nat}
    {l l' : List Tile} (hl : g.array.get? i = some l)
    (hl' : g'.array.get? i = some l') : listNarrow l l' := by
  constructor
  · have := h.1.2 i
    unfold Grid.rowLen at this
    rw [hl, hl'] at this
    simpa using this
  · intro c
    have := h.2 i c
    unfold Grid.get at this
    rw [hl, hl'] at this
    simpa using this

/-- Helper: sum of per-row `Unassigned` counts over raw arrays. -/
theorem arrays_count_le (A A' : List (List Tile))
    (hlen : A'.length = A.length)
    (hrows : ∀ i l l', A.get? i = some l → A'.get? i = some l' →
      listNarrow l l') :
    (A'.map (fun r => r.countP (fun x => decide (x = Tile.Unassigned)))).sum ≤
      (A.map (fun r => r.countP (fun x => decide (x = Tile.Unassigned)))).sum := by
  induction A generalizing A' with
  | nil =>
    have : A' = [] := List.length_eq_zero.mp hlen
    subst this
    exact Nat.le_refl _
  | cons a as ih =>
    rcases A' with _ | ⟨b, bs⟩
    · cases hlen
    · have hhead : listNarrow a b := hrows 0 a b rfl rfl
      have htail := ih bs (by simpa using hlen)
        (fun i l l' h1 h2 => hrows (i + 1) l l' (by simpa using h1)
          (by simpa using h2))
      have := listNarrow_countP_le hhead
      simp only [List.map_cons, List.sum_cons]
      omega

theorem arrays_count_lt (A A' : List (List Tile))
    (hlen : A'.length = A.length)
    (hrows : ∀ i l l', A.get? i = some l → A'.get? i = some l' →
      listNarrow l l')
    (hne : A' ≠ A) :
    (A'.map (fun r => r.countP (fun x => decide (x = Tile.Unassigned)))).sum <
      (A.map (fun r => r.countP (fun x => decide (x = Tile.Unassigned)))).sum := by
  induction A generalizing A' with
  | nil =>
    exact absurd (List.length_eq_zero.mp hlen) hne
  | cons a as ih =>
    rcases A' with _ | ⟨b, bs⟩
    · cases hlen
    · have hhead : listNarrow a b := hrows 0 a b rfl rfl
      have htails : ∀ i l l', as.get? i = some l → bs.get? i = some l' →
          listNarrow l l' :=
        fun i l l' h1 h2 => hrows (i + 1) l l' (by simpa using h1)
          (by simpa using h2)
      simp only [List.map_cons, List.sum_cons]
      by_cases hb : b = a
      · subst hb
        have hbs : bs ≠ as := fun hh => hne (by rw [hh])
        have := ih bs (by simpa using hlen) htails hbs
        omega
      · have h1 := listNarrow_countP_lt hhead hb
        have h2 := arrays_count_le as bs (by simpa using hlen) htails
        omega

theorem unassignedCount_le_of_narrow {g g' : Grid} (h : Narrow g g') :
    unassignedCount g' ≤ unassignedCount g := by
  unfold unassignedCount
  refine arrays_count_le g.array g'.array h.1.1 ?_
  exact fun i l l' hl hl' => narrow_listNarrow h hl hl'

theorem unassignedCount_lt_of_narrow_ne {g g' : Grid} (h : Narrow g g')
    (hne : g' ≠ g) : unassignedCount g' < unassignedCount g := by
  unfold unassignedCount
  refine arrays_count_lt g.array g'.array h.1.1
    (fun i l l' hl hl' => narrow_listNarrow h hl hl') ?_
  intro ha
  exact hne (by cases g; cases g'; simpa using ha)

/-- A successful write of a non-`Unassigned` value into an `Unassigned`
cell is a strict narrowing step. -/
theorem narrow_write_unassigned {g g' : Grid} {r c : Nat} {t : Tile}
    (hU : g.get r c = some Tile.Unassigned) (ht : t ≠ Tile.Unassigned)
    (hw : g.write r c t = .ok g') : Narrow g g' ∧ g' ≠ g := by
  have hshape : shapeEq g g' :=
    ⟨Grid.write_array_length hw, Grid.write_rowLen hw⟩
  have hpt := Grid.get_write hw
  constructor
  · refine ⟨hshape, fun r' c' => ?_⟩
    rw [hpt r' c']
    by_cases hc : r' = r ∧ c' = c
    · rcases hc with ⟨rfl, rfl⟩
      rw [if_pos ⟨rfl, rfl⟩]
      exact Or.inr ⟨hU, by simpa using ht⟩
    · rw [if_neg hc]
      exact Or.inl rfl
  · intro hgg
    have := hpt r c
    rw [if_pos ⟨rfl, rfl⟩, hgg, hU] at this
    exact ht (by simpa using this.symm)

/-! ### Loop combinator lemmas -/

theorem forN_ok_invariant {σ : Type} {f : Nat → σ → P σ} {Q : σ → Prop}
    (hf : ∀ i s s', Q s → f i s = .ok s' → Q s') :
    ∀ (k i : Nat) (s s' : σ), forN f i k s = .ok s' → Q s → Q s' := by
  intro k
  induction k with
  | zero =>
    intro i s s' h hs
    cases h
    exact hs
  | succ n ih =>
    intro i s s' h hs
    unfold forN at h
    cases hstep : f i s with
    | error e => rw [hstep] at h; cases h
    | ok s1 =>
      rw [hstep] at h
      simp only [bind, Except.bind] at h
      exact ih (i + 1) s1 s' h (hf i s s1 hs hstep)

theorem forN_ok_id {σ : Type} {f : Nat → σ → P σ} {s : σ}
    (hf : ∀ i, f i s = .ok s) :
    ∀ (k i : Nat), forN f i k s = .ok s := by
  intro k
  induction k with
  | zero => intro i; rfl
  | succ n ih =>
    intro i
    unfold forN
    rw [hf i]
    simpa using ih (i + 1)

/-- `forN` is the identity when every visited index fixes the state. -/
theorem forN_ok_id_ranged {σ : Type} {f : Nat → σ → P σ} {s : σ} :
    ∀ (k i : Nat), (∀ j, i ≤ j → j < i + k → f j s = .ok s) →
      forN f i k s = .ok s := by
  intro k
  induction k with
  | zero => intro i h; rfl
  | succ n ih =>
    intro i h
    unfold forN
    rw [h i (le_refl i) (by omega)]
    simpa using ih (i + 1) (fun j h1 h2 => h j (by omega) (by omega))

/-- A reflexive-transitive step relation lifts from the body of a
`forN` loop to the whole loop. -/
theorem forN_ok_rel {σ : Type} {f : Nat → σ → P σ} {R : σ → σ → Prop}
    (hrefl : ∀ s, R s s)
    (htrans : ∀ {a b c : σ}, R a b → R b c → R a c)
    (hstep : ∀ j s s', f j s = .ok s' → R s s') :
    ∀ (k i : Nat) (s s' : σ), forN f i k s = .ok s' → R s s' := by
  intro k
  induction k with
  | zero => intro i s s' h; cases h; exact hrefl s
  | succ n ih =>
    intro i s s' h
    unfold forN at h
    simp only [bind, Except.bind] at h
    split at h
    · cases h
    · rename_i s1 h1
      exact htrans (hstep i s s1 h1) (ih (i + 1) s1 s' h)

/-- Every index a successful `forN` run visits was executed, from a
state reachable from the start and reaching the end (both measured by
any reflexive-transitive per-step relation). -/
theorem forN_ok_steps {σ : Type} {f : Nat → σ → P σ} {R : σ → σ → Prop}
    (hrefl : ∀ s, R s s)
    (htrans : ∀ {a b c : σ}, R a b → R b c → R a c)
    (hstep : ∀ j s s', f j s = .ok s' → R s s') :
    ∀ (k i : Nat) (s s' : σ), forN f i k s = .ok s' →
      ∀ j, i ≤ j → j < i + k →
        ∃ u u', R s u ∧ f j u = .ok u' ∧ R u' s' := by
  intro k
  induction k with
  | zero => intro i s s' h j h1 h2; omega
  | succ n ih =>
    intro i s s' h j h1 h2
    unfold forN at h
    simp only [bind, Except.bind] at h
    split at h
    · cases h
    · rename_i s1 hstep1
      by_cases hji : j = i
      · subst hji
        exact ⟨s, s1, hrefl s, hstep1,
          forN_ok_rel hrefl htrans hstep n (j + 1) s1 s' h⟩
      · obtain ⟨u, u', hu, hf, hs⟩ :=
          ih (i + 1) s1 s' h j (by omega) (by omega)
        exact ⟨u, u', htrans (hstep i s s1 hstep1) hu, hf, hs⟩

namespace Grid

/-- `Camp`/`Grass`/… count of one row, as a pure function. -/
def countRowP (g : Grid) (r : Nat) (t : Tile) : Nat :=
  ((g.array.get? r).getD []).countP (fun x => decide (x = t))

/-- Tile count of one column, as a pure function. -/
def countColP (g : Grid) (c : Nat) (t : Tile) : Nat :=
  g.array.countP (fun row => decide (row.get? c = some t))

end Grid

/-! ### Uniform-value narrowing: a rule that only writes one value -/

/-- Every cell unchanged, or moved from `Unassigned` to `v`. -/
def stepRel (v : Tile) (g g' : Grid) : Prop :=
  shapeEq g g' ∧ ∀ r c, g'.get r c = g.get r c ∨
    (g.get r c = some Tile.Unassigned ∧ g'.get r c = some v)

theorem stepRel_refl (v : Tile) (g : Grid) : stepRel v g g :=
  ⟨shapeEq_refl g, fun _ _ => Or.inl rfl⟩

theorem stepRel_trans {v : Tile} {g1 g2 g3 : Grid}
    (h1 : stepRel v g1 g2) (h2 : stepRel v g2 g3) : stepRel v g1 g3 := by
  refine ⟨shapeEq_trans h1.1 h2.1, fun r c => ?_⟩
  rcases h2.2 r c with h23 | ⟨h2u, h3v⟩
  · rcases h1.2 r c with h12 | ⟨h1u, h2v⟩
    · exact Or.inl (h23.trans h12)
    · exact Or.inr ⟨h1u, h23.trans h2v⟩
  · rcases h1.2 r c with h12 | ⟨h1u, h2v⟩
    · exact Or.inr ⟨h12 ▸ h2u, h3v⟩
    · exact Or.inr ⟨h1u, h3v⟩

theorem stepRel_narrow {v : Tile} (hv : v ≠ Tile.Unassigned)
    {g g' : Grid} (h : stepRel v g g') : Narrow g g' := by
  refine ⟨h.1, fun r c => ?_⟩
  rcases h.2 r c with heq | ⟨hu, hv'⟩
  · exact Or.inl heq
  · exact Or.inr ⟨hu, by rw [hv']; simpa using hv⟩

/-- A single write of `v` into an `Unassigned` cell, as a `stepRel`
step. -/
theorem stepRel_write {v : Tile} {g g' : Grid} {r c : Nat}
    (hU : g.get r c = some Tile.Unassigned)
    (hw : g.write r c v = .ok g') : stepRel v g g' := by
  refine ⟨⟨Grid.write_array_length hw, Grid.write_rowLen hw⟩,
    fun r' c' => ?_⟩
  rw [Grid.get_write hw r' c']
  by_cases hc : r' = r ∧ c' = c
  · rcases hc with ⟨rfl, rfl⟩
    rw [if_pos ⟨rfl, rfl⟩]
    exact Or.inr ⟨hU, rfl⟩
  · rw [if_neg hc]
    exact Or.inl rfl

/-- Counting one value in two pointwise-equivalent lists. -/
theorem countP_eq_of_get_iff {t : Tile} {l l' : List Tile}
    (hlen : l'.length = l.length)
    (h : ∀ c, l'.get? c = some t ↔ l.get? c = some t) :
    l'.countP (fun x => decide (x = t)) =
      l.countP (fun x => decide (x = t)) := by
  induction l generalizing l' with
  | nil =>
    have : l' = [] := List.length_eq_zero.mp hlen
    subst this
    rfl
  | cons a as ih =>
    rcases l' with _ | ⟨b, bs⟩
    · cases hlen
    · have hhead := h 0
      simp only [List.get?] at hhead
      have htail := @ih bs (by simpa using hlen)
        (fun c => by simpa using h (c + 1))
      rw [List.countP_cons, List.countP_cons, htail]
      by_cases hb : b = t
      · have ha : a = t := by
          have := hhead.mp (by rw [hb])
          simpa using this
        simp [ha, hb]
      · have ha : a ≠ t := by
          intro haeq
          exact hb (by simpa using hhead.mpr (by rw [haeq]))
        simp [ha, hb]

/-- Counting rows satisfying a predicate in two pairwise-equivalent
arrays. -/
theorem countP_rows_eq {p : List Tile → Bool}
    {A A' : List (List Tile)} (hlen : A'.length = A.length)
    (h : ∀ i a a', A.get? i = some a → A'.get? i = some a' →
      p a' = p a) :
    A'.countP p = A.countP p := by
  induction A generalizing A' with
  | nil =>
    have : A' = [] := List.length_eq_zero.mp hlen
    subst this
    rfl
  | cons a as ih =>
    rcases A' with _ | ⟨b, bs⟩
    · cases hlen
    · rw [List.countP_cons, List.countP_cons, h 0 a b rfl rfl,
        ih (by simpa using hlen)
          (fun i x y hx hy => h (i + 1) x y (by simpa using hx)
            (by simpa using hy))]

/-- A `stepRel v` step with `v ∉ {t, Unassigned}` preserves the row
counts of `t`. -/
theorem stepRel_countRowP {v t : Tile} (hvt : v ≠ t)
    (ht : t ≠ Tile.Unassigned) {g g' : Grid} (h : stepRel v g g')
    (r : Nat) : Grid.countRowP g' r t = Grid.countRowP g r t := by
  unfold Grid.countRowP
  cases hrow : g.array.get? r with
  | none =>
    have hnone : g'.array.get? r = none := by
      rw [List.get?_eq_none] at hrow ⊢
      rw [h.1.1]
      exact hrow
    rw [hnone]
  | some l =>
    have hlt : r < g.array.length := (List.get?_eq_some.mp hrow).1
    cases hrow' : g'.array.get? r with
    | none =>
      have := List.get?_eq_none.mp hrow'
      rw [h.1.1] at this
      omega
    | some l' =>
      simp only [Option.getD_some]
      refine countP_eq_of_get_iff ?_ ?_
      · have := h.1.2 r
        unfold Grid.rowLen at this
        rw [hrow, hrow'] at this
        simpa using this
      · intro c
        have := h.2 r c
        unfold Grid.get at this
        rw [hrow, hrow'] at this
        simp only [Option.some_bind] at this
        rcases this with heq | ⟨hu, hv'⟩
        · rw [heq]
        · rw [hu, hv']
          constructor
          · intro hh
            exact absurd (by simpa using hh) hvt
          · intro hh
            exact absurd (by simpa using hh) (Ne.symm ht)

/-- A `stepRel v` step with `v ∉ {t, Unassigned}` preserves the column
counts of `t`. -/
theorem stepRel_countColP {v t : Tile} (hvt : v ≠ t)
    (ht : t ≠ Tile.Unassigned) {g g' : Grid} (h : stepRel v g g')
    (c : Nat) : Grid.countColP g' c t = Grid.countColP g c t := by
  unfold Grid.countColP
  refine countP_rows_eq h.1.1 ?_
  intro i a a' ha ha'
  have := h.2 i c
  unfold Grid.get at this
  rw [ha, ha'] at this
  simp only [Option.some_bind] at this
  rcases this with heq | ⟨hu, hv'⟩
  · rw [heq]
  · rw [hu, hv']
    by_cases hvt' : v = t
    · exact absurd hvt' hvt
    · simp only [decide_eq_decide]
      constructor
      · intro hh
        exact absurd (by simpa using hh) hvt
      · intro hh
        exact absurd (by simpa using hh) (Ne.symm ht)

/-! ### `set_camp` characterization -/

namespace Grid

theorem mem_rangeIncl {a b x : Nat} : x ∈ rangeIncl a b ↔ a ≤ x ∧ x ≤ b := by
  unfold rangeIncl
  simp only [List.mem_map, List.mem_range]
  constructor
  · rintro ⟨i, hi, rfl⟩
    omega
  · rintro ⟨h1, h2⟩
    exact ⟨x - a, by omega, by omega⟩

/-- One row of the `set_camp` grass loop. -/
theorem grass_inner_get (cs : List Nat) :
    ∀ (g : Grid) (r0 r c : Nat),
    (cs.foldl (fun g c =>
        if g.get r0 c = some Tile.Unassigned then g.setCell r0 c Tile.Grass
        else g) g).get r c =
      if r = r0 ∧ c ∈ cs ∧ g.get r c = some Tile.Unassigned
      then some Tile.Grass else g.get r c := by
  induction cs with
  | nil => intro g r0 r c; simp
  | cons c0 cs' ih =>
    intro g r0 r c
    simp only [List.foldl_cons]
    set g1 := if g.get r0 c0 = some Tile.Unassigned
      then g.setCell r0 c0 Tile.Grass else g with hg1def
    have hg1 : ∀ r' c', g1.get r' c' =
        if r' = r0 ∧ c' = c0 ∧ g.get r0 c0 = some Tile.Unassigned
        then some Tile.Grass else g.get r' c' := by
      intro r' c'
      rw [hg1def]
      by_cases hU : g.get r0 c0 = some Tile.Unassigned
      · rw [if_pos hU, get_setCell]
        have hS : (g.get r0 c0).isSome = true := by rw [hU]; rfl
        by_cases hrc : r' = r0 ∧ c' = c0
        · rw [if_pos ⟨hrc.1, hrc.2, hS⟩, if_pos ⟨hrc.1, hrc.2, hU⟩]
        · rw [if_neg (fun h => hrc ⟨h.1, h.2.1⟩),
            if_neg (fun h => hrc ⟨h.1, h.2.1⟩)]
      · rw [if_neg hU, if_neg (fun h => hU h.2.2)]
    rw [ih g1 r0 r c]
    by_cases hr : r = r0
    · subst hr
      by_cases hc0 : c = c0
      · subst hc0
        by_cases hU : g.get r c = some Tile.Unassigned
        · have : g1.get r c = some Tile.Grass := by
            rw [hg1 r c, if_pos ⟨rfl, rfl, hU⟩]
          rw [if_neg (fun h => by rw [this] at h; cases h.2.2),
            this, if_pos ⟨rfl, by simp, hU⟩]
        · have : g1.get r c = g.get r c := by
            rw [hg1 r c, if_neg (fun h => hU h.2.2)]
          rw [this, if_neg (fun h => hU h.2.2), if_neg (fun h => hU h.2.2)]
      · have hskip : g1.get r c = g.get r c := by
          rw [hg1 r c, if_neg (fun h => hc0 h.2.1)]
        rw [hskip]
        by_cases hmem : c ∈ cs'
        · by_cases hU : g.get r c = some Tile.Unassigned
          · rw [if_pos ⟨rfl, hmem, hU⟩, if_pos ⟨rfl, by simp [hmem], hU⟩]
          · rw [if_neg (fun h => hU h.2.2), if_neg (fun h => hU h.2.2)]
        · rw [if_neg (fun h => hmem h.2.1),
            if_neg (fun h => by
              rcases List.mem_cons.mp h.2.1 with h1 | h1
              · exact hc0 h1
              · exact hmem h1)]
    · have : g1.get r c = g.get r c := by
        rw [hg1 r c, if_neg (fun h => hr h.1)]
      rw [this, if_neg (fun h => hr h.1), if_neg (fun h => hr h.1)]

theorem grassAround_get (g : Grid) (row col r c : Nat) :
    (g.grassAround row col).get r c =
      if r ∈ rangeIncl (row - 1) (row + 1) ∧
          c ∈ rangeIncl (col - 1) (col + 1) ∧
          g.get r c = some Tile.Unassigned
      then some Tile.Grass else g.get r c := by
  unfold grassAround
  generalize rangeIncl (row - 1) (row + 1) = rs
  generalize rangeIncl (col - 1) (col + 1) = cs
  induction rs generalizing g with
  | nil => simp
  | cons r0 rs' ih =>
    simp only [List.foldl_cons]
    set g1 := cs.foldl (fun g c =>
      if g.get r0 c = some Tile.Unassigned then g.setCell r0 c Tile.Grass
      else g) g with hg1def
    have hg1 := fun r' c' => grass_inner_get cs g r0 r' c'
    rw [ih g1]
    by_cases hr0 : r = r0
    · subst hr0
      by_cases hcs : c ∈ cs
      · by_cases hU : g.get r c = some Tile.Unassigned
        · have hgr : g1.get r c = some Tile.Grass := by
            rw [hg1 r c, if_pos ⟨rfl, hcs, hU⟩]
          rw [if_neg (fun h => by rw [hgr] at h; cases h.2.2), hgr,
            if_pos ⟨by simp, hcs, hU⟩]
        · have heq : g1.get r c = g.get r c := by
            rw [hg1 r c, if_neg (fun h => hU h.2.2)]
          rw [heq, if_neg (fun h => hU h.2.2), if_neg (fun h => hU h.2.2)]
      · have heq : g1.get r c = g.get r c := by
          rw [hg1 r c, if_neg (fun h => hcs h.2.1)]
        rw [heq, if_neg (fun h => hcs h.2.1),
          if_neg (fun h => hcs h.2.1)]
    · have heq : g1.get r c = g.get r c := by
        rw [hg1 r c, if_neg (fun h => hr0 h.1)]
      rw [heq]
      by_cases hmem : r ∈ rs'
      · by_cases hrest : c ∈ cs ∧ g.get r c = some Tile.Unassigned
        · rw [if_pos ⟨hmem, hrest.1, hrest.2⟩,
            if_pos ⟨List.mem_cons_of_mem r0 hmem, hrest.1, hrest.2⟩]
        · rw [if_neg (fun h => hrest ⟨h.2.1, h.2.2⟩),
            if_neg (fun h => hrest ⟨h.2.1, h.2.2⟩)]
      · rw [if_neg (fun h => hmem h.1),
          if_neg (fun h => by
            rcases List.mem_cons.mp h.1 with h1 | h1
            · exact hr0 h1
            · exact hmem h1)]

theorem campNearby_iff {g : Grid} {row col : Nat} :
    campNearby g row col = true ↔
      ∃ r c, Nat.dist r row ≤ 1 ∧ Nat.dist c col ≤ 1 ∧
        g.get r c = some Tile.Camp := by
  unfold campNearby
  simp only [List.any_eq_true, mem_rangeIncl, decide_eq_true_eq]
  constructor
  · rintro ⟨r, ⟨hr1, hr2⟩, c, ⟨hc1, hc2⟩, hcamp⟩
    exact ⟨r, c, by simp [Nat.dist]; omega, by simp [Nat.dist]; omega,
      hcamp⟩
  · rintro ⟨r, c, hr, hc, hcamp⟩
    simp only [Nat.dist] at hr hc
    exact ⟨r, ⟨by omega, by omega⟩, c, ⟨by omega, by omega⟩, hcamp⟩

theorem mem_rangeIncl_dist {x m : Nat} :
    x ∈ rangeIncl (m - 1) (m + 1) ↔ Nat.dist x m ≤ 1 := by
  rw [mem_rangeIncl]
  simp only [Nat.dist]
  omega

/-- Full characterization of a successful `set_camp`. -/
theorem set_camp_ok_some_char {g g' : Grid} {row col : Nat}
    (h : g.set_camp row col = .ok (some g')) :
    campNearby g row col = false ∧
    ∀ r c, g'.get r c =
      if r = row ∧ c = col then some Tile.Camp
      else if Nat.dist r row ≤ 1 ∧ Nat.dist c col ≤ 1 ∧
          g.get r c = some Tile.Unassigned then some Tile.Grass
      else g.get r c := by
  unfold set_camp at h
  split at h
  · cases h
  · rename_i hnc
    have hnc' : campNearby g row col = false := by
      simpa using hnc
    refine ⟨hnc', ?_⟩
    simp only [bind, Except.bind] at h
    cases hw : g.write row col Tile.Camp with
    | error e => rw [hw] at h; cases h
    | ok g1 =>
      rw [hw] at h
      simp only [pure, Except.pure, Except.ok.injEq, Option.some.injEq]
        at h
      subst h
      intro r c
      rw [grassAround_get]
      have hg1 := Grid.get_write hw
      by_cases hcenter : r = row ∧ c = col
      · rcases hcenter with ⟨rfl, rfl⟩
        have hcc : g1.get r c = some Tile.Camp := by
          rw [hg1 r c, if_pos ⟨rfl, rfl⟩]
        rw [if_neg (fun hcon => by rw [hcc] at hcon; cases hcon.2.2),
          hcc, if_pos ⟨rfl, rfl⟩]
      · have hg1rc : g1.get r c = g.get r c := by
          rw [hg1 r c, if_neg hcenter]
        rw [hg1rc]
        by_cases hcond : Nat.dist r row ≤ 1 ∧ Nat.dist c col ≤ 1 ∧
            g.get r c = some Tile.Unassigned
        · rw [if_pos ⟨mem_rangeIncl_dist.mpr hcond.1,
            mem_rangeIncl_dist.mpr hcond.2.1, hcond.2.2⟩,
            if_neg hcenter, if_pos hcond]
        · rw [if_neg (fun h => hcond ⟨mem_rangeIncl_dist.mp h.1,
            mem_rangeIncl_dist.mp h.2.1, h.2.2⟩),
            if_neg hcenter, if_neg hcond]

/-- No two `Camp` cells are 8-adjacent. -/
def noAdjacentCamps (g : Grid) : Prop :=
  ∀ r c r' c', g.get r c = some Tile.Camp →
    g.get r' c' = some Tile.Camp → (r, c) ≠ (r', c') →
    ¬(Nat.dist r r' ≤ 1 ∧ Nat.dist c c' ≤ 1)

end Grid

end CampsAndTrees

namespace CampsAndTrees

/-! ### Rule invariants: targets kept, grid narrowed, change flag
exact -/

/-- The invariant every deduction-rule loop maintains, relative to the
board `b0` the rule started from: the target vectors are untouched, the
grid is reachable by `rel`, a `false` flag means nothing happened yet,
a `true` flag means the `Unassigned` count strictly dropped. -/
def RuleInv (b0 : Board) (rel : Grid → Grid → Prop)
    (s : Board × Bool) : Prop :=
  s.1.rows = b0.rows ∧ s.1.columns = b0.columns ∧ rel b0.grid s.1.grid ∧
  (s.2 = false → s.1 = b0) ∧
  (s.2 = true →
    unassignedCount s.1.grid < unassignedCount b0.grid)

theorem ruleInv_start (b0 : Board) {rel : Grid → Grid → Prop}
    (hrefl : rel b0.grid b0.grid) : RuleInv b0 rel (b0, false) :=
  ⟨rfl, rfl, hrefl, fun _ => rfl, fun h => by cases h⟩

/-- The single-write step: writing `v ≠ Unassigned` into an
`Unassigned` cell preserves the rule invariant and raises the flag. -/
theorem ruleInv_write_step {v : Tile} (hv : v ≠ Tile.Unassigned)
    {b0 bCur : Board} {ch : Bool} {g' : Grid} {r c : Nat}
    (hInv : RuleInv b0 (stepRel v) (bCur, ch))
    (hU : bCur.grid.get r c = some Tile.Unassigned)
    (hw : bCur.grid.write r c v = .ok g') :
    RuleInv b0 (stepRel v) ({ bCur with grid := g' }, true) := by
  obtain ⟨hr, hc, hrel, _, _⟩ := hInv
  have hstep := stepRel_write hU hw
  refine ⟨hr, hc, stepRel_trans hrel hstep, by simp, fun _ => ?_⟩
  have hne : g' ≠ bCur.grid := by
    intro he
    have hget := Grid.get_write hw r c
    rw [if_pos ⟨rfl, rfl⟩, he, hU] at hget
    exact hv (by simpa using hget.symm)
  have hlt : unassignedCount g' < unassignedCount bCur.grid :=
    unassignedCount_lt_of_narrow_ne (stepRel_narrow hv hstep) hne
  have hle : unassignedCount bCur.grid ≤ unassignedCount b0.grid :=
    unassignedCount_le_of_narrow (stepRel_narrow hv hrel)
  show unassignedCount g' < unassignedCount b0.grid
  omega

theorem idx_ok_get {g : Grid} {r c : Nat} {t : Tile}
    (h : g.idx r c = .ok t) : g.get r c = some t := by
  unfold Grid.idx at h
  cases hg : g.get r c with
  | none => simp [hg] at h
  | some t0 =>
    simp [hg] at h
    rw [h]

theorem igCell_inv {b0 : Board} {row col : Nat} {s s' : Board × Bool}
    (hInv : RuleInv b0 (stepRel Tile.Grass) s)
    (h : igCell row col s = .ok s') :
    RuleInv b0 (stepRel Tile.Grass) s' := by
  obtain ⟨b, ch⟩ := s
  unfold igCell at h
  simp only [bind, Except.bind] at h
  split at h
  · cases h
  · rename_i t hidx
    split at h
    · rename_i ht
      split at h
      · cases h
      · rename_i tiles hnb
        split at h
        · split at h
          · cases h
          · rename_i g' hw
            simp only [pure, Except.pure, Except.ok.injEq] at h
            subst h
            have hU : b.grid.get row col = some Tile.Unassigned := by
              subst ht
              unfold Grid.idx at hidx
              cases hg : b.grid.get row col with
              | none => simp [hg] at hidx
              | some t0 =>
                simp [hg] at hidx
                rw [hidx]
            exact ruleInv_write_step (by simp) hInv hU hw
        · simp only [pure, Except.pure, Except.ok.injEq] at h
          subst h
          exact hInv
    · simp only [pure, Except.pure, Except.ok.injEq] at h
      subst h
      exact hInv

/-- The full invariant for `initialize_grass`. -/
theorem initGrass_inv {b0 : Board} {s' : Board × Bool}
    (h : initGrass b0 = .ok s') :
    RuleInv b0 (stepRel Tile.Grass) s' := by
  unfold initGrass at h
  refine forN_ok_invariant ?_ b0.rows.length 0 (b0, false) s' h
    (ruleInv_start b0 (stepRel_refl _ _))
  intro i s s1 hs hstep
  exact forN_ok_invariant (fun j u u' hu hstep' => igCell_inv hu hstep')
    b0.columns.length 0 s s1 hstep hs

/-- Step lemma shared by the inner write loops of `fill_zeros` and
`fill_camps` (one conditional write of `v` per cell). -/
theorem writeLoop_inv {v : Tile} (hv : v ≠ Tile.Unassigned)
    {b0 : Board} {r c : Nat} {u u' : Board × Bool}
    (hu : RuleInv b0 (stepRel v) u)
    (hstep : (do
      let (b, changed) := u
      let t ← b.grid.idx r c
      if t = Tile.Unassigned then do
        let g ← b.grid.write r c v
        pure (({ b with grid := g }, true) : Board × Bool)
      else pure (b, changed)) = .ok u') :
    RuleInv b0 (stepRel v) u' := by
  obtain ⟨bb, cch⟩ := u
  simp only [bind, Except.bind] at hstep
  split at hstep
  · cases hstep
  · rename_i t hidx
    split at hstep
    · rename_i ht
      split at hstep
      · cases hstep
      · rename_i g' hw
        simp only [pure, Except.pure, Except.ok.injEq] at hstep
        subst hstep
        exact ruleInv_write_step hv hu (ht ▸ idx_ok_get hidx) hw
    · simp only [pure, Except.pure, Except.ok.injEq] at hstep
      subst hstep
      exact hu

theorem fzRow_inv {b0 : Board} {row : Nat} {s s' : Board × Bool}
    (hs : RuleInv b0 (stepRel Tile.Grass) s)
    (h : fzRow b0 row s = .ok s') :
    RuleInv b0 (stepRel Tile.Grass) s' := by
  obtain ⟨b, ch⟩ := s
  unfold fzRow at h
  simp only [bind, Except.bind] at h
  split at h
  · cases h
  · split at h
    · cases h
    · split at h
      · refine forN_ok_invariant ?_ b0.columns.length 0 (b, ch) s' h hs
        intro i u u' hu hstep
        exact writeLoop_inv (by simp) hu hstep
      · simp only [pure, Except.pure, Except.ok.injEq] at h
        subst h
        exact hs

theorem fzColumn_inv {b0 : Board} {column : Nat} {s s' : Board × Bool}
    (hs : RuleInv b0 (stepRel Tile.Grass) s)
    (h : fzColumn b0 column s = .ok s') :
    RuleInv b0 (stepRel Tile.Grass) s' := by
  obtain ⟨b, ch⟩ := s
  unfold fzColumn at h
  simp only [bind, Except.bind] at h
  split at h
  · cases h
  · split at h
    · cases h
    · split at h
      · refine forN_ok_invariant ?_ b0.rows.length 0 (b, ch) s' h hs
        intro i u u' hu hstep
        exact writeLoop_inv (by simp) hu hstep
      · simp only [pure, Except.pure, Except.ok.injEq] at h
        subst h
        exact hs

/-- The full invariant for `fill_zeros`: grass-only narrowing. -/
theorem fillZeros_inv {b0 : Board} {s' : Board × Bool}
    (h : fillZeros b0 = .ok s') :
    RuleInv b0 (stepRel Tile.Grass) s' := by
  unfold fillZeros at h
  simp only [bind, Except.bind] at h
  split at h
  · cases h
  · rename_i s1 h1
    have hInv1 : RuleInv b0 (stepRel Tile.Grass) s1 :=
      forN_ok_invariant (fun i u u' hu hstep => fzRow_inv hu hstep)
        b0.rows.length 0 (b0, false) s1 h1
        (ruleInv_start b0 (stepRel_refl _ _))
    exact forN_ok_invariant (fun i u u' hu hstep => fzColumn_inv hu hstep)
      b0.columns.length 0 s1 s' h hInv1

theorem fcRow_inv {b0 : Board} {row : Nat} {s s' : Board × Bool}
    (hs : RuleInv b0 (stepRel Tile.Camp) s)
    (h : fcRow b0 row s = .ok s') :
    RuleInv b0 (stepRel Tile.Camp) s' := by
  obtain ⟨b, ch⟩ := s
  unfold fcRow at h
  simp only [bind, Except.bind] at h
  split at h
  · cases h
  · split at h
    · cases h
    · split at h
      · cases h
      · split at h
        · refine forN_ok_invariant ?_ b0.columns.length 0 (b, ch) s' h hs
          intro i u u' hu hstep
          exact writeLoop_inv (by simp) hu hstep
        · simp only [pure, Except.pure, Except.ok.injEq] at h
          subst h
          exact hs

theorem fcColumn_inv {b0 : Board} {column : Nat} {s s' : Board × Bool}
    (hs : RuleInv b0 (stepRel Tile.Camp) s)
    (h : fcColumn b0 column s = .ok s') :
    RuleInv b0 (stepRel Tile.Camp) s' := by
  obtain ⟨b, ch⟩ := s
  unfold fcColumn at h
  simp only [bind, Except.bind] at h
  split at h
  · cases h
  · split at h
    · cases h
    · split at h
      · cases h
      · split at h
        · refine forN_ok_invariant ?_ b0.rows.length 0 (b, ch) s' h hs
          intro i u u' hu hstep
          exact writeLoop_inv (by simp) hu hstep
        · simp only [pure, Except.pure, Except.ok.injEq] at h
          subst h
          exact hs

/-- The full invariant for `fill_camps`: camp-only direct assignment,
no neighbour is ever touched. -/
theorem fillCamps_inv {b0 : Board} {s' : Board × Bool}
    (h : fillCamps b0 = .ok s') :
    RuleInv b0 (stepRel Tile.Camp) s' := by
  unfold fillCamps at h
  simp only [bind, Except.bind] at h
  split at h
  · cases h
  · rename_i s1 h1
    have hInv1 : RuleInv b0 (stepRel Tile.Camp) s1 :=
      forN_ok_invariant (fun i u u' hu hstep => fcRow_inv hu hstep)
        b0.rows.length 0 (b0, false) s1 h1
        (ruleInv_start b0 (stepRel_refl _ _))
    exact forN_ok_invariant (fun i u u' hu hstep => fcColumn_inv hu hstep)
      b0.columns.length 0 s1 s' h hInv1

/-- Characterisation of one conditional write of `v` (the body of the
inner loops of `fill_zeros`/`fill_camps`): targets untouched, only the
written cell changes, an `Unassigned` cell at the write position
becomes `v`, and the whole step is a `stepRel v` move. -/
theorem writeStep_char {v : Tile} {r c : Nat} {u u' : Board × Bool}
    (hstep : (do
      let (b, changed) := u
      let t ← b.grid.idx r c
      if t = Tile.Unassigned then do
        let g ← b.grid.write r c v
        pure (({ b with grid := g }, true) : Board × Bool)
      else pure (b, changed)) = .ok u') :
    u'.1.rows = u.1.rows ∧ u'.1.columns = u.1.columns ∧
    (∀ r' c', ¬(r' = r ∧ c' = c) →
      u'.1.grid.get r' c' = u.1.grid.get r' c') ∧
    (u.1.grid.get r c = some Tile.Unassigned →
      u'.1.grid.get r c = some v) ∧
    stepRel v u.1.grid u'.1.grid := by
  obtain ⟨b, ch⟩ := u
  simp only [bind, Except.bind] at hstep
  split at hstep
  · cases hstep
  · rename_i t hidx
    split at hstep
    · rename_i ht
      split at hstep
      · cases hstep
      · rename_i g' hw
        simp only [pure, Except.pure, Except.ok.injEq] at hstep
        subst hstep
        have hg := Grid.get_write hw
        refine ⟨rfl, rfl, ?_, ?_, stepRel_write (ht ▸ idx_ok_get hidx) hw⟩
        · intro r' c' hne
          rw [hg r' c', if_neg hne]
        · intro _
          rw [hg r c, if_pos ⟨rfl, rfl⟩]
    · rename_i ht
      simp only [pure, Except.pure, Except.ok.injEq] at hstep
      subst hstep
      have hget := idx_ok_get hidx
      refine ⟨rfl, rfl, fun _ _ _ => rfl, ?_, stepRel_refl v b.grid⟩
      intro hU
      rw [hget] at hU
      injection hU with hU'
      exact absurd hU' ht

/-- In the camp-filling inner loop over one row, every cell of the row
that starts `Unassigned` among the visited columns ends up `v`. -/
theorem fcRowLoop_sets {v : Tile} (hv : v ≠ Tile.Unassigned) (row : Nat) :
    ∀ (k i : Nat) (s s' : Board × Bool),
      forN (fun column s => do
          let (b, changed) := s
          let t ← b.grid.idx row column
          if t = Tile.Unassigned then do
            let g ← b.grid.write row column v
            pure (({ b with grid := g }, true) : Board × Bool)
          else pure (b, changed)) i k s = .ok s' →
      ∀ c, i ≤ c → c < i + k →
        s.1.grid.get row c = some Tile.Unassigned →
        s'.1.grid.get row c = some v := by
  intro k
  induction k with
  | zero => intro i s s' h c hic hck hU; omega
  | succ n ih =>
    intro i s s' h c hic hck hU
    unfold forN at h
    simp only [bind, Except.bind] at h
    split at h
    · cases h
    · rename_i s1 hstep
      have hchar := writeStep_char hstep
      have hkeep : ∀ (u u' : Board × Bool),
          stepRel v u.1.grid u'.1.grid →
          u.1.grid.get row c = some v → u'.1.grid.get row c = some v := by
        intro u u' hrel hq
        rcases hrel.2 row c with he | ⟨_, hv'⟩
        · rw [he]; exact hq
        · exact hv'
      by_cases hci : c = i
      · subst hci
        have h1 : s1.1.grid.get row c = some v := hchar.2.2.2.1 hU
        exact forN_ok_invariant
          (Q := fun u => u.1.grid.get row c = some v)
          (fun j u u' hq hstep' =>
            hkeep u u' (writeStep_char hstep').2.2.2.2 hq)
          n (c + 1) s1 s' h h1
      · have hlt : i < c := Nat.lt_of_le_of_ne hic fun he => hci he.symm
        have h1 : s1.1.grid.get row c = some Tile.Unassigned := by
          rw [hchar.2.2.1 row c (fun hp => hci hp.2), hU]
        exact ih (i + 1) s1 s' h c hlt (by omega) h1

/-- In the camp-filling inner loop over one column, every cell of the
column that starts `Unassigned` among the visited rows ends up `v`. -/
theorem fcColLoop_sets {v : Tile} (hv : v ≠ Tile.Unassigned)
    (column : Nat) :
    ∀ (k i : Nat) (s s' : Board × Bool),
      forN (fun row s => do
          let (b, changed) := s
          let t ← b.grid.idx row column
          if t = Tile.Unassigned then do
            let g ← b.grid.write row column v
            pure (({ b with grid := g }, true) : Board × Bool)
          else pure (b, changed)) i k s = .ok s' →
      ∀ r, i ≤ r → r < i + k →
        s.1.grid.get r column = some Tile.Unassigned →
        s'.1.grid.get r column = some v := by
  intro k
  induction k with
  | zero => intro i s s' h r hir hrk hU; omega
  | succ n ih =>
    intro i s s' h r hir hrk hU
    unfold forN at h
    simp only [bind, Except.bind] at h
    split at h
    · cases h
    · rename_i s1 hstep
      have hchar := writeStep_char hstep
      have hkeep : ∀ (u u' : Board × Bool),
          stepRel v u.1.grid u'.1.grid →
          u.1.grid.get r column = some v →
          u'.1.grid.get r column = some v := by
        intro u u' hrel hq
        rcases hrel.2 r column with he | ⟨_, hv'⟩
        · rw [he]; exact hq
        · exact hv'
      by_cases hri : r = i
      · subst hri
        have h1 : s1.1.grid.get r column = some v := hchar.2.2.2.1 hU
        exact forN_ok_invariant
          (Q := fun u => u.1.grid.get r column = some v)
          (fun j u u' hq hstep' =>
            hkeep u u' (writeStep_char hstep').2.2.2.2 hq)
          n (r + 1) s1 s' h h1
      · have hlt : i < r := Nat.lt_of_le_of_ne hir fun he => hri he.symm
        have h1 : s1.1.grid.get r column = some Tile.Unassigned := by
          rw [hchar.2.2.1 r column (fun hp => hri hp.1), hU]
        exact ih (i + 1) s1 s' h r hlt (by omega) h1

/-! ### Pure interval counts, characterising `count_in_row` and
`count_in_column` -/

/-- Pure count of `t` along row `r`, columns `i` to `i + k - 1`. -/
def countIv (g : Grid) (r : Nat) (t : Tile) : Nat → Nat → Nat
  | _, 0 => 0
  | i, k + 1 =>
    (if g.get r i = some t then 1 else 0) + countIv g r t (i + 1) k

/-- Pure count of `t` along column `c`, rows `i` to `i + k - 1`. -/
def countIvC (g : Grid) (c : Nat) (t : Tile) : Nat → Nat → Nat
  | _, 0 => 0
  | i, k + 1 =>
    (if g.get i c = some t then 1 else 0) + countIvC g c t (i + 1) k

theorem countIv_succ (g : Grid) (r : Nat) (t : Tile) (i k : Nat) :
    countIv g r t i (k + 1) =
      (if g.get r i = some t then 1 else 0) + countIv g r t (i + 1) k :=
  rfl

theorem countIvC_succ (g : Grid) (c : Nat) (t : Tile) (i k : Nat) :
    countIvC g c t i (k + 1) =
      (if g.get i c = some t then 1 else 0) + countIvC g c t (i + 1) k :=
  rfl

/-- A successful run of the counting loop of `count_in_row` read every
visited cell. -/
theorem countLoop_isSome {g : Grid} {r : Nat} {t : Tile} :
    ∀ (k i m n : Nat),
      forN (fun column count => do
          let x ← g.idx r column
          if x = t then pure (count + 1) else pure count) i k m =
        .ok n →
      ∀ c, i ≤ c → c < i + k → (g.get r c).isSome = true := by
  intro k
  induction k with
  | zero => intro i m n h c h1 h2; omega
  | succ kk ih =>
    intro i m n h c h1 h2
    unfold forN at h
    simp only [bind, Except.bind] at h
    split at h
    · cases h
    · rename_i m1 hstep
      by_cases hci : c = i
      · subst hci
        split at hstep
        · cases hstep
        · rename_i x hix
          rw [idx_ok_get hix]
          rfl
      · exact ih (i + 1) m1 n h c (by omega) (by omega)

/-- Column analogue of `countLoop_isSome`. -/
theorem countLoopC_isSome {g : Grid} {c : Nat} {t : Tile} :
    ∀ (k i m n : Nat),
      forN (fun row count => do
          let x ← g.idx row c
          if x = t then pure (count + 1) else pure count) i k m =
        .ok n →
      ∀ r, i ≤ r → r < i + k → (g.get r c).isSome = true := by
  intro k
  induction k with
  | zero => intro i m n h r h1 h2; omega
  | succ kk ih =>
    intro i m n h r h1 h2
    unfold forN at h
    simp only [bind, Except.bind] at h
    split at h
    · cases h
    · rename_i m1 hstep
      by_cases hri : r = i
      · subst hri
        split at hstep
        · cases hstep
        · rename_i x hix
          rw [idx_ok_get hix]
          rfl
      · exact ih (i + 1) m1 n h r (by omega) (by omega)

/-- When every visited cell exists, the counting loop of
`count_in_row` computes the pure interval count. -/
theorem countLoop_eq {g : Grid} {r : Nat} {t : Tile} :
    ∀ (k i m : Nat),
      (∀ c, i ≤ c → c < i + k → (g.get r c).isSome = true) →
      forN (fun column count => do
          let x ← g.idx r column
          if x = t then pure (count + 1) else pure count) i k m =
        .ok (m + countIv g r t i k) := by
  intro k
  induction k with
  | zero => intro i m hS; simp [forN, countIv]
  | succ kk ih =>
    intro i m hS
    have hsome := hS i (le_refl i) (by omega)
    cases hx : g.get r i with
    | none => rw [hx] at hsome; cases hsome
    | some x =>
      have hidx : g.idx r i = .ok x := by unfold Grid.idx; rw [hx]
      have hbind : ∀ (a : P Nat) (w : Nat), a = .ok w →
          (a >>= forN (fun column count => do
              let x ← g.idx r column
              if x = t then pure (count + 1) else pure count)
            (i + 1) kk) =
          forN (fun column count => do
              let x ← g.idx r column
              if x = t then pure (count + 1) else pure count)
            (i + 1) kk w := by
        intro a w ha
        rw [ha]
        rfl
      by_cases hxt : x = t
      · have hstep1 : (do
            let y ← g.idx r i
            if y = t then pure (m + 1) else pure m : P Nat) =
              .ok (m + 1) := by
          simp only [bind, Except.bind, hidx, if_pos hxt]
          rfl
        have harith : m + 1 + countIv g r t (i + 1) kk =
            m + countIv g r t i (kk + 1) := by
          rw [countIv_succ, hx, if_pos (by rw [hxt])]
          omega
        unfold forN
        exact (hbind _ _ hstep1).trans
          ((ih (i + 1) (m + 1)
            (fun c h1 h2 => hS c (by omega) (by omega))).trans
          (by rw [harith]))
      · have hstep1 : (do
            let y ← g.idx r i
            if y = t then pure (m + 1) else pure m : P Nat) = .ok m := by
          simp only [bind, Except.bind, hidx, if_neg hxt]
          rfl
        have harith : m + countIv g r t (i + 1) kk =
            m + countIv g r t i (kk + 1) := by
          rw [countIv_succ, hx,
            if_neg (fun he => hxt (by injection he))]
          omega
        unfold forN
        exact (hbind _ _ hstep1).trans
          ((ih (i + 1) m
            (fun c h1 h2 => hS c (by omega) (by omega))).trans
          (by rw [harith]))

/-- Column analogue of `countLoop_eq`. -/
theorem countLoopC_eq {g : Grid} {c : Nat} {t : Tile} :
    ∀ (k i m : Nat),
      (∀ r, i ≤ r → r < i + k → (g.get r c).isSome = true) →
      forN (fun row count => do
          let x ← g.idx row c
          if x = t then pure (count + 1) else pure count) i k m =
        .ok (m + countIvC g c t i k) := by
  intro k
  induction k with
  | zero => intro i m hS; simp [forN, countIvC]
  | succ kk ih =>
    intro i m hS
    have hsome := hS i (le_refl i) (by omega)
    cases hx : g.get i c with
    | none => rw [hx] at hsome; cases hsome
    | some x =>
      have hidx : g.idx i c = .ok x := by unfold Grid.idx; rw [hx]
      have hbind : ∀ (a : P Nat) (w : Nat), a = .ok w →
          (a >>= forN (fun row count => do
              let x ← g.idx row c
              if x = t then pure (count + 1) else pure count)
            (i + 1) kk) =
          forN (fun row count => do
              let x ← g.idx row c
              if x = t then pure (count + 1) else pure count)
            (i + 1) kk w := by
        intro a w ha
        rw [ha]
        rfl
      by_cases hxt : x = t
      · have hstep1 : (do
            let y ← g.idx i c
            if y = t then pure (m + 1) else pure m : P Nat) =
              .ok (m + 1) := by
          simp only [bind, Except.bind, hidx, if_pos hxt]
          rfl
        have harith : m + 1 + countIvC g c t (i + 1) kk =
            m + countIvC g c t i (kk + 1) := by
          rw [countIvC_succ, hx, if_pos (by rw [hxt])]
          omega
        unfold forN
        exact (hbind _ _ hstep1).trans
          ((ih (i + 1) (m + 1)
            (fun r h1 h2 => hS r (by omega) (by omega))).trans
          (by rw [harith]))
      · have hstep1 : (do
            let y ← g.idx i c
            if y = t then pure (m + 1) else pure m : P Nat) = .ok m := by
          simp only [bind, Except.bind, hidx, if_neg hxt]
          rfl
        have harith : m + countIvC g c t (i + 1) kk =
            m + countIvC g c t i (kk + 1) := by
          rw [countIvC_succ, hx,
            if_neg (fun he => hxt (by injection he))]
          omega
        unfold forN
        exact (hbind _ _ hstep1).trans
          ((ih (i + 1) m
            (fun r h1 h2 => hS r (by omega) (by omega))).trans
          (by rw [harith]))

/-- Pointwise agreement on membership of `t` makes interval counts
agree. -/
theorem countIv_congr {g g' : Grid} {r : Nat} {t : Tile}
    (h : ∀ c, g'.get r c = some t ↔ g.get r c = some t) :
    ∀ (k i : Nat), countIv g' r t i k = countIv g r t i k := by
  intro k
  induction k with
  | zero => intro i; rfl
  | succ kk ih =>
    intro i
    rw [countIv_succ, countIv_succ, ih (i + 1)]
    by_cases hc : g.get r i = some t
    · rw [if_pos hc, if_pos ((h i).mpr hc)]
    · rw [if_neg hc, if_neg (fun hc' => hc ((h i).mp hc'))]

/-- Column analogue of `countIv_congr`. -/
theorem countIvC_congr {g g' : Grid} {c : Nat} {t : Tile}
    (h : ∀ r, g'.get r c = some t ↔ g.get r c = some t) :
    ∀ (k i : Nat), countIvC g' c t i k = countIvC g c t i k := by
  intro k
  induction k with
  | zero => intro i; rfl
  | succ kk ih =>
    intro i
    rw [countIvC_succ, countIvC_succ, ih (i + 1)]
    by_cases hr : g.get i c = some t
    · rw [if_pos hr, if_pos ((h i).mpr hr)]
    · rw [if_neg hr, if_neg (fun hr' => hr ((h i).mp hr'))]

/-- A `stepRel Camp` move preserves, per row, the sum of the
`Unassigned` and `Camp` interval counts. -/
theorem countIv_camp_sum {g g' : Grid} {r : Nat}
    (h : stepRel Tile.Camp g g') :
    ∀ (k i : Nat),
      countIv g' r Tile.Unassigned i k + countIv g' r Tile.Camp i k =
        countIv g r Tile.Unassigned i k + countIv g r Tile.Camp i k := by
  intro k
  induction k with
  | zero => intro i; rfl
  | succ kk ih =>
    intro i
    rw [countIv_succ, countIv_succ, countIv_succ, countIv_succ]
    have hik := ih (i + 1)
    rcases h.2 r i with heq | ⟨hu, hc⟩
    · rw [heq]; omega
    · rw [hu, hc]
      simp only [reduceCtorEq, Option.some.injEq, reduceIte]
      omega

/-- Column analogue of `countIv_camp_sum`. -/
theorem countIvC_camp_sum {g g' : Grid} {c : Nat}
    (h : stepRel Tile.Camp g g') :
    ∀ (k i : Nat),
      countIvC g' c Tile.Unassigned i k + countIvC g' c Tile.Camp i k =
        countIvC g c Tile.Unassigned i k + countIvC g c Tile.Camp i k := by
  intro k
  induction k with
  | zero => intro i; rfl
  | succ kk ih =>
    intro i
    rw [countIvC_succ, countIvC_succ, countIvC_succ, countIvC_succ]
    have hik := ih (i + 1)
    rcases h.2 i c with heq | ⟨hu, hc⟩
    · rw [heq]; omega
    · rw [hu, hc]
      simp only [reduceCtorEq, Option.some.injEq, reduceIte]
      omega

/-- Cell existence only depends on the shape. -/
theorem get_isSome_congr {g g' : Grid} (h : shapeEq g g') (r c : Nat) :
    (g'.get r c).isSome = (g.get r c).isSome := by
  by_cases hg : (g.get r c).isSome = true
  · have := Grid.get_isSome_iff.mp hg
    rw [hg]
    exact Grid.get_isSome_iff.mpr ⟨(h.2 r).symm ▸ this.1, h.1.symm ▸ this.2⟩
  · simp only [Bool.not_eq_true] at hg
    rw [hg]
    by_contra hne
    have hs : (g'.get r c).isSome = true := by
      cases hx : (g'.get r c).isSome
      · rw [hx] at hne; exact absurd rfl hne
      · rfl
    have := Grid.get_isSome_iff.mp hs
    have : (g.get r c).isSome = true :=
      Grid.get_isSome_iff.mpr ⟨(h.2 r) ▸ this.1, h.1 ▸ this.2⟩
    rw [hg] at this
    cases this

/-- A `stepRel` move never changes a cell that is not `Unassigned`. -/
theorem stepRel_keep {v : Tile} {g g' : Grid} {r c : Nat} {t : Tile}
    (h : stepRel v g g') (hg : g.get r c = some t)
    (ht : t ≠ Tile.Unassigned) : g'.get r c = some t := by
  rcases h.2 r c with heq | ⟨hu, _⟩
  · rw [heq, hg]
  · rw [hg] at hu
    injection hu with hu'
    exact absurd hu' ht

/-- A `stepRel v` move with `v ∉ {t, Unassigned}` leaves `t`-ness of
every cell unchanged. -/
theorem stepRel_get_iff {v t : Tile} (hvt : v ≠ t)
    (ht : t ≠ Tile.Unassigned) {g g' : Grid} (h : stepRel v g g')
    (r c : Nat) : g'.get r c = some t ↔ g.get r c = some t := by
  rcases h.2 r c with heq | ⟨hu, hv'⟩
  · rw [heq]
  · rw [hu, hv']
    constructor
    · intro hh; injection hh with hh'; exact absurd hh' hvt
    · intro hh; injection hh with hh'; exact absurd hh'.symm ht

theorem num_columns_eq_rowLen (g : Grid) : g.num_columns = g.rowLen 0 := by
  unfold Grid.num_columns Grid.rowLen
  cases g.array.get? 0 <;> simp

theorem shapeEq_num_rows {g g' : Grid} (h : shapeEq g g') :
    g'.num_rows = g.num_rows := h.1

theorem shapeEq_num_columns {g g' : Grid} (h : shapeEq g g') :
    g'.num_columns = g.num_columns := by
  rw [num_columns_eq_rowLen, num_columns_eq_rowLen]
  exact h.2 0

/-- A successful `count_in_row` read every cell of the row below
`num_columns` and returned the pure interval count. -/
theorem count_in_row_ok {g : Grid} {r : Nat} {t : Tile} {n : Nat}
    (h : g.count_in_row r t = .ok n) :
    (∀ c, c < g.num_columns → (g.get r c).isSome = true) ∧
    n = countIv g r t 0 g.num_columns := by
  unfold Grid.count_in_row at h
  have hS := countLoop_isSome g.num_columns 0 0 n h
  refine ⟨fun c hc => hS c (Nat.zero_le c) (by omega), ?_⟩
  rw [countLoop_eq g.num_columns 0 0 (fun c h1 h2 => hS c h1 h2)] at h
  injection h with h'
  omega

/-- `count_in_row` succeeds with the pure interval count when every
cell of the row below `num_columns` exists. -/
theorem count_in_row_eval {g : Grid} {r : Nat} {t : Tile}
    (hS : ∀ c, c < g.num_columns → (g.get r c).isSome = true) :
    g.count_in_row r t = .ok (countIv g r t 0 g.num_columns) := by
  unfold Grid.count_in_row
  have := countLoop_eq (g := g) (r := r) (t := t) g.num_columns 0 0
    (fun c h1 h2 => hS c (by omega))
  simpa using this

/-- Column analogue of `count_in_row_ok`. -/
theorem count_in_column_ok {g : Grid} {c : Nat} {t : Tile} {n : Nat}
    (h : g.count_in_column c t = .ok n) :
    (∀ r, r < g.num_rows → (g.get r c).isSome = true) ∧
    n = countIvC g c t 0 g.num_rows := by
  unfold Grid.count_in_column at h
  have hS := countLoopC_isSome g.num_rows 0 0 n h
  refine ⟨fun r hr => hS r (Nat.zero_le r) (by omega), ?_⟩
  rw [countLoopC_eq g.num_rows 0 0 (fun r h1 h2 => hS r h1 h2)] at h
  injection h with h'
  omega

/-- Column analogue of `count_in_row_eval`. -/
theorem count_in_column_eval {g : Grid} {c : Nat} {t : Tile}
    (hS : ∀ r, r < g.num_rows → (g.get r c).isSome = true) :
    g.count_in_column c t = .ok (countIvC g c t 0 g.num_rows) := by
  unfold Grid.count_in_column
  have := countLoopC_eq (g := g) (c := c) (t := t) g.num_rows 0 0
    (fun r h1 h2 => hS r (by omega))
  simpa using this

/-! ### The reachability relation for the idempotence arguments -/

/-- One rule invocation only makes `stepRel v` moves on the grid and
never touches the targets. -/
def ruleReach (v : Tile) (u u' : Board × Bool) : Prop :=
  stepRel v u.1.grid u'.1.grid ∧ u'.1.rows = u.1.rows ∧
  u'.1.columns = u.1.columns

theorem ruleReach_refl (v : Tile) (u : Board × Bool) : ruleReach v u u :=
  ⟨stepRel_refl v u.1.grid, rfl, rfl⟩

theorem ruleReach_trans {v : Tile} {a b c : Board × Bool}
    (h1 : ruleReach v a b) (h2 : ruleReach v b c) : ruleReach v a c :=
  ⟨stepRel_trans h1.1 h2.1, h2.2.1.trans h1.2.1, h2.2.2.trans h1.2.2⟩

/-- Grid-level analogue of `ruleReach`, for `associate_trees`. -/
def gridReach (v : Tile) (u u' : Grid × Bool) : Prop :=
  stepRel v u.1 u'.1

theorem gridReach_refl (v : Tile) (u : Grid × Bool) : gridReach v u u :=
  stepRel_refl v u.1

theorem gridReach_trans {v : Tile} {a b c : Grid × Bool}
    (h1 : gridReach v a b) (h2 : gridReach v b c) : gridReach v a c :=
  stepRel_trans h1 h2

/-- The conditional write step of the `fill_zeros`/`fill_camps` inner
loops is a `ruleReach` move. -/
theorem writeStep_rel {v : Tile} {r c : Nat} {u u' : Board × Bool}
    (hstep : (do
      let (b, changed) := u
      let t ← b.grid.idx r c
      if t = Tile.Unassigned then do
        let g ← b.grid.write r c v
        pure (({ b with grid := g }, true) : Board × Bool)
      else pure (b, changed)) = .ok u') :
    ruleReach v u u' :=
  ⟨(writeStep_char hstep).2.2.2.2, (writeStep_char hstep).1,
    (writeStep_char hstep).2.1⟩

/-- `igCell` is a `ruleReach Grass` move. -/
theorem igCell_rel {row col : Nat} {s s' : Board × Bool}
    (h : igCell row col s = .ok s') : ruleReach Tile.Grass s s' := by
  obtain ⟨b, ch⟩ := s
  unfold igCell at h
  simp only [bind, Except.bind] at h
  split at h
  · cases h
  · rename_i t hidx
    split at h
    · rename_i ht
      split at h
      · cases h
      · split at h
        · split at h
          · cases h
          · rename_i g' hw
            simp only [pure, Except.pure, Except.ok.injEq] at h
            subst h
            exact ⟨stepRel_write (ht ▸ idx_ok_get hidx) hw, rfl, rfl⟩
        · simp only [pure, Except.pure, Except.ok.injEq] at h
          subst h
          exact ruleReach_refl _ _
    · simp only [pure, Except.pure, Except.ok.injEq] at h
      subst h
      exact ruleReach_refl _ _

/-- `fzRow` is a `ruleReach Grass` move. -/
theorem fzRow_rel {b0 : Board} {row : Nat} {s s' : Board × Bool}
    (h : fzRow b0 row s = .ok s') : ruleReach Tile.Grass s s' := by
  obtain ⟨b, ch⟩ := s
  unfold fzRow at h
  simp only [bind, Except.bind] at h
  split at h
  · cases h
  · split at h
    · cases h
    · split at h
      · exact forN_ok_rel (ruleReach_refl _) ruleReach_trans
          (fun j u u' hu => writeStep_rel hu)
          b0.columns.length 0 (b, ch) s' h
      · simp only [pure, Except.pure, Except.ok.injEq] at h
        subst h
        exact ruleReach_refl _ _

/-- `fzColumn` is a `ruleReach Grass` move. -/
theorem fzColumn_rel {b0 : Board} {column : Nat} {s s' : Board × Bool}
    (h : fzColumn b0 column s = .ok s') : ruleReach Tile.Grass s s' := by
  obtain ⟨b, ch⟩ := s
  unfold fzColumn at h
  simp only [bind, Except.bind] at h
  split at h
  · cases h
  · split at h
    · cases h
    · split at h
      · exact forN_ok_rel (ruleReach_refl _) ruleReach_trans
          (fun j u u' hu => writeStep_rel hu)
          b0.rows.length 0 (b, ch) s' h
      · simp only [pure, Except.pure, Except.ok.injEq] at h
        subst h
        exact ruleReach_refl _ _

/-- `fcRow` is a `ruleReach Camp` move. -/
theorem fcRow_rel {b0 : Board} {row : Nat} {s s' : Board × Bool}
    (h : fcRow b0 row s = .ok s') : ruleReach Tile.Camp s s' := by
  obtain ⟨b, ch⟩ := s
  unfold fcRow at h
  simp only [bind, Except.bind] at h
  split at h
  · cases h
  · split at h
    · cases h
    · split at h
      · cases h
      · split at h
        · exact forN_ok_rel (ruleReach_refl _) ruleReach_trans
            (fun j u u' hu => writeStep_rel hu)
            b0.columns.length 0 (b, ch) s' h
        · simp only [pure, Except.pure, Except.ok.injEq] at h
          subst h
          exact ruleReach_refl _ _

/-- `fcColumn` is a `ruleReach Camp` move. -/
theorem fcColumn_rel {b0 : Board} {column : Nat} {s s' : Board × Bool}
    (h : fcColumn b0 column s = .ok s') : ruleReach Tile.Camp s s' := by
  obtain ⟨b, ch⟩ := s
  unfold fcColumn at h
  simp only [bind, Except.bind] at h
  split at h
  · cases h
  · split at h
    · cases h
    · split at h
      · cases h
      · split at h
        · exact forN_ok_rel (ruleReach_refl _) ruleReach_trans
            (fun j u u' hu => writeStep_rel hu)
            b0.rows.length 0 (b, ch) s' h
        · simp only [pure, Except.pure, Except.ok.injEq] at h
          subst h
          exact ruleReach_refl _ _

/-- `atCell` is a `gridReach Grass` move. -/
theorem atCell_rel {tab : Table} {row col : Nat} {s s' : Grid × Bool}
    (h : atCell tab row col s = .ok s') : gridReach Tile.Grass s s' := by
  obtain ⟨g, ch⟩ := s
  unfold atCell at h
  simp only [bind, Except.bind] at h
  split at h
  · cases h
  · rename_i t hidx
    split at h
    · rename_i ht
      split at h
      · cases h
      · split at h
        · cases h
        · split at h
          · split at h
            · cases h
            · rename_i g' hw
              simp only [pure, Except.pure, Except.ok.injEq] at h
              subst h
              exact stepRel_write (ht ▸ idx_ok_get hidx) hw
          · simp only [pure, Except.pure, Except.ok.injEq] at h
            subst h
            exact gridReach_refl _ _
    · simp only [pure, Except.pure, Except.ok.injEq] at h
      subst h
      exact gridReach_refl _ _

/-- Pointwise equal loop bodies give equal `forN` runs. -/
theorem forN_congr {σ : Type} {f f' : Nat → σ → P σ}
    (hf : ∀ i s, f i s = f' i s) :
    ∀ (k i : Nat) (s : σ), forN f i k s = forN f' i k s := by
  intro k
  induction k with
  | zero => intro i s; rfl
  | succ n ih =>
    intro i s
    unfold forN
    rw [hf i s]
    simp only [bind, Except.bind]
    cases f' i s with
    | error e => rfl
    | ok s1 => exact ih (i + 1) s1

/-! ### Congruence of the rules under value-preserving grid moves -/

/-- Inversion of a successful monadic bind in `P`. -/
theorem bindInv {α β : Type} {x : P α} {f : α → P β} {v : β}
    (h : (x >>= f) = .ok v) : ∃ a, x = .ok a ∧ f a = .ok v := by
  cases x with
  | error e => simp [bind, Except.bind] at h
  | ok a =>
    refine ⟨a, rfl, ?_⟩
    simpa [bind, Except.bind] using h

/-- Binding a pure value in `P`. -/
theorem bind_ok {α β : Type} (a : α) (f : α → P β) :
    ((Except.ok a : P α) >>= f) = f a := rfl

/-- Inversion of a successful functorial map in `P`. -/
theorem mapInv {α β : Type} {f : α → β} {x : P α} {v : β}
    (h : (f <$> x) = .ok v) : ∃ a, x = .ok a ∧ v = f a := by
  cases x with
  | error e => simp [Functor.map, Except.map] at h
  | ok a =>
    refine ⟨a, rfl, ?_⟩
    have : (f <$> (Except.ok a : P α)) = .ok (f a) := rfl
    rw [this] at h
    injection h with h'
    exact h'.symm

/-- One conditional neighbour read of `initialize_grass`, simulated on
a grid with the same shape and the same `Tree` cells. -/
theorem igRead_sim {g1 g2 : Grid}
    (hsome : ∀ r c, (g2.get r c).isSome = (g1.get r c).isSome)
    (htree : ∀ r c,
      g2.get r c = some Tile.Tree ↔ g1.get r c = some Tile.Tree)
    (q : Prop) [Decidable q] (r c : Nat) {ts : List Tile}
    (h : igRead g1 q r c = .ok ts) :
    ∃ ts', igRead g2 q r c = .ok ts' ∧
      ts'.all (fun x => decide (x ≠ Tile.Tree)) =
        ts.all (fun x => decide (x ≠ Tile.Tree)) := by
  unfold igRead at h ⊢
  by_cases hq : q
  · rw [if_pos hq] at h ⊢
    obtain ⟨x1, hx1, hts⟩ := mapInv h
    have hg1 : g1.get r c = some x1 := idx_ok_get hx1
    have hs2 : (g2.get r c).isSome = true := by
      rw [hsome, hg1]
      rfl
    cases hx2 : g2.get r c with
    | none => rw [hx2] at hs2; cases hs2
    | some x2 =>
      have hidx2 : g2.idx r c = .ok x2 := by
        unfold Grid.idx
        rw [hx2]
      have hiff : x2 = Tile.Tree ↔ x1 = Tile.Tree := by
        constructor
        · intro he
          have := (htree r c).mp (by rw [hx2, he])
          rw [hg1] at this
          exact Option.some.inj this
        · intro he
          have := (htree r c).mpr (by rw [hg1, he])
          rw [hx2] at this
          exact Option.some.inj this
      refine ⟨[x2], by rw [hidx2]; rfl, ?_⟩
      rw [hts]
      simp only [List.all_cons, List.all_nil, Bool.and_true]
      exact decide_eq_decide.mpr (not_congr hiff)
  · rw [if_neg hq] at h ⊢
    have hts : ts = [] := by
      have h0 := h
      simp only [pure, Except.pure] at h0
      injection h0 with h'
      exact h'.symm
    exact ⟨[], rfl, by rw [hts]⟩

/-- `igNeighbors` on a grid with the same shape and the same `Tree`
cells gives a neighbour list with the same all-non-`Tree` verdict. -/
theorem igNeighbors_congr {b1 b2 : Board}
    (hrows : b2.rows = b1.rows) (hcols : b2.columns = b1.columns)
    (hsome : ∀ r c,
      (b2.grid.get r c).isSome = (b1.grid.get r c).isSome)
    (htree : ∀ r c,
      b2.grid.get r c = some Tile.Tree ↔
        b1.grid.get r c = some Tile.Tree)
    {row col : Nat} {ts : List Tile}
    (h : igNeighbors b1 row col = .ok ts) :
    ∃ ts', igNeighbors b2 row col = .ok ts' ∧
      ts'.all (fun x => decide (x ≠ Tile.Tree)) =
        ts.all (fun x => decide (x ≠ Tile.Tree)) := by
  unfold igNeighbors at h ⊢
  rw [hrows, hcols]
  obtain ⟨t1, he1, h⟩ := bindInv h
  obtain ⟨t2, he2, h⟩ := bindInv h
  obtain ⟨t3, he3, h⟩ := bindInv h
  obtain ⟨t4, he4, h⟩ := bindInv h
  obtain ⟨t1', hg1, ha1⟩ := igRead_sim hsome htree _ _ _ he1
  obtain ⟨t2', hg2, ha2⟩ := igRead_sim hsome htree _ _ _ he2
  obtain ⟨t3', hg3, ha3⟩ := igRead_sim hsome htree _ _ _ he3
  obtain ⟨t4', hg4, ha4⟩ := igRead_sim hsome htree _ _ _ he4
  rw [hg1, bind_ok, hg2, bind_ok, hg3, bind_ok, hg4, bind_ok]
  have hts : ts = t1 ++ t2 ++ t3 ++ t4 := by
    have h0 := h
    simp only [pure, Except.pure] at h0
    injection h0 with h'
    exact h'.symm
  refine ⟨t1' ++ t2' ++ t3' ++ t4', rfl, ?_⟩
  rw [hts]
  simp only [List.all_append, ha1, ha2, ha3, ha4]

/-- `surrounding_tiles` only depends on the shape. -/
theorem surrounding_tiles_congr {g1 g2 : Grid} (hshape : shapeEq g1 g2)
    (r c : Nat) :
    g2.surrounding_tiles r c = g1.surrounding_tiles r c := by
  unfold Grid.surrounding_tiles
  rw [get_isSome_congr hshape r c, shapeEq_num_rows hshape,
    shapeEq_num_columns hshape]

/-- `filterTrees` only depends on cell existence and `Tree`-ness. -/
theorem filterTrees_congr {g1 g2 : Grid}
    (hsome : ∀ r c, (g2.get r c).isSome = (g1.get r c).isSome)
    (htree : ∀ r c,
      g2.get r c = some Tile.Tree ↔ g1.get r c = some Tile.Tree) :
    ∀ l, filterTrees g2 l = filterTrees g1 l := by
  intro l
  induction l with
  | nil => rfl
  | cons p rest ih =>
    unfold filterTrees
    simp only [bind, Except.bind]
    cases h1 : g1.get p.1 p.2 with
    | none =>
      have h2 : g2.get p.1 p.2 = none := by
        have hs := hsome p.1 p.2
        rw [h1] at hs
        exact Option.not_isSome_iff_eq_none.mp (by rw [hs]; simp)
      unfold Grid.idx
      rw [h1, h2]
    | some x1 =>
      have hs2 : (g2.get p.1 p.2).isSome = true := by
        rw [hsome, h1]
        rfl
      cases h2 : g2.get p.1 p.2 with
      | none => rw [h2] at hs2; cases hs2
      | some x2 =>
        have hidx1 : g1.idx p.1 p.2 = .ok x1 := by
          unfold Grid.idx
          rw [h1]
        have hidx2 : g2.idx p.1 p.2 = .ok x2 := by
          unfold Grid.idx
          rw [h2]
        have hiff : x2 = Tile.Tree ↔ x1 = Tile.Tree := by
          constructor
          · intro he
            have := (htree p.1 p.2).mp (by rw [h2, he])
            rw [h1] at this
            exact Option.some.inj this
          · intro he
            have := (htree p.1 p.2).mpr (by rw [h1, he])
            rw [h2] at this
            exact Option.some.inj this
        simp only [hidx1, hidx2, ih]
        cases hr : filterTrees g1 rest with
        | error e => simp only [hr]
        | ok rl =>
          simp only [hr]
          by_cases hx : x1 = Tile.Tree
          · rw [if_pos hx, if_pos (hiff.mpr hx)]
          · rw [if_neg hx, if_neg (fun hh => hx (hiff.mp hh))]

/-- `allServed` only depends on cell existence, `Tree`-ness and the
table. -/
theorem allServed_congr {g1 g2 : Grid}
    (hsome : ∀ r c, (g2.get r c).isSome = (g1.get r c).isSome)
    (htree : ∀ r c,
      g2.get r c = some Tile.Tree ↔ g1.get r c = some Tile.Tree)
    (tab : Table) :
    ∀ l, allServed g2 tab l = allServed g1 tab l := by
  intro l
  induction l with
  | nil => rfl
  | cons p rest ih =>
    unfold allServed
    simp only [bind, Except.bind]
    cases h1 : g1.get p.1 p.2 with
    | none =>
      have h2 : g2.get p.1 p.2 = none := by
        have hs := hsome p.1 p.2
        rw [h1] at hs
        exact Option.not_isSome_iff_eq_none.mp (by rw [hs]; simp)
      unfold Grid.idx
      rw [h1, h2]
    | some x1 =>
      have hs2 : (g2.get p.1 p.2).isSome = true := by
        rw [hsome, h1]
        rfl
      cases h2 : g2.get p.1 p.2 with
      | none => rw [h2] at hs2; cases hs2
      | some x2 =>
        have hidx1 : g1.idx p.1 p.2 = .ok x1 := by
          unfold Grid.idx
          rw [h1]
        have hidx2 : g2.idx p.1 p.2 = .ok x2 := by
          unfold Grid.idx
          rw [h2]
        have hiff : x2 = Tile.Tree ↔ x1 = Tile.Tree := by
          constructor
          · intro he
            have := (htree p.1 p.2).mp (by rw [h2, he])
            rw [h1] at this
            exact Option.some.inj this
          · intro he
            have := (htree p.1 p.2).mpr (by rw [h1, he])
            rw [h2] at this
            exact Option.some.inj this
        simp only [hidx1, hidx2]
        by_cases hx : x1 = Tile.Tree
        · rw [if_neg (fun hh => hh (hiff.mpr hx)),
            if_neg (fun hh => hh hx)]
          cases ht : tableGet tab p.1 p.2 with
          | error e => simp only [ht]
          | ok a =>
            simp only [ht, ih]
        · rw [if_pos hx, if_pos (fun hh => hx (hiff.mp hh))]
          simp only [pure, Except.pure, ih]

/-- Folding pointwise equal association steps gives equal tables. -/
theorem assocList_congr {f h : Nat → Nat → Table → P Table}
    (hf : ∀ r c tab, f r c tab = h r c tab) :
    ∀ (ps : List (Nat × Nat)) (tab : Table),
      assocList f ps tab = assocList h ps tab := by
  intro ps
  induction ps with
  | nil => intro tab; rfl
  | cons p rest ih =>
    intro tab
    obtain ⟨r, c⟩ := p
    unfold assocList
    simp only [bind, Except.bind, hf r c tab]
    cases h1 : h r c tab with
    | error e => simp only [h1]
    | ok tab1 => simp only [h1, ih]

/-- `associate_tree` only depends on cell existence, `Tree`-ness and
`Camp`-ness of the grid (and on the shape, through
`surrounding_tiles`). -/
theorem assocTree_congr {g1 g2 : Grid} (hshape : shapeEq g1 g2)
    (hsome : ∀ r c, (g2.get r c).isSome = (g1.get r c).isSome)
    (htree : ∀ r c,
      g2.get r c = some Tile.Tree ↔ g1.get r c = some Tile.Tree)
    (hcamp : ∀ r c,
      g2.get r c = some Tile.Camp ↔ g1.get r c = some Tile.Camp) :
    ∀ (fuel row column : Nat) (tab : Table),
      assocTree fuel g2 row column tab =
        assocTree fuel g1 row column tab := by
  intro fuel
  induction fuel with
  | zero => intro row column tab; rfl
  | succ n ih =>
    intro row column tab
    unfold assocTree
    simp only [bind, Except.bind]
    cases hg : tableGet tab row column with
    | error e => simp only [hg]
    | ok a =>
      simp only [hg]
      by_cases ha : a = Assoc.Unprocessed
      · rw [if_pos ha, if_pos ha]
        cases h1 : g1.get row column with
        | none =>
          have h2 : g2.get row column = none := by
            have hs := hsome row column
            rw [h1] at hs
            exact Option.not_isSome_iff_eq_none.mp (by rw [hs]; simp)
          unfold Grid.idx
          rw [h1, h2]
        | some x1 =>
          have hs2 : (g2.get row column).isSome = true := by
            rw [hsome, h1]
            rfl
          cases h2 : g2.get row column with
          | none => rw [h2] at hs2; cases hs2
          | some x2 =>
            have hidx1 : g1.idx row column = .ok x1 := by
              unfold Grid.idx
              rw [h1]
            have hidx2 : g2.idx row column = .ok x2 := by
              unfold Grid.idx
              rw [h2]
            have hiffT : x2 = Tile.Tree ↔ x1 = Tile.Tree := by
              constructor
              · intro he
                have := (htree row column).mp (by rw [h2, he])
                rw [h1] at this
                exact Option.some.inj this
              · intro he
                have := (htree row column).mpr (by rw [h1, he])
                rw [h2] at this
                exact Option.some.inj this
            have hiffC : x2 = Tile.Camp ↔ x1 = Tile.Camp := by
              constructor
              · intro he
                have := (hcamp row column).mp (by rw [h2, he])
                rw [h1] at this
                exact Option.some.inj this
              · intro he
                have := (hcamp row column).mpr (by rw [h1, he])
                rw [h2] at this
                exact Option.some.inj this
            simp only [hidx1, hidx2]
            by_cases hx : x1 = Tile.Tree
            · rw [if_pos hx, if_pos (hiffT.mpr hx)]
              cases hts : tableSet tab row column
                  Assoc.NoCampAssociated with
              | error e => rfl
              | ok tab1 =>
                simp only [hts, surrounding_tiles_congr hshape]
                cases hsur : g1.surrounding_tiles row column with
                | error e => simp only [hsur]
                | ok nbrs =>
                  simp only [hsur]
                  exact assocList_congr (fun r c t => ih r c t)
                    nbrs tab1
            · rw [if_neg (fun hh => hx (hiffT.mp hh)), if_neg hx]
              by_cases hxc : x1 = Tile.Camp
              · rw [if_pos (hiffC.mpr hxc), if_pos hxc]
                cases hts : tableSet tab row column
                    Assoc.UnassignedCamp with
                | error e => rfl
                | ok tab1 =>
                  simp only [hts, surrounding_tiles_congr hshape]
                  cases hsur : g1.surrounding_tiles row column with
                  | error e => simp only [hsur]
                  | ok nbrs =>
                    simp only [hsur,
                      assocList_congr (fun r c t => ih r c t) nbrs tab1]
                    cases hal : assocList (assocTree n g1)
                        nbrs tab1 with
                    | error e => simp only [hal]
                    | ok tab2 =>
                      simp only [hal,
                        filterTrees_congr hsome htree nbrs]
              · rw [if_neg (fun hh => hxc (hiffC.mp hh)), if_neg hxc]
      · rw [if_neg ha, if_neg ha]

/-! ### Idempotence of the one-pass rules -/

/-- A second run of `initialize_grass` right after a first one changes
nothing and reports no change. -/
theorem initGrass_idem {b b' : Board} {ch : Bool}
    (h : initGrass b = .ok (b', ch)) : initGrass b' = .ok (b', false) := by
  unfold initGrass at h ⊢
  have hout : ∀ j (s s' : Board × Bool),
      forN (fun column s => igCell j column s) 0 b.columns.length s =
        .ok s' →
      ruleReach Tile.Grass s s' :=
    fun j s s' hs => forN_ok_rel (ruleReach_refl _) ruleReach_trans
      (fun j2 u u' hu => igCell_rel hu) b.columns.length 0 s s' hs
  have hreach : ruleReach Tile.Grass (b, false) (b', ch) :=
    forN_ok_rel (ruleReach_refl _) ruleReach_trans hout
      b.rows.length 0 (b, false) (b', ch) h
  have hrows : b'.rows = b.rows := hreach.2.1
  have hcols : b'.columns = b.columns := hreach.2.2
  rw [hrows, hcols]
  apply forN_ok_id_ranged
  intro r hr0 hrk
  apply forN_ok_id_ranged
  intro c hc0 hck
  obtain ⟨u, u', hbu, hstep_u, hu'⟩ :=
    forN_ok_steps (ruleReach_refl _) ruleReach_trans hout
      b.rows.length 0 (b, false) (b', ch) h r hr0 (by omega)
  obtain ⟨w, w', hw0, hw, hw'⟩ :=
    forN_ok_steps (ruleReach_refl _) ruleReach_trans
      (fun j2 u2 u2' hu2 => igCell_rel hu2)
      b.columns.length 0 u u' hstep_u c hc0 (by omega)
  obtain ⟨bw, chw⟩ := w
  have hWreach : ruleReach Tile.Grass ((bw, chw) : Board × Bool)
      (b', ch) :=
    ruleReach_trans (igCell_rel hw) (ruleReach_trans hw' hu')
  have hWrel : stepRel Tile.Grass bw.grid b'.grid := hWreach.1
  have hBW : ruleReach Tile.Grass (b, false) ((bw, chw) : Board × Bool) :=
    ruleReach_trans hbu hw0
  have hrows2 : b'.rows = bw.rows := by rw [hrows, hBW.2.1]
  have hcols2 : b'.columns = bw.columns := by rw [hcols, hBW.2.2]
  have hsome2 : ∀ r2 c2,
      (b'.grid.get r2 c2).isSome = (bw.grid.get r2 c2).isSome :=
    fun r2 c2 => get_isSome_congr hWrel.1 r2 c2
  have htree2 : ∀ r2 c2,
      b'.grid.get r2 c2 = some Tile.Tree ↔
        bw.grid.get r2 c2 = some Tile.Tree :=
    fun r2 c2 => stepRel_get_iff (by decide) (by decide) hWrel r2 c2
  unfold igCell at hw
  simp only [bind, Except.bind] at hw
  split at hw
  · cases hw
  · rename_i tw hidxw
    have hcellw : bw.grid.get r c = some tw := idx_ok_get hidxw
    have hsome_b' : (b'.grid.get r c).isSome = true := by
      rw [hsome2 r c, hcellw]
      rfl
    cases ht' : b'.grid.get r c with
    | none => rw [ht'] at hsome_b'; cases hsome_b'
    | some t' =>
      have hidx' : b'.grid.idx r c = .ok t' := by
        unfold Grid.idx
        rw [ht']
      by_cases hU : t' = Tile.Unassigned
      · subst hU
        have hUw : bw.grid.get r c = some Tile.Unassigned := by
          rcases hWrel.2 r c with heq | ⟨hu2, hv2⟩
          · rw [← heq]
            exact ht'
          · rw [ht'] at hv2
            simp at hv2
        have htw : tw = Tile.Unassigned := by
          rw [hcellw] at hUw
          exact Option.some.inj hUw
        rw [if_pos htw] at hw
        split at hw
        · cases hw
        · rename_i tilesw hnbw
          have hfalse : tilesw.all (fun x => decide (x ≠ Tile.Tree)) =
              false := by
            cases hbb : tilesw.all (fun x => decide (x ≠ Tile.Tree)) with
            | false => rfl
            | true =>
              rw [if_pos hbb] at hw
              split at hw
              · cases hw
              · rename_i g' hwrite
                simp only [pure, Except.pure, Except.ok.injEq] at hw
                have hG : w'.1.grid.get r c = some Tile.Grass := by
                  rw [← hw]
                  have := Grid.get_write hwrite r c
                  rw [if_pos ⟨rfl, rfl⟩] at this
                  exact this
                have hrelW' : stepRel Tile.Grass w'.1.grid b'.grid :=
                  (ruleReach_trans hw' hu').1
                have := stepRel_keep hrelW' hG (by decide)
                rw [ht'] at this
                simp at this
          obtain ⟨tiles', hnb', hall'⟩ :=
            igNeighbors_congr hrows2 hcols2 hsome2 htree2 hnbw
          unfold igCell
          simp only [bind, Except.bind, hidx']
          rw [if_pos trivial]
          simp only [hnb']
          have hfalse' : tiles'.all (fun x => decide (x ≠ Tile.Tree)) =
              false := hall'.trans hfalse
          rw [if_neg (fun hcon => by rw [hfalse'] at hcon; cases hcon)]
          rfl
      · unfold igCell
        simp only [bind, Except.bind, hidx']
        rw [if_neg hU]
        rfl

/-- A conditional write step leaves a state whose cell is settled at a
non-`Unassigned` value in every later grid. -/
theorem writeLoop_visited_nonU {v : Tile} (hv : v ≠ Tile.Unassigned)
    {r c : Nat} {w w' : Board × Bool}
    (hwstep : (do
      let (b2, changed) := w
      let t ← b2.grid.idx r c
      if t = Tile.Unassigned then do
        let g ← b2.grid.write r c v
        pure (({ b2 with grid := g }, true) : Board × Bool)
      else pure (b2, changed)) = .ok w')
    {gfin : Grid} (hrelw' : stepRel v w'.1.grid gfin) :
    ∃ t', gfin.get r c = some t' ∧ t' ≠ Tile.Unassigned := by
  obtain ⟨bw, chw⟩ := w
  simp only [bind, Except.bind] at hwstep
  split at hwstep
  · cases hwstep
  · rename_i tw hidxw
    have hcellw : bw.grid.get r c = some tw := idx_ok_get hidxw
    by_cases htw : tw = Tile.Unassigned
    · rw [if_pos htw] at hwstep
      split at hwstep
      · cases hwstep
      · rename_i g' hwrite
        simp only [pure, Except.pure, Except.ok.injEq] at hwstep
        have hG : w'.1.grid.get r c = some v := by
          rw [← hwstep]
          have := Grid.get_write hwrite r c
          rw [if_pos ⟨rfl, rfl⟩] at this
          exact this
        exact ⟨v, stepRel_keep hrelw' hG hv, hv⟩
    · rw [if_neg htw] at hwstep
      simp only [pure, Except.pure, Except.ok.injEq] at hwstep
      have hG : w'.1.grid.get r c = some tw := by
        rw [← hwstep]
        exact hcellw
      exact ⟨tw, stepRel_keep hrelw' hG htw, htw⟩

/-- A conditional write step is the identity on a board whose cell is
already settled. -/
theorem writeStep_skip {v : Tile} {r c : Nat} {b0 : Board} {t0 : Tile}
    (ht : b0.grid.get r c = some t0) (hU : t0 ≠ Tile.Unassigned) :
    (do
      let (b2, changed) := ((b0, false) : Board × Bool)
      let t ← b2.grid.idx r c
      if t = Tile.Unassigned then do
        let g ← b2.grid.write r c v
        pure (({ b2 with grid := g }, true) : Board × Bool)
      else pure (b2, changed)) = .ok (b0, false) := by
  have hidx : b0.grid.idx r c = .ok t0 := by
    unfold Grid.idx
    rw [ht]
  simp only [bind, Except.bind, hidx]
  rw [if_neg hU]
  rfl

/-- On the final board of a run that visited this cell with a
conditional write step, the step is the identity. -/
theorem writeLoop_cell_id {v : Tile} (hv : v ≠ Tile.Unassigned)
    {r c : Nat} {w w' : Board × Bool} {b' : Board}
    (hwstep : (do
      let (b2, changed) := w
      let t ← b2.grid.idx r c
      if t = Tile.Unassigned then do
        let g ← b2.grid.write r c v
        pure (({ b2 with grid := g }, true) : Board × Bool)
      else pure (b2, changed)) = .ok w')
    (hrelw' : stepRel v w'.1.grid b'.grid) :
    (do
      let (b2, changed) := ((b', false) : Board × Bool)
      let t ← b2.grid.idx r c
      if t = Tile.Unassigned then do
        let g ← b2.grid.write r c v
        pure (({ b2 with grid := g }, true) : Board × Bool)
      else pure (b2, changed)) = .ok (b', false) := by
  obtain ⟨t', hg, hne⟩ := writeLoop_visited_nonU hv hwstep hrelw'
  exact writeStep_skip hg hne

/-- A second run of `fill_zeros` right after a first one changes
nothing and reports no change. -/
theorem fillZeros_idem {b b' : Board} {ch : Bool}
    (h : fillZeros b = .ok (b', ch)) : fillZeros b' = .ok (b', false) := by
  unfold fillZeros at h ⊢
  obtain ⟨s1, hrowph, hcolph⟩ := bindInv h
  have hR1 : ruleReach Tile.Grass (b, false) s1 :=
    forN_ok_rel (ruleReach_refl _) ruleReach_trans
      (fun j s s' hs => fzRow_rel hs) b.rows.length 0 (b, false) s1 hrowph
  have hR2 : ruleReach Tile.Grass s1 (b', ch) :=
    forN_ok_rel (ruleReach_refl _) ruleReach_trans
      (fun j s s' hs => fzColumn_rel hs) b.columns.length 0 s1
      (b', ch) hcolph
  have hreach : ruleReach Tile.Grass (b, false) (b', ch) :=
    ruleReach_trans hR1 hR2
  have hrows : b'.rows = b.rows := hreach.2.1
  have hcols : b'.columns = b.columns := hreach.2.2
  have hrow' : forN (fzRow b') 0 b'.rows.length (b', false) =
      .ok (b', false) := by
    apply forN_ok_id_ranged
    intro r hr0 hrk
    obtain ⟨u, u', hbu, hstep_u, hu'⟩ :=
      forN_ok_steps (ruleReach_refl _) ruleReach_trans
        (fun j s s' hs => fzRow_rel hs) b.rows.length 0 (b, false) s1
        hrowph r hr0 (by rw [hrows] at hrk; omega)
    have hUreach : ruleReach Tile.Grass u (b', ch) :=
      ruleReach_trans (fzRow_rel hstep_u) (ruleReach_trans hu' hR2)
    have hUrel : stepRel Tile.Grass u.1.grid b'.grid := hUreach.1
    have hBU : ruleReach Tile.Grass (b, false) u := hbu
    obtain ⟨bu, chu⟩ := u
    unfold fzRow at hstep_u
    simp only [bind, Except.bind] at hstep_u
    split at hstep_u
    · cases hstep_u
    · rename_i cnt hcnt
      split at hstep_u
      · cases hstep_u
      · rename_i tgt htgt
        obtain ⟨hSu, hcnt_val⟩ := count_in_row_ok hcnt
        have hshape' : shapeEq bu.grid b'.grid := hUrel.1
        have hncols : b'.grid.num_columns = bu.grid.num_columns :=
          shapeEq_num_columns hshape'
        have hS' : ∀ c2, c2 < b'.grid.num_columns →
            (b'.grid.get r c2).isSome = true := by
          intro c2 hc2
          rw [get_isSome_congr hshape']
          exact hSu c2 (by omega)
        have hcampiff : ∀ c2, b'.grid.get r c2 = some Tile.Camp ↔
            bu.grid.get r c2 = some Tile.Camp :=
          fun c2 => stepRel_get_iff (by decide) (by decide) hUrel r c2
        have hcount' : b'.grid.count_in_row r Tile.Camp = .ok cnt := by
          rw [count_in_row_eval hS', hncols,
            countIv_congr hcampiff _ _, ← hcnt_val]
        have htgt' : listIdx b'.rows r = .ok tgt := by
          rw [hrows, ← hBU.2.1]
          exact htgt
        unfold fzRow
        simp only [bind, Except.bind, hcount', htgt']
        by_cases hcond : cnt = tgt
        · rw [if_pos hcond]
          rw [if_pos hcond] at hstep_u
          apply forN_ok_id_ranged
          intro c2 hc20 hc2k
          obtain ⟨w, w', hw0, hwstep, hw'⟩ :=
            forN_ok_steps (ruleReach_refl _) ruleReach_trans
              (fun j s s' hs => writeStep_rel hs)
              b.columns.length 0 (bu, chu) u' hstep_u c2 hc20
              (by rw [hcols] at hc2k; omega)
          exact writeLoop_cell_id (by decide) hwstep
            (ruleReach_trans hw' (ruleReach_trans hu' hR2)).1
        · rw [if_neg hcond]
          rfl
  have hcol' : forN (fzColumn b') 0 b'.columns.length (b', false) =
      .ok (b', false) := by
    apply forN_ok_id_ranged
    intro c hc0 hck
    obtain ⟨u, u', hbu, hstep_u, hu'⟩ :=
      forN_ok_steps (ruleReach_refl _) ruleReach_trans
        (fun j s s' hs => fzColumn_rel hs) b.columns.length 0 s1
        (b', ch) hcolph c hc0 (by rw [hcols] at hck; omega)
    have hUreach : ruleReach Tile.Grass u (b', ch) :=
      ruleReach_trans (fzColumn_rel hstep_u) hu'
    have hUrel : stepRel Tile.Grass u.1.grid b'.grid := hUreach.1
    have hBU : ruleReach Tile.Grass (b, false) u :=
      ruleReach_trans hR1 hbu
    obtain ⟨bu, chu⟩ := u
    unfold fzColumn at hstep_u
    simp only [bind, Except.bind] at hstep_u
    split at hstep_u
    · cases hstep_u
    · rename_i cnt hcnt
      split at hstep_u
      · cases hstep_u
      · rename_i tgt htgt
        obtain ⟨hSu, hcnt_val⟩ := count_in_column_ok hcnt
        have hshape' : shapeEq bu.grid b'.grid := hUrel.1
        have hnrows : b'.grid.num_rows = bu.grid.num_rows :=
          shapeEq_num_rows hshape'
        have hS' : ∀ r2, r2 < b'.grid.num_rows →
            (b'.grid.get r2 c).isSome = true := by
          intro r2 hr2
          rw [get_isSome_congr hshape']
          exact hSu r2 (by omega)
        have hcampiff : ∀ r2, b'.grid.get r2 c = some Tile.Camp ↔
            bu.grid.get r2 c = some Tile.Camp :=
          fun r2 => stepRel_get_iff (by decide) (by decide) hUrel r2 c
        have hcount' : b'.grid.count_in_column c Tile.Camp = .ok cnt := by
          rw [count_in_column_eval hS', hnrows,
            countIvC_congr hcampiff _ _, ← hcnt_val]
        have htgt' : listIdx b'.columns c = .ok tgt := by
          rw [hcols, ← hBU.2.2]
          exact htgt
        unfold fzColumn
        simp only [bind, Except.bind, hcount', htgt']
        by_cases hcond : cnt = tgt
        · rw [if_pos hcond]
          rw [if_pos hcond] at hstep_u
          apply forN_ok_id_ranged
          intro r2 hr20 hr2k
          obtain ⟨w, w', hw0, hwstep, hw'⟩ :=
            forN_ok_steps (ruleReach_refl _) ruleReach_trans
              (fun j s s' hs => writeStep_rel hs)
              b.rows.length 0 (bu, chu) u' hstep_u r2 hr20
              (by rw [hrows] at hr2k; omega)
          exact writeLoop_cell_id (by decide) hwstep
            (ruleReach_trans hw' hu').1
        · rw [if_neg hcond]
          rfl
  rw [hrow', bind_ok]
  exact hcol'

/-- A second run of `fill_camps` right after a first one changes
nothing and reports no change. -/
theorem fillCamps_idem {b b' : Board} {ch : Bool}
    (h : fillCamps b = .ok (b', ch)) : fillCamps b' = .ok (b', false) := by
  unfold fillCamps at h ⊢
  obtain ⟨s1, hrowph, hcolph⟩ := bindInv h
  have hR1 : ruleReach Tile.Camp (b, false) s1 :=
    forN_ok_rel (ruleReach_refl _) ruleReach_trans
      (fun j s s' hs => fcRow_rel hs) b.rows.length 0 (b, false) s1 hrowph
  have hR2 : ruleReach Tile.Camp s1 (b', ch) :=
    forN_ok_rel (ruleReach_refl _) ruleReach_trans
      (fun j s s' hs => fcColumn_rel hs) b.columns.length 0 s1
      (b', ch) hcolph
  have hreach : ruleReach Tile.Camp (b, false) (b', ch) :=
    ruleReach_trans hR1 hR2
  have hrows : b'.rows = b.rows := hreach.2.1
  have hcols : b'.columns = b.columns := hreach.2.2
  have hrow' : forN (fcRow b') 0 b'.rows.length (b', false) =
      .ok (b', false) := by
    apply forN_ok_id_ranged
    intro r hr0 hrk
    obtain ⟨u, u', hbu, hstep_u, hu'⟩ :=
      forN_ok_steps (ruleReach_refl _) ruleReach_trans
        (fun j s s' hs => fcRow_rel hs) b.rows.length 0 (b, false) s1
        hrowph r hr0 (by rw [hrows] at hrk; omega)
    have hUreach : ruleReach Tile.Camp u (b', ch) :=
      ruleReach_trans (fcRow_rel hstep_u) (ruleReach_trans hu' hR2)
    have hUrel : stepRel Tile.Camp u.1.grid b'.grid := hUreach.1
    have hBU : ruleReach Tile.Camp (b, false) u := hbu
    obtain ⟨bu, chu⟩ := u
    unfold fcRow at hstep_u
    simp only [bind, Except.bind] at hstep_u
    split at hstep_u
    · cases hstep_u
    · rename_i tgt htgt
      split at hstep_u
      · cases hstep_u
      · rename_i cntU hcntU
        split at hstep_u
        · cases hstep_u
        · rename_i cntC hcntC
          obtain ⟨hSu, hU_val⟩ := count_in_row_ok hcntU
          obtain ⟨_, hC_val⟩ := count_in_row_ok hcntC
          have hshape' : shapeEq bu.grid b'.grid := hUrel.1
          have hncols : b'.grid.num_columns = bu.grid.num_columns :=
            shapeEq_num_columns hshape'
          have hS' : ∀ c2, c2 < b'.grid.num_columns →
              (b'.grid.get r c2).isSome = true := by
            intro c2 hc2
            rw [get_isSome_congr hshape']
            exact hSu c2 (by omega)
          have hcountU' : b'.grid.count_in_row r Tile.Unassigned =
              .ok (countIv b'.grid r Tile.Unassigned 0
                b'.grid.num_columns) := count_in_row_eval hS'
          have hcountC' : b'.grid.count_in_row r Tile.Camp =
              .ok (countIv b'.grid r Tile.Camp 0
                b'.grid.num_columns) := count_in_row_eval hS'
          have hsum : countIv b'.grid r Tile.Unassigned 0
                b'.grid.num_columns +
              countIv b'.grid r Tile.Camp 0 b'.grid.num_columns =
              cntU + cntC := by
            rw [hncols, countIv_camp_sum hUrel _ _, ← hU_val, ← hC_val]
          have htgt' : listIdx b'.rows r = .ok tgt := by
            rw [hrows, ← hBU.2.1]
            exact htgt
          unfold fcRow
          simp only [bind, Except.bind, htgt', hcountU', hcountC']
          by_cases hcond : tgt = cntU + cntC
          · rw [if_pos (by omega)]
            rw [if_pos hcond] at hstep_u
            apply forN_ok_id_ranged
            intro c2 hc20 hc2k
            obtain ⟨w, w', hw0, hwstep, hw'⟩ :=
              forN_ok_steps (ruleReach_refl _) ruleReach_trans
                (fun j s s' hs => writeStep_rel hs)
                b.columns.length 0 (bu, chu) u' hstep_u c2 hc20
                (by rw [hcols] at hc2k; omega)
            exact writeLoop_cell_id (by decide) hwstep
              (ruleReach_trans hw' (ruleReach_trans hu' hR2)).1
          · rw [if_neg (fun hcon => hcond (by omega))]
            rfl
  have hcol' : forN (fcColumn b') 0 b'.columns.length (b', false) =
      .ok (b', false) := by
    apply forN_ok_id_ranged
    intro c hc0 hck
    obtain ⟨u, u', hbu, hstep_u, hu'⟩ :=
      forN_ok_steps (ruleReach_refl _) ruleReach_trans
        (fun j s s' hs => fcColumn_rel hs) b.columns.length 0 s1
        (b', ch) hcolph c hc0 (by rw [hcols] at hck; omega)
    have hUreach : ruleReach Tile.Camp u (b', ch) :=
      ruleReach_trans (fcColumn_rel hstep_u) hu'
    have hUrel : stepRel Tile.Camp u.1.grid b'.grid := hUreach.1
    have hBU : ruleReach Tile.Camp (b, false) u :=
      ruleReach_trans hR1 hbu
    obtain ⟨bu, chu⟩ := u
    unfold fcColumn at hstep_u
    simp only [bind, Except.bind] at hstep_u
    split at hstep_u
    · cases hstep_u
    · rename_i tgt htgt
      split at hstep_u
      · cases hstep_u
      · rename_i cntU hcntU
        split at hstep_u
        · cases hstep_u
        · rename_i cntC hcntC
          obtain ⟨hSu, hU_val⟩ := count_in_column_ok hcntU
          obtain ⟨_, hC_val⟩ := count_in_column_ok hcntC
          have hshape' : shapeEq bu.grid b'.grid := hUrel.1
          have hnrows : b'.grid.num_rows = bu.grid.num_rows :=
            shapeEq_num_rows hshape'
          have hS' : ∀ r2, r2 < b'.grid.num_rows →
              (b'.grid.get r2 c).isSome = true := by
            intro r2 hr2
            rw [get_isSome_congr hshape']
            exact hSu r2 (by omega)
          have hcountU' : b'.grid.count_in_column c Tile.Unassigned =
              .ok (countIvC b'.grid c Tile.Unassigned 0
                b'.grid.num_rows) := count_in_column_eval hS'
          have hcountC' : b'.grid.count_in_column c Tile.Camp =
              .ok (countIvC b'.grid c Tile.Camp 0
                b'.grid.num_rows) := count_in_column_eval hS'
          have hsum : countIvC b'.grid c Tile.Unassigned 0
                b'.grid.num_rows +
              countIvC b'.grid c Tile.Camp 0 b'.grid.num_rows =
              cntU + cntC := by
            rw [hnrows, countIvC_camp_sum hUrel _ _, ← hU_val, ← hC_val]
          have htgt' : listIdx b'.columns c = .ok tgt := by
            rw [hcols, ← hBU.2.2]
            exact htgt
          unfold fcColumn
          simp only [bind, Except.bind, htgt', hcountU', hcountC']
          by_cases hcond : tgt = cntU + cntC
          · rw [if_pos (by omega)]
            rw [if_pos hcond] at hstep_u
            apply forN_ok_id_ranged
            intro r2 hr20 hr2k
            obtain ⟨w, w', hw0, hwstep, hw'⟩ :=
              forN_ok_steps (ruleReach_refl _) ruleReach_trans
                (fun j s s' hs => writeStep_rel hs)
                b.rows.length 0 (bu, chu) u' hstep_u r2 hr20
                (by rw [hrows] at hr2k; omega)
            exact writeLoop_cell_id (by decide) hwstep
              (ruleReach_trans hw' hu').1
          · rw [if_neg (fun hcon => hcond (by omega))]
            rfl
  rw [hrow', bind_ok]
  exact hcol'

/-- A second run of `associate_trees` right after a first one changes
nothing and reports no change: the association table only depends on
the `Tree`/`Camp` cells, which grass writes never touch. -/
theorem associateTrees_idem {g g' : Grid} {ch : Bool}
    (h : associateTrees g = .ok (g', ch)) :
    associateTrees g' = .ok (g', false) := by
  unfold associateTrees at h ⊢
  simp only [bind, Except.bind] at h ⊢
  split at h
  · cases h
  · rename_i tab htab
    have houtA : ∀ j (s s' : Grid × Bool),
        forN (fun col s => atCell tab j col s) 0 g.num_columns s =
          .ok s' →
        gridReach Tile.Grass s s' :=
      fun j s s' hs => forN_ok_rel (gridReach_refl _) gridReach_trans
        (fun j2 u2 u2' hu2 => atCell_rel hu2) g.num_columns 0 s s' hs
    have hGR : gridReach Tile.Grass (g, false) (g', ch) :=
      forN_ok_rel (gridReach_refl _) gridReach_trans houtA
        g.num_rows 0 (g, false) (g', ch) h
    have hstep : stepRel Tile.Grass g g' := hGR
    have hshape : shapeEq g g' := hstep.1
    have hnr : g'.num_rows = g.num_rows := shapeEq_num_rows hshape
    have hnc : g'.num_columns = g.num_columns := shapeEq_num_columns hshape
    have hsome : ∀ r c, (g'.get r c).isSome = (g.get r c).isSome :=
      fun r c => get_isSome_congr hshape r c
    have htree : ∀ r c, g'.get r c = some Tile.Tree ↔
        g.get r c = some Tile.Tree :=
      fun r c => stepRel_get_iff (by decide) (by decide) hstep r c
    have hcamp : ∀ r c, g'.get r c = some Tile.Camp ↔
        g.get r c = some Tile.Camp :=
      fun r c => stepRel_get_iff (by decide) (by decide) hstep r c
    rw [hnr, hnc]
    have hp1 : forN (fun row t =>
        forN (fun column t =>
            assocTree (g.num_rows * g.num_columns + 1) g' row column t)
          0 g.num_columns t)
        0 g.num_rows (generateAssociations g.num_rows g.num_columns) =
        .ok tab := by
      refine (forN_congr ?_ g.num_rows 0 _).trans htab
      intro row t
      exact forN_congr (fun column t2 =>
          assocTree_congr hshape hsome htree hcamp
            (g.num_rows * g.num_columns + 1) row column t2)
        g.num_columns 0 t
    simp only [hp1]
    apply forN_ok_id_ranged
    intro r hr0 hrk
    apply forN_ok_id_ranged
    intro c hc0 hck
    obtain ⟨u, u', hbu, hstep_u, hu'⟩ :=
      forN_ok_steps (gridReach_refl _) gridReach_trans houtA
        g.num_rows 0 (g, false) (g', ch) h r hr0 (by omega)
    obtain ⟨w, w', hw0, hwstep, hw'⟩ :=
      forN_ok_steps (gridReach_refl _) gridReach_trans
        (fun j2 u2 u2' hu2 => atCell_rel hu2)
        g.num_columns 0 u u' hstep_u c hc0 (by omega)
    obtain ⟨gw, chw⟩ := w
    have hWrel : stepRel Tile.Grass gw g' :=
      gridReach_trans (atCell_rel hwstep) (gridReach_trans hw' hu')
    have hsomeW : ∀ r2 c2, (g'.get r2 c2).isSome = (gw.get r2 c2).isSome :=
      fun r2 c2 => get_isSome_congr hWrel.1 r2 c2
    have htreeW : ∀ r2 c2, g'.get r2 c2 = some Tile.Tree ↔
        gw.get r2 c2 = some Tile.Tree :=
      fun r2 c2 => stepRel_get_iff (by decide) (by decide) hWrel r2 c2
    unfold atCell at hwstep
    simp only [bind, Except.bind] at hwstep
    split at hwstep
    · cases hwstep
    · rename_i tw hidxw
      have hcellw : gw.get r c = some tw := idx_ok_get hidxw
      have hsome_g' : (g'.get r c).isSome = true := by
        rw [hsomeW r c, hcellw]
        rfl
      cases ht' : g'.get r c with
      | none => rw [ht'] at hsome_g'; cases hsome_g'
      | some t' =>
        have hidx' : g'.idx r c = .ok t' := by
          unfold Grid.idx
          rw [ht']
        by_cases hU : t' = Tile.Unassigned
        · subst hU
          have hUw : gw.get r c = some Tile.Unassigned := by
            rcases hWrel.2 r c with heq | ⟨hu2, hv2⟩
            · rw [← heq]
              exact ht'
            · rw [ht'] at hv2
              simp at hv2
          have htw : tw = Tile.Unassigned := by
            rw [hcellw] at hUw
            exact Option.some.inj hUw
          rw [if_pos htw] at hwstep
          split at hwstep
          · cases hwstep
          · rename_i nbrs hsur
            split at hwstep
            · cases hwstep
            · rename_i sv hsv
              have hsv_false : sv = false := by
                cases hbsv : sv with
                | false => rfl
                | true =>
                  rw [hbsv] at hwstep
                  rw [if_pos rfl] at hwstep
                  split at hwstep
                  · cases hwstep
                  · rename_i g2' hwrite
                    simp only [pure, Except.pure,
                      Except.ok.injEq] at hwstep
                    have hG : w'.1.get r c = some Tile.Grass := by
                      rw [← hwstep]
                      have := Grid.get_write hwrite r c
                      rw [if_pos ⟨rfl, rfl⟩] at this
                      exact this
                    have hrelW' : stepRel Tile.Grass w'.1 g' :=
                      gridReach_trans hw' hu'
                    have hfin := stepRel_keep hrelW' hG (by decide)
                    rw [ht'] at hfin
                    simp at hfin
              rw [hsv_false] at hsv
              have hsur' : g'.surrounding_tiles r c = .ok nbrs :=
                (surrounding_tiles_congr hWrel.1 r c).trans hsur
              have hsv' : allServed g' tab nbrs = .ok false :=
                (allServed_congr hsomeW htreeW tab nbrs).trans hsv
              unfold atCell
              simp only [bind, Except.bind, hidx']
              rw [if_pos trivial]
              simp only [hsur', hsv']
              rw [if_neg (fun hcon => by cases hcon)]
              rfl
        · unfold atCell
          simp only [bind, Except.bind, hidx']
          rw [if_neg hU]
          rfl

/-- Rule invariant for `associate_trees`, which mutates a bare grid. -/
def GridRuleInv (g0 : Grid) (rel : Grid → Grid → Prop)
    (s : Grid × Bool) : Prop :=
  rel g0 s.1 ∧ (s.2 = false → s.1 = g0) ∧
  (s.2 = true → unassignedCount s.1 < unassignedCount g0)

theorem gridInv_write_step {v : Tile} (hv : v ≠ Tile.Unassigned)
    {g0 gCur : Grid} {ch : Bool} {g' : Grid} {r c : Nat}
    (hInv : GridRuleInv g0 (stepRel v) (gCur, ch))
    (hU : gCur.get r c = some Tile.Unassigned)
    (hw : gCur.write r c v = .ok g') :
    GridRuleInv g0 (stepRel v) (g', true) := by
  obtain ⟨hrel, _, _⟩ := hInv
  have hstep := stepRel_write hU hw
  refine ⟨stepRel_trans hrel hstep, by simp, fun _ => ?_⟩
  have hne : g' ≠ gCur := by
    intro he
    have hget := Grid.get_write hw r c
    rw [if_pos ⟨rfl, rfl⟩, he, hU] at hget
    exact hv (by simpa using hget.symm)
  have hlt : unassignedCount g' < unassignedCount gCur :=
    unassignedCount_lt_of_narrow_ne (stepRel_narrow hv hstep) hne
  have hle : unassignedCount gCur ≤ unassignedCount g0 :=
    unassignedCount_le_of_narrow (stepRel_narrow hv hrel)
  show unassignedCount g' < unassignedCount g0
  omega

theorem atCell_inv {g0 : Grid} {tab : Table} {row col : Nat}
    {s s' : Grid × Bool} (hs : GridRuleInv g0 (stepRel Tile.Grass) s)
    (h : atCell tab row col s = .ok s') :
    GridRuleInv g0 (stepRel Tile.Grass) s' := by
  obtain ⟨g, ch⟩ := s
  unfold atCell at h
  simp only [bind, Except.bind] at h
  split at h
  · cases h
  · rename_i t hidx
    split at h
    · rename_i ht
      split at h
      · cases h
      · split at h
        · cases h
        · split at h
          · split at h
            · cases h
            · rename_i g' hw
              simp only [pure, Except.pure, Except.ok.injEq] at h
              subst h
              exact gridInv_write_step (by simp) hs
                (ht ▸ idx_ok_get hidx) hw
          · simp only [pure, Except.pure, Except.ok.injEq] at h
            subst h
            exact hs
    · simp only [pure, Except.pure, Except.ok.injEq] at h
      subst h
      exact hs

/-- The full invariant for `associate_trees`: the association pass
never touches the grid; the grass pass only narrows `Unassigned` cells
to `Grass`. -/
theorem associateTrees_inv {g0 : Grid} {s' : Grid × Bool}
    (h : associateTrees g0 = .ok s') :
    GridRuleInv g0 (stepRel Tile.Grass) s' := by
  unfold associateTrees at h
  simp only [bind, Except.bind] at h
  split at h
  · cases h
  · rename_i tab htab
    refine forN_ok_invariant ?_ g0.num_rows 0 (g0, false) s' h
      ⟨stepRel_refl _ _, fun _ => rfl, fun hx => by cases hx⟩
    intro i u u1 hu hstep
    exact forN_ok_invariant
      (fun j w w' hw hstep' => atCell_inv hw hstep')
      g0.num_columns 0 u u1 hstep hu

/-! ### `process_intersections` narrows the grid -/

theorem set_camp_narrow {g g' : Grid} {row col : Nat}
    (hU : g.get row col = some Tile.Unassigned)
    (h : g.set_camp row col = .ok (some g')) : Narrow g g' := by
  have char := Grid.set_camp_ok_some_char h
  refine ⟨⟨Grid.set_camp_array_length h, Grid.set_camp_rowLen h⟩,
    fun r c => ?_⟩
  rw [char.2 r c]
  by_cases hcen : r = row ∧ c = col
  · rcases hcen with ⟨rfl, rfl⟩
    rw [if_pos ⟨rfl, rfl⟩]
    exact Or.inr ⟨hU, by simp⟩
  · rw [if_neg hcen]
    by_cases hcond : Nat.dist r row ≤ 1 ∧ Nat.dist c col ≤ 1 ∧
        g.get r c = some Tile.Unassigned
    · rw [if_pos hcond]
      exact Or.inr ⟨hcond.2.2, by simp⟩
    · rw [if_neg hcond]
      exact Or.inl rfl

theorem processRowF_mem :
    ∀ (fuel : Nat) (poss : List Grid) (grid : Grid)
      (count row column : Nat) (out : List Grid),
    processRowF poss grid count row column fuel = .ok out →
    ∀ p ∈ out, p ∈ poss ∨ Narrow grid p := by
  intro fuel
  induction fuel with
  | zero =>
    intro poss grid count row column out h p hp
    unfold processRowF at h
    split at h
    · cases h
      rcases List.mem_append.mp hp with hm | hm
      · exact Or.inl hm
      · simp only [List.mem_singleton] at hm
        exact Or.inr (by rw [hm]; exact Narrow.refl grid)
    · split at h
      · cases h
        exact Or.inl hp
      · simp only [bind, Except.bind] at h
        split at h <;> cases h
  | succ fuel ih =>
    intro poss grid count row column out h p hp
    unfold processRowF at h
    split at h
    · cases h
      rcases List.mem_append.mp hp with hm | hm
      · exact Or.inl hm
      · simp only [List.mem_singleton] at hm
        exact Or.inr (by rw [hm]; exact Narrow.refl grid)
    · split at h
      · cases h
        exact Or.inl hp
      · simp only [bind, Except.bind] at h
        split at h
        · cases h
        · rename_i t hidx
          split at h
          · rename_i ht
            split at h
            · cases h
            · rename_i sc hsc
              split at h
              · rename_i b
                split at h
                · cases h
                · rename_i poss2 hrec1
                  rcases ih poss2 grid count row (column + 1) out h
                      p hp with hm | hn
                  · rcases ih poss b (count - 1) row (column + 1) poss2
                        hrec1 p hm with hm' | hn'
                    · exact Or.inl hm'
                    · have hnb : Narrow grid b :=
                        set_camp_narrow (ht ▸ idx_ok_get hidx) hsc
                      exact Or.inr (Narrow.trans hnb hn')
                  · exact Or.inr hn
              · simp only [pure, Except.pure] at h
                exact ih poss grid count row (column + 1) out h p hp
          · simp only [pure, Except.pure] at h
            exact ih poss grid count row (column + 1) out h p hp

theorem processColumnF_mem :
    ∀ (fuel : Nat) (poss : List Grid) (grid : Grid)
      (count row column : Nat) (out : List Grid),
    processColumnF poss grid count row column fuel = .ok out →
    ∀ p ∈ out, p ∈ poss ∨ Narrow grid p := by
  intro fuel
  induction fuel with
  | zero =>
    intro poss grid count row column out h p hp
    unfold processColumnF at h
    split at h
    · cases h
      rcases List.mem_append.mp hp with hm | hm
      · exact Or.inl hm
      · simp only [List.mem_singleton] at hm
        exact Or.inr (by rw [hm]; exact Narrow.refl grid)
    · split at h
      · cases h
        exact Or.inl hp
      · simp only [bind, Except.bind] at h
        split at h <;> cases h
  | succ fuel ih =>
    intro poss grid count row column out h p hp
    unfold processColumnF at h
    split at h
    · cases h
      rcases List.mem_append.mp hp with hm | hm
      · exact Or.inl hm
      · simp only [List.mem_singleton] at hm
        exact Or.inr (by rw [hm]; exact Narrow.refl grid)
    · split at h
      · cases h
        exact Or.inl hp
      · simp only [bind, Except.bind] at h
        split at h
        · cases h
        · rename_i t hidx
          split at h
          · rename_i ht
            split at h
            · cases h
            · rename_i sc hsc
              split at h
              · rename_i b
                split at h
                · cases h
                · rename_i poss2 hrec1
                  rcases ih poss2 grid count (row + 1) column out h
                      p hp with hm | hn
                  · rcases ih poss b (count - 1) (row + 1) column poss2
                        hrec1 p hm with hm' | hn'
                    · exact Or.inl hm'
                    · have hnb : Narrow grid b :=
                        set_camp_narrow (ht ▸ idx_ok_get hidx) hsc
                      exact Or.inr (Narrow.trans hnb hn')
                  · exact Or.inr hn
              · simp only [pure, Except.pure] at h
                exact ih poss grid count (row + 1) column out h p hp
          · simp only [pure, Except.pure] at h
            exact ih poss grid count (row + 1) column out h p hp

/-- One `intersection` pass only rewrites cells, preserving shape. -/
theorem interOne_shape {ng acc out : Grid}
    (h : interOne ng acc = .ok out) : shapeEq acc out := by
  unfold interOne at h
  refine forN_ok_invariant ?_ acc.num_rows 0 acc out h (shapeEq_refl acc)
  intro i g1 g1' hg1 hstep
  refine forN_ok_invariant ?_ acc.num_columns 0 g1 g1' hstep hg1
  intro j g2 g2' hg2 hstep'
  simp only [bind, Except.bind] at hstep'
  split at hstep'
  · cases hstep'
  · split at hstep'
    · cases hstep'
    · split at hstep'
      · exact shapeEq_trans hg2
          ⟨Grid.write_array_length hstep', Grid.write_rowLen hstep'⟩
      · simp only [pure, Except.pure, Except.ok.injEq] at hstep'
        subst hstep'
        exact hg2

/-- A cell where the accumulated grid and the next possibility agree is
never rewritten by an `intersection` pass. -/
theorem interOne_keep {ng acc out : Grid}
    (h : interOne ng acc = .ok out) (r c : Nat)
    (hagree : acc.get r c = ng.get r c) :
    out.get r c = acc.get r c := by
  unfold interOne at h
  refine forN_ok_invariant (Q := fun g => g.get r c = acc.get r c) ?_
    acc.num_rows 0 acc out h rfl
  intro i g1 g1' hg1 hstep
  refine forN_ok_invariant (Q := fun g => g.get r c = acc.get r c) ?_
    acc.num_columns 0 g1 g1' hstep hg1
  intro j g2 g2' hg2 hstep'
  simp only [bind, Except.bind] at hstep'
  split at hstep'
  · cases hstep'
  · rename_i a hidxa
    split at hstep'
    · cases hstep'
    · rename_i bb hidxb
      split at hstep'
      · rename_i hne
        rw [Grid.get_write hstep' r c]
        by_cases hij : r = i ∧ c = j
        · exfalso
          rcases hij with ⟨rfl, rfl⟩
          have ha := idx_ok_get hidxa
          have hb := idx_ok_get hidxb
          rw [hg2, hagree, hb] at ha
          exact hne (by simpa using ha.symm)
        · rw [if_neg hij]
          exact hg2
      · simp only [pure, Except.pure, Except.ok.injEq] at hstep'
        subst hstep'
        exact hg2

/-- The intersection of possibilities that all narrow `g0` again
narrows `g0`: in particular it never resets a non-`Unassigned` cell of
`g0` back to `Unassigned`. -/
theorem intersection_narrow {g0 : Grid} {poss : List Grid} {out : Grid}
    (hall : ∀ p ∈ poss, Narrow g0 p)
    (h : intersection poss = .ok out) : Narrow g0 out := by
  rcases poss with _ | ⟨g1, rest⟩
  · cases h
  · unfold intersection at h
    have hinv : ∀ (l : List Grid) (acc : Grid),
        (∀ p ∈ l, Narrow g0 p) →
        (shapeEq g0 acc ∧
          ∀ r c, g0.get r c ≠ some Tile.Unassigned →
            acc.get r c = g0.get r c) →
        ∀ res, l.foldlM (fun a ng => interOne ng a) acc = .ok res →
        shapeEq g0 res ∧
          ∀ r c, g0.get r c ≠ some Tile.Unassigned →
            res.get r c = g0.get r c := by
      intro l
      induction l with
      | nil =>
        intro acc _ hacc res hres
        cases hres
        exact hacc
      | cons ng rest2 ih =>
        intro acc hl hacc res hres
        simp only [List.foldlM_cons, bind, Except.bind] at hres
        split at hres
        · cases hres
        · rename_i acc2 hio
          refine ih acc2 (fun p hp => hl p (List.mem_cons_of_mem ng hp))
            ⟨shapeEq_trans hacc.1 (interOne_shape hio), ?_⟩ res hres
          intro r c hnu
          have hng := hl ng (List.mem_cons_self ng rest2)
          have hngeq : ng.get r c = g0.get r c := by
            rcases hng.2 r c with heq | ⟨hu, _⟩
            · exact heq
            · exact absurd hu hnu
          rw [interOne_keep hio r c
            (by rw [hacc.2 r c hnu, hngeq]), hacc.2 r c hnu]
    have hg1 := hall g1 (List.mem_cons_self g1 rest)
    have hstart : shapeEq g0 g1 ∧
        ∀ r c, g0.get r c ≠ some Tile.Unassigned →
          g1.get r c = g0.get r c := by
      refine ⟨hg1.1, fun r c hnu => ?_⟩
      rcases hg1.2 r c with heq | ⟨hu, _⟩
      · exact heq
      · exact absurd hu hnu
    have hres := hinv rest g1
      (fun p hp => hall p (List.mem_cons_of_mem g1 hp)) hstart out h
    refine ⟨hres.1, fun r c => ?_⟩
    by_cases hnu : g0.get r c = some Tile.Unassigned
    · by_cases hout : out.get r c = some Tile.Unassigned
      · exact Or.inl (by rw [hout, hnu])
      · exact Or.inr ⟨hnu, hout⟩
    · exact Or.inl (hres.2 r c hnu)

theorem piRow_inv {b0 : Board} {row : Nat} {s s' : Board × Bool}
    (hs : RuleInv b0 Narrow s) (h : piRow row s = .ok s') :
    RuleInv b0 Narrow s' := by
  obtain ⟨b, ch⟩ := s
  unfold piRow at h
  simp only [bind, Except.bind] at h
  split at h
  · cases h
  · split at h
    · cases h
    · split at h
      · cases h
      · split at h
        · cases h
        · rename_i poss hposs
          split at h
          · cases h
          · rename_i newGrid hint
            simp only [pure, Except.pure, Except.ok.injEq] at h
            subst h
            obtain ⟨hr, hc, hrel, hf0, ht0⟩ := hs
            have hf : ch = false → b = b0 := hf0
            have ht : ch = true →
                unassignedCount b.grid < unassignedCount b0.grid := ht0
            have hall : ∀ p ∈ poss, Narrow b.grid p := by
              intro p hp
              rcases processRowF_mem _ [] b.grid _ row 0 poss hposs
                  p hp with hm | hn
              · cases hm
              · exact hn
            have hN : Narrow b.grid newGrid :=
              intersection_narrow hall hint
            refine ⟨hr, hc, Narrow.trans hrel hN, ?_, ?_⟩
            · intro hfalse
              rcases Bool.or_eq_false_iff.mp hfalse with ⟨hch, hdec⟩
              have hgeq : b.grid = newGrid :=
                of_not_not (decide_eq_false_iff_not.mp hdec)
              have hb0 := hf hch
              subst hb0
              show ({ b with grid := newGrid } : Board) = b
              rw [← hgeq]
            · intro htrue
              show unassignedCount newGrid < unassignedCount b0.grid
              by_cases hch : ch = true
              · have h1 := ht hch
                have hle := unassignedCount_le_of_narrow hN
                omega
              · have hb0 : b = b0 := hf (by simpa using hch)
                have hne : b.grid ≠ newGrid := by
                  have hd : decide (b.grid ≠ newGrid) = true := by
                    have hch' : ch = false := by simpa using hch
                    rw [hch'] at htrue
                    simpa using htrue
                  simpa using hd
                have := unassignedCount_lt_of_narrow_ne hN (Ne.symm hne)
                rw [← hb0]
                exact this

theorem piColumn_inv {b0 : Board} {column : Nat} {s s' : Board × Bool}
    (hs : RuleInv b0 Narrow s) (h : piColumn column s = .ok s') :
    RuleInv b0 Narrow s' := by
  obtain ⟨b, ch⟩ := s
  unfold piColumn at h
  simp only [bind, Except.bind] at h
  split at h
  · cases h
  · split at h
    · cases h
    · split at h
      · cases h
      · split at h
        · cases h
        · rename_i poss hposs
          split at h
          · cases h
          · rename_i newGrid hint
            simp only [pure, Except.pure, Except.ok.injEq] at h
            subst h
            obtain ⟨hr, hc, hrel, hf0, ht0⟩ := hs
            have hf : ch = false → b = b0 := hf0
            have ht : ch = true →
                unassignedCount b.grid < unassignedCount b0.grid := ht0
            have hall : ∀ p ∈ poss, Narrow b.grid p := by
              intro p hp
              rcases processColumnF_mem _ [] b.grid _ 0 column poss
                  hposs p hp with hm | hn
              · cases hm
              · exact hn
            have hN : Narrow b.grid newGrid :=
              intersection_narrow hall hint
            refine ⟨hr, hc, Narrow.trans hrel hN, ?_, ?_⟩
            · intro hfalse
              rcases Bool.or_eq_false_iff.mp hfalse with ⟨hch, hdec⟩
              have hgeq : b.grid = newGrid :=
                of_not_not (decide_eq_false_iff_not.mp hdec)
              have hb0 := hf hch
              subst hb0
              show ({ b with grid := newGrid } : Board) = b
              rw [← hgeq]
            · intro htrue
              show unassignedCount newGrid < unassignedCount b0.grid
              by_cases hch : ch = true
              · have h1 := ht hch
                have hle := unassignedCount_le_of_narrow hN
                omega
              · have hb0 : b = b0 := hf (by simpa using hch)
                have hne : b.grid ≠ newGrid := by
                  have hd : decide (b.grid ≠ newGrid) = true := by
                    have hch' : ch = false := by simpa using hch
                    rw [hch'] at htrue
                    simpa using htrue
                  simpa using hd
                have := unassignedCount_lt_of_narrow_ne hN (Ne.symm hne)
                rw [← hb0]
                exact this

/-- The full invariant for `process_intersections`: every cell is
unchanged or moves out of `Unassigned` (never back into it). -/
theorem processIntersections_inv {b0 : Board} {s' : Board × Bool}
    (h : processIntersections b0 = .ok s') : RuleInv b0 Narrow s' := by
  unfold processIntersections at h
  simp only [bind, Except.bind] at h
  split at h
  · cases h
  · rename_i s1 h1
    have hInv1 : RuleInv b0 Narrow s1 :=
      forN_ok_invariant (fun i u u' hu hstep => piRow_inv hu hstep)
        b0.rows.length 0 (b0, false) s1 h1
        (ruleInv_start b0 (Narrow.refl _))
    exact forN_ok_invariant
      (fun i u u' hu hstep => piColumn_inv hu hstep)
      b0.columns.length 0 s1 s' h hInv1

/-! ### The solve loop terminates within `unassignedCount + 1` turns -/

theorem solveLoop_no_fuelOut :
    ∀ (n : Nat) (b : Board), unassignedCount b.grid < n →
    ∀ b', solveLoop n b ≠ LoopRes.fuelOut b' := by
  intro n
  induction n with
  | zero =>
    intro b h b'
    exact absurd h (Nat.not_lt_zero _)
  | succ n ih =>
    intro b h b'
    unfold solveLoop
    cases hfz : fillZeros b with
    | error e => simp [hfz]
    | ok s1 =>
      obtain ⟨b1, c1⟩ := s1
      have hInv1 := fillZeros_inv hfz
      have hle1 : unassignedCount b1.grid ≤ unassignedCount b.grid :=
        unassignedCount_le_of_narrow
          (stepRel_narrow (by simp) hInv1.2.2.1)
      cases hfc : fillCamps b1 with
      | error e => simp [hfz, hfc]
      | ok s2 =>
        obtain ⟨b2, c2⟩ := s2
        have hInv2 := fillCamps_inv hfc
        have hle2 : unassignedCount b2.grid ≤ unassignedCount b1.grid :=
          unassignedCount_le_of_narrow
            (stepRel_narrow (by simp) hInv2.2.2.1)
        cases c2 with
        | true =>
          have hlt : unassignedCount b2.grid < unassignedCount b1.grid :=
            hInv2.2.2.2.2 rfl
          simp only [hfz, hfc]
          exact ih b2 (by omega) b'
        | false =>
          simp only [hfz, hfc]
          cases hpi : processIntersections b2 with
          | error e => simp [hpi]
          | ok s3 =>
            obtain ⟨b3, c3⟩ := s3
            have hInv3 := processIntersections_inv hpi
            have hle3 : unassignedCount b3.grid ≤
                unassignedCount b2.grid :=
              unassignedCount_le_of_narrow hInv3.2.2.1
            cases c3 with
            | true =>
              have hlt : unassignedCount b3.grid <
                  unassignedCount b2.grid := hInv3.2.2.2.2 rfl
              simp only [hpi]
              exact ih b3 (by omega) b'
            | false =>
              simp only [hpi]
              cases hat : associateTrees b3.grid with
              | error e => simp [hat]
              | ok s4 =>
                obtain ⟨g4, c4⟩ := s4
                have hInv4 := associateTrees_inv hat
                cases c4 with
                | true =>
                  have hlt : unassignedCount g4 <
                      unassignedCount b3.grid := hInv4.2.2 rfl
                  simp only [hat]
                  exact ih { b3 with grid := g4 }
                    (by show unassignedCount g4 < n; omega) b'
                | false =>
                  simp [hat]

/-- The fixed-point loop only ever narrows the grid and keeps the
target vectors. -/
theorem solveLoop_done_narrow :
    ∀ (n : Nat) (b b2 : Board), solveLoop n b = .done b2 →
    Narrow b.grid b2.grid ∧ b2.rows = b.rows ∧ b2.columns = b.columns := by
  intro n
  induction n with
  | zero =>
    intro b b2 h
    cases h
  | succ n ih =>
    intro b b2 h
    unfold solveLoop at h
    split at h
    · cases h
    · rename_i s1 b1 c1 hfz
      have hInv1 := fillZeros_inv hfz
      have hN1 : Narrow b.grid b1.grid :=
        stepRel_narrow (by simp) hInv1.2.2.1
      split at h
      · cases h
      · rename_i s2 b2' hfc
        have hInv2 := fillCamps_inv hfc
        have hN2 : Narrow b1.grid b2'.grid :=
          stepRel_narrow (by simp) hInv2.2.2.1
        have hrec := ih b2' b2 h
        refine ⟨Narrow.trans (Narrow.trans hN1 hN2) hrec.1, ?_, ?_⟩
        · rw [hrec.2.1]
          have := hInv2.1
          simp only [] at this
          rw [this, hInv1.1]
        · rw [hrec.2.2]
          have := hInv2.2.1
          simp only [] at this
          rw [this, hInv1.2.1]
      · rename_i s2 b2' hfc
        have hInv2 := fillCamps_inv hfc
        have hN2 : Narrow b1.grid b2'.grid :=
          stepRel_narrow (by simp) hInv2.2.2.1
        split at h
        · cases h
        · rename_i s3 b3 hpi
          have hInv3 := processIntersections_inv hpi
          have hrec := ih b3 b2 h
          refine ⟨Narrow.trans (Narrow.trans hN1 hN2)
            (Narrow.trans hInv3.2.2.1 hrec.1), ?_, ?_⟩
          · rw [hrec.2.1]
            have h3 := hInv3.1
            have h2 := hInv2.1
            simp only [] at h3 h2
            rw [h3, h2, hInv1.1]
          · rw [hrec.2.2]
            have h3 := hInv3.2.1
            have h2 := hInv2.2.1
            simp only [] at h3 h2
            rw [h3, h2, hInv1.2.1]
        · rename_i s3 b3 hpi
          have hInv3 := processIntersections_inv hpi
          split at h
          · cases h
          · rename_i s4 g4 hat
            have hInv4 := associateTrees_inv hat
            have hN4 : Narrow b3.grid g4 :=
              stepRel_narrow (by simp) hInv4.1
            have hrec := ih { b3 with grid := g4 } b2 h
            refine ⟨?_, ?_, ?_⟩
            · refine Narrow.trans (Narrow.trans hN1 hN2)
                (Narrow.trans hInv3.2.2.1 (Narrow.trans hN4 hrec.1))
            · rw [hrec.2.1]
              have h3 := hInv3.1
              have h2 := hInv2.1
              simp only [] at h3 h2
              show b3.rows = b.rows
              rw [h3, h2, hInv1.1]
            · rw [hrec.2.2]
              have h3 := hInv3.2.1
              have h2 := hInv2.2.1
              simp only [] at h3 h2
              show b3.columns = b.columns
              rw [h3, h2, hInv1.2.1]
          · rename_i s4 g4 hat
            cases h
            have hInv4 := associateTrees_inv hat
            have hN4 : Narrow b3.grid g4 :=
              stepRel_narrow (by simp) hInv4.1
            refine ⟨Narrow.trans (Narrow.trans hN1 hN2)
              (Narrow.trans hInv3.2.2.1 hN4), ?_, ?_⟩
            · have h3 := hInv3.1
              have h2 := hInv2.1
              simp only [] at h3 h2
              show b3.rows = b.rows
              rw [h3, h2, hInv1.1]
            · have h3 := hInv3.2.1
              have h2 := hInv2.2.1
              simp only [] at h3 h2
              show b3.columns = b.columns
              rw [h3, h2, hInv1.2.1]

/-! ### Parse / debug round trip -/

/-- The four tile characters. -/
def tileChar (c : Char) : Prop := c = ' ' ∨ c = '-' ∨ c = 'C' ∨ c = 'T'

instance (c : Char) : Decidable (tileChar c) := by
  unfold tileChar
  infer_instance

theorem tile_parse_roundtrip {c : Char} (h : tileChar c) :
    ∃ t : Tile, Tile.parse c = .ok t ∧ t.debugChar = c := by
  rcases h with rfl | rfl | rfl | rfl
  · exact ⟨Tile.Unassigned, rfl, rfl⟩
  · exact ⟨Tile.Grass, rfl, rfl⟩
  · exact ⟨Tile.Camp, rfl, rfl⟩
  · exact ⟨Tile.Tree, rfl, rfl⟩

theorem debugRow_append (row : List Tile) (t : Tile) :
    Grid.debugRow (row ++ [t]) = Grid.debugRow row ++ [t.debugChar] := by
  simp [Grid.debugRow]

theorem debugRows_append_singleton (G : List (List Tile))
    (r : List Tile) (hG : G ≠ []) :
    Grid.debugRows (G ++ [r]) =
      Grid.debugRows G ++ '\n' :: Grid.debugRow r := by
  induction G with
  | nil => exact absurd rfl hG
  | cons a G' ih =>
    rcases G' with _ | ⟨b, G''⟩
    · rfl
    · have := ih (by simp)
      show Grid.debugRow a ++ '\n' :: Grid.debugRows ((b :: G'') ++ [r]) = _
      rw [this]
      simp [Grid.debugRows]

theorem debugRows_last_append (G : List (List Tile)) (row : List Tile)
    (t : Tile) :
    Grid.debugRows (G ++ [row ++ [t]]) =
      Grid.debugRows (G ++ [row]) ++ [t.debugChar] := by
  rcases G with _ | ⟨a, G'⟩
  · show Grid.debugRow (row ++ [t]) = Grid.debugRow row ++ [t.debugChar]
    exact debugRow_append row t
  · rw [debugRows_append_singleton (a :: G') (row ++ [t]) (by simp),
      debugRows_append_singleton (a :: G') row (by simp),
      debugRow_append]
    simp

theorem parseAux_debug :
    ∀ (s : List Char) (grid : List (List Tile)) (row : List Tile),
    (∀ c ∈ s, c ≠ '\n' → tileChar c) →
    ∃ arr, Grid.parseAux s grid row = .ok ⟨arr⟩ ∧
      Grid.debugRows arr = Grid.debugRows (grid ++ [row]) ++ s := by
  intro s
  induction s with
  | nil =>
    intro grid row _
    exact ⟨grid ++ [row], rfl, by simp⟩
  | cons c rest ih =>
    intro grid row hval
    by_cases hc : c = '\n'
    · subst hc
      rcases ih (grid ++ [row]) []
        (fun c hc h => hval c (List.mem_cons_of_mem _ hc) h) with
        ⟨arr, hok, hdbg⟩
      refine ⟨arr, by simpa [Grid.parseAux] using hok, ?_⟩
      rw [hdbg, debugRows_append_singleton (grid ++ [row]) [] (by simp)]
      simp [Grid.debugRow]
    · have hch : tileChar c := hval c (List.mem_cons_self c rest) hc
      rcases tile_parse_roundtrip hch with ⟨t, hpt, hdc⟩
      rcases ih grid (row ++ [t])
        (fun c hc h => hval c (List.mem_cons_of_mem _ hc) h) with
        ⟨arr, hok, hdbg⟩
      refine ⟨arr, ?_, ?_⟩
      · unfold Grid.parseAux
        rw [if_neg hc, hpt]
        exact hok
      · rw [hdbg, debugRows_last_append, hdc]
        simp

/-- Line lengths of the `\n`-split of a text. -/
def addFirst (n : Nat) : List Nat → List Nat
  | [] => [n]
  | h :: t => (n + h) :: t

def lineLens : List Char → List Nat
  | [] => [0]
  | c :: rest => if c = '\n' then 0 :: lineLens rest
    else addFirst 1 (lineLens rest)

theorem lineLens_ne_nil (s : List Char) : lineLens s ≠ [] := by
  cases s with
  | nil => simp [lineLens]
  | cons c rest =>
    unfold lineLens
    split
    · simp
    · unfold addFirst
      split <;> simp

theorem lineLens_cons_newline (rest : List Char) :
    lineLens ('\n' :: rest) = 0 :: lineLens rest := by
  simp [lineLens]

theorem lineLens_cons_other {c : Char} (h : c ≠ '\n') (rest : List Char) :
    lineLens (c :: rest) = addFirst 1 (lineLens rest) := by
  simp [lineLens, h]

theorem addFirst_zero {l : List Nat} (h : l ≠ []) : addFirst 0 l = l := by
  cases l with
  | nil => exact absurd rfl h
  | cons a t => simp [addFirst]

theorem addFirst_addFirst (a b : Nat) (l : List Nat) :
    addFirst a (addFirst b l) = addFirst (a + b) l := by
  cases l <;> simp [addFirst] <;> omega

theorem parseAux_lens :
    ∀ (s : List Char) (grid : List (List Tile)) (row : List Tile),
    (∀ c ∈ s, c ≠ '\n' → tileChar c) →
    ∃ arr, Grid.parseAux s grid row = .ok ⟨arr⟩ ∧
      arr.map List.length =
        grid.map List.length ++ addFirst row.length (lineLens s) := by
  intro s
  induction s with
  | nil =>
    intro grid row _
    refine ⟨grid ++ [row], rfl, ?_⟩
    simp [lineLens, addFirst]
  | cons c rest ih =>
    intro grid row hval
    by_cases hc : c = '\n'
    · subst hc
      rcases ih (grid ++ [row]) []
        (fun c hc h => hval c (List.mem_cons_of_mem _ hc) h) with
        ⟨arr, hok, hlen⟩
      refine ⟨arr, by simpa [Grid.parseAux] using hok, ?_⟩
      simp only [List.length_nil] at hlen
      rw [addFirst_zero (lineLens_ne_nil rest)] at hlen
      rw [hlen, lineLens_cons_newline]
      simp [addFirst]
    · have hch : tileChar c := hval c (List.mem_cons_self c rest) hc
      rcases tile_parse_roundtrip hch with ⟨t, hpt, _⟩
      rcases ih grid (row ++ [t])
        (fun c hc h => hval c (List.mem_cons_of_mem _ hc) h) with
        ⟨arr, hok, hlen⟩
      refine ⟨arr, ?_, ?_⟩
      · unfold Grid.parseAux
        rw [if_neg hc, hpt]
        exact hok
      · rw [hlen, lineLens_cons_other hc, addFirst_addFirst]
        simp

/-! ### The claims -/

/-- C3: the spec says construction fails exactly when `rows.len()`
differs from the grid's row count or some grid row's length differs
from `columns.len()`.  The code instead compares every row's length
with `rows.len()` (and never validates `columns` at all), contradicting
its own doc comment: a valid 2×3 board is rejected (panics), and a 2×2
board with a wrong `columns` vector is accepted. -/
theorem claim_C3 :
    Board.new [0, 0] [0, 0, 0] (Grid.blank 2 3) = none ∧
    [0, 0].length = (Grid.blank 2 3).num_rows ∧
    (∀ r ∈ (Grid.blank 2 3).array, r.length = [0, 0, 0].length) ∧
    Board.new [0, 0] [0] (Grid.blank 2 2) =
      some ⟨[0, 0], [0], Grid.blank 2 2⟩ ∧
    ¬(∀ r ∈ (Grid.blank 2 2).array, r.length = [0].length) := by
  refine ⟨by decide, by decide, by decide, by decide, by decide⟩

/-- C4: `set_camp` returns its recoverable error exactly when a `Camp`
already occupies the bounds-clipped 3×3 neighbourhood (the grid is kept
as it was: the embedding returns the untouched grid to the caller); on
success the centre becomes `Camp`, every `Unassigned` cell of the 3×3
neighbourhood becomes `Grass` and every other cell is unchanged; and a
grid with no two 8-adjacent `Camp`s still has none after any successful
placement. -/
theorem claim_C4 (g : Grid) (row col : Nat) :
    (g.set_camp row col = .ok none ↔
      ∃ r c, Nat.dist r row ≤ 1 ∧ Nat.dist c col ≤ 1 ∧
        g.get r c = some Tile.Camp) ∧
    ((g.get row col).isSome = true → g.set_camp row col ≠ .ok none →
      ∃ g', g.set_camp row col = .ok (some g') ∧ ∀ r c,
        g'.get r c =
          if r = row ∧ c = col then some Tile.Camp
          else if Nat.dist r row ≤ 1 ∧ Nat.dist c col ≤ 1 ∧
              g.get r c = some Tile.Unassigned then some Tile.Grass
          else g.get r c) ∧
    (∀ g', Grid.noAdjacentCamps g → g.set_camp row col = .ok (some g') →
      Grid.noAdjacentCamps g') := by
  have hfail : g.set_camp row col = .ok none ↔
      Grid.campNearby g row col = true := by
    constructor
    · intro h
      by_cases hnc : Grid.campNearby g row col = true
      · exact hnc
      · exfalso
        unfold Grid.set_camp at h
        rw [if_neg (by simpa using hnc)] at h
        simp only [bind, Except.bind] at h
        cases hw : g.write row col Tile.Camp with
        | error e => rw [hw] at h; cases h
        | ok g1 =>
          rw [hw] at h
          simp [pure, Except.pure] at h
    · intro h
      unfold Grid.set_camp
      rw [if_pos (by simpa using h)]
  refine ⟨hfail.trans Grid.campNearby_iff, ?_, ?_⟩
  · intro hS hne
    have hnc : Grid.campNearby g row col = false := by
      cases hc : Grid.campNearby g row col
      · rfl
      · exact absurd (hfail.mpr hc) hne
    rcases Grid.write_ok_of_isSome Tile.Camp hS with ⟨g1, hw⟩
    have hsome : g.set_camp row col =
        .ok (some (g1.grassAround row col)) := by
      unfold Grid.set_camp
      rw [if_neg (by simp [hnc])]
      simp [bind, Except.bind, hw, pure, Except.pure]
    exact ⟨g1.grassAround row col, hsome,
      (Grid.set_camp_ok_some_char hsome).2⟩
  · intro g' hNA h
    have char := Grid.set_camp_ok_some_char h
    have camp_char : ∀ a b, g'.get a b = some Tile.Camp →
        (a = row ∧ b = col) ∨ g.get a b = some Tile.Camp := by
      intro a b h'
      rw [char.2 a b] at h'
      by_cases h1 : a = row ∧ b = col
      · exact Or.inl h1
      · rw [if_neg h1] at h'
        by_cases h2 : Nat.dist a row ≤ 1 ∧ Nat.dist b col ≤ 1 ∧
            g.get a b = some Tile.Unassigned
        · rw [if_pos h2] at h'
          cases h'
        · rw [if_neg h2] at h'
          exact Or.inr h'
    have hnocamp : ∀ a b, Nat.dist a row ≤ 1 → Nat.dist b col ≤ 1 →
        g.get a b ≠ some Tile.Camp := by
      intro a b hda hdb hcamp
      have : Grid.campNearby g row col = true :=
        Grid.campNearby_iff.mpr ⟨a, b, hda, hdb, hcamp⟩
      rw [char.1] at this
      cases this
    intro r c r' c' hC hC' hne ⟨hdr, hdc⟩
    rcases camp_char r c hC with ⟨rfl, rfl⟩ | hold
    · rcases camp_char r' c' hC' with ⟨rfl, rfl⟩ | hold'
      · exact hne rfl
      · exact hnocamp r' c' (by rw [Nat.dist_comm]; exact hdr)
          (by rw [Nat.dist_comm]; exact hdc) hold'
    · rcases camp_char r' c' hC' with ⟨rfl, rfl⟩ | hold'
      · exact hnocamp r c hdr hdc hold
      · exact hNA r c r' c' hold hold' hne ⟨hdr, hdc⟩

/-- C8 counterexample: on the 3×3 grid with a Tree at the top middle,
`initialize_grass` does not produce the output text claimed by the
spec (`" T \n - \n   "`). -/
theorem claim_C8_cex :
    Grid.parse " T \n   \n   ".data = .ok
      ⟨[[Tile.Unassigned, Tile.Tree, Tile.Unassigned],
        [Tile.Unassigned, Tile.Unassigned, Tile.Unassigned],
        [Tile.Unassigned, Tile.Unassigned, Tile.Unassigned]]⟩ ∧
    initGrass ⟨[0, 0, 0], [0, 0, 0],
        ⟨[[Tile.Unassigned, Tile.Tree, Tile.Unassigned],
          [Tile.Unassigned, Tile.Unassigned, Tile.Unassigned],
          [Tile.Unassigned, Tile.Unassigned, Tile.Unassigned]]⟩⟩ =
      .ok (⟨[0, 0, 0], [0, 0, 0],
        ⟨[[Tile.Unassigned, Tile.Tree, Tile.Unassigned],
          [Tile.Grass, Tile.Unassigned, Tile.Grass],
          [Tile.Grass, Tile.Grass, Tile.Grass]]⟩⟩, true) ∧
    Grid.debugChars
      ⟨[[Tile.Unassigned, Tile.Tree, Tile.Unassigned],
        [Tile.Grass, Tile.Unassigned, Tile.Grass],
        [Tile.Grass, Tile.Grass, Tile.Grass]]⟩ ≠ " T \n - \n   ".data := by
  exact ⟨rfl, rfl, by decide⟩

/-- C8 (amended): `initialize_grass` on that grid leaves the Tree and
its three in-bounds 4-neighbours (left, right, below) `Unassigned` and
turns the five remaining cells to `Grass`, i.e. `" T \n- -\n---"`, and
reports a change. -/
theorem claim_C8 :
    Grid.parse " T \n   \n   ".data = .ok
      ⟨[[Tile.Unassigned, Tile.Tree, Tile.Unassigned],
        [Tile.Unassigned, Tile.Unassigned, Tile.Unassigned],
        [Tile.Unassigned, Tile.Unassigned, Tile.Unassigned]]⟩ ∧
    initGrass ⟨[0, 0, 0], [0, 0, 0],
        ⟨[[Tile.Unassigned, Tile.Tree, Tile.Unassigned],
          [Tile.Unassigned, Tile.Unassigned, Tile.Unassigned],
          [Tile.Unassigned, Tile.Unassigned, Tile.Unassigned]]⟩⟩ =
      .ok (⟨[0, 0, 0], [0, 0, 0],
        ⟨[[Tile.Unassigned, Tile.Tree, Tile.Unassigned],
          [Tile.Grass, Tile.Unassigned, Tile.Grass],
          [Tile.Grass, Tile.Grass, Tile.Grass]]⟩⟩, true) ∧
    Grid.debugChars
      ⟨[[Tile.Unassigned, Tile.Tree, Tile.Unassigned],
        [Tile.Grass, Tile.Unassigned, Tile.Grass],
        [Tile.Grass, Tile.Grass, Tile.Grass]]⟩ = " T \n- -\n---".data := by
  exact ⟨rfl, rfl, by decide⟩

/-- C9: any text whose non-newline characters are all tile characters
parses successfully, and re-encoding the parsed grid reproduces the
text exactly. -/
theorem claim_C9 (s : List Char)
    (hval : ∀ c ∈ s, c ≠ '\n' → tileChar c) :
    ∃ g : Grid, Grid.parse s = .ok g ∧ g.debugChars = s := by
  rcases parseAux_debug s [] [] hval with ⟨arr, hok, hdbg⟩
  refine ⟨⟨arr⟩, hok, ?_⟩
  unfold Grid.debugChars
  rw [hdbg]
  rfl

theorem claim_C9_witness :
    (∀ c ∈ "TC-\n - \n---".data, c ≠ '\n' → tileChar c) ∧
    ∃ g : Grid, Grid.parse "TC-\n - \n---".data = .ok g ∧
      g.debugChars = "TC-\n - \n---".data :=
  ⟨by decide, claim_C9 "TC-\n - \n---".data (by decide)⟩

/-- C10: `Grid::parse` never checks rectangularity — for any text of
tile characters it succeeds and the produced row lengths are exactly
the lengths of the `\n`-separated lines (ragged lines allowed), and the
empty string yields one row of zero columns. -/
theorem claim_C10 :
    (∀ s : List Char, (∀ c ∈ s, c ≠ '\n' → tileChar c) →
      ∃ g : Grid, Grid.parse s = .ok g ∧
        g.array.map List.length = lineLens s) ∧
    Grid.parse [] = .ok ⟨[[]]⟩ ∧
    (Grid.mk [[]]).num_rows = 1 ∧ (Grid.mk [[]]).num_columns = 0 := by
  refine ⟨?_, rfl, rfl, rfl⟩
  intro s hval
  rcases parseAux_lens s [] [] hval with ⟨arr, hok, hlen⟩
  refine ⟨⟨arr⟩, hok, ?_⟩
  rw [hlen]
  simp only [List.map_nil, List.nil_append, List.length_nil]
  exact addFirst_zero (lineLens_ne_nil s)

theorem claim_C10_witness :
    (∀ c ∈ "C\n--".data, c ≠ '\n' → tileChar c) ∧
    (∃ g : Grid, Grid.parse "C\n--".data = .ok g ∧
      g.array.map List.length = lineLens "C\n--".data) ∧
    lineLens "C\n--".data = [1, 2] :=
  ⟨by decide, claim_C10.1 "C\n--".data (by decide), by decide⟩

/-- C1 counterexample: a validly constructed board on which `solve`
panics (the `intersection` step unwraps an empty possibility vector)
instead of returning an error. -/
theorem claim_C1_cex :
    Board.new [1] [1] ⟨[[Tile.Grass]]⟩ =
      some ⟨[1], [1], ⟨[[Tile.Grass]]⟩⟩ ∧
    solve ⟨[1], [1], ⟨[[Tile.Grass]]⟩⟩ =
      .error "intersection unwrap on empty possibilities" := by
  exact ⟨by decide, rfl⟩

/-- C2 counterexample: `fill_camps` fills by direct assignment, not
through `set_camp`: on this board it produces two adjacent camps and
leaves the `Unassigned` neighbour `(0,1)` of the camp placed at `(0,0)`
as `Camp`, not `Grass` (while `set_camp` would have grassed it). -/
theorem claim_C2_cex :
    fillCamps ⟨[2, 0], [1, 1],
        ⟨[[Tile.Unassigned, Tile.Unassigned],
          [Tile.Grass, Tile.Grass]]⟩⟩ =
      .ok (⟨[2, 0], [1, 1],
        ⟨[[Tile.Camp, Tile.Camp], [Tile.Grass, Tile.Grass]]⟩⟩, true) ∧
    Grid.get ⟨[[Tile.Unassigned, Tile.Unassigned],
        [Tile.Grass, Tile.Grass]]⟩ 0 1 = some Tile.Unassigned ∧
    Grid.get ⟨[[Tile.Camp, Tile.Camp],
        [Tile.Grass, Tile.Grass]]⟩ 0 1 = some Tile.Camp ∧
    Grid.set_camp ⟨[[Tile.Unassigned, Tile.Unassigned],
        [Tile.Grass, Tile.Grass]]⟩ 0 0 =
      .ok (some ⟨[[Tile.Camp, Tile.Grass],
        [Tile.Grass, Tile.Grass]]⟩) := by
  exact ⟨rfl, rfl, rfl, rfl⟩

/-- C5 counterexample: a single `fill_camps` call pushes column 1 to
one camp against a target of zero, and a single
`process_intersections` call pushes row 0 to one camp against a target
of zero — quota monotonicity fails for both camp-placing rules. -/
theorem claim_C5_cex :
    (fillCamps ⟨[2, 0], [1, 0],
        ⟨[[Tile.Unassigned, Tile.Unassigned],
          [Tile.Grass, Tile.Grass]]⟩⟩ =
      .ok (⟨[2, 0], [1, 0],
        ⟨[[Tile.Camp, Tile.Camp], [Tile.Grass, Tile.Grass]]⟩⟩, true) ∧
     Grid.countColP ⟨[[Tile.Unassigned, Tile.Unassigned],
        [Tile.Grass, Tile.Grass]]⟩ 1 Tile.Camp = 0 ∧
     Grid.countColP ⟨[[Tile.Camp, Tile.Camp],
        [Tile.Grass, Tile.Grass]]⟩ 1 Tile.Camp = 1 ∧
     [1, 0].get? 1 = some 0) ∧
    (processIntersections ⟨[0, 0], [1, 0],
        ⟨[[Tile.Unassigned, Tile.Grass],
          [Tile.Grass, Tile.Grass]]⟩⟩ =
      .ok (⟨[0, 0], [1, 0],
        ⟨[[Tile.Camp, Tile.Grass], [Tile.Grass, Tile.Grass]]⟩⟩, true) ∧
     Grid.countRowP ⟨[[Tile.Unassigned, Tile.Grass],
        [Tile.Grass, Tile.Grass]]⟩ 0 Tile.Camp = 0 ∧
     Grid.countRowP ⟨[[Tile.Camp, Tile.Grass],
        [Tile.Grass, Tile.Grass]]⟩ 0 Tile.Camp = 1 ∧
     [0, 0].get? 0 = some 0) := by
  exact ⟨⟨rfl, by decide, by decide, rfl⟩, ⟨rfl, by decide, by decide, rfl⟩⟩

/-- C7 counterexample: `process_intersections` is not idempotent.  On
this board the first call succeeds with a change, and an immediate
second call succeeds with yet another change (its row pass can exploit
a deduction the first call's later passes made). -/
theorem claim_C7_cex :
    processIntersections ⟨[0, 1, 1], [1, 0, 1],
        ⟨[[Tile.Unassigned, Tile.Grass, Tile.Grass],
          [Tile.Unassigned, Tile.Grass, Tile.Unassigned],
          [Tile.Grass, Tile.Grass, Tile.Unassigned]]⟩⟩ =
      .ok (⟨[0, 1, 1], [1, 0, 1],
        ⟨[[Tile.Unassigned, Tile.Grass, Tile.Grass],
          [Tile.Unassigned, Tile.Grass, Tile.Grass],
          [Tile.Grass, Tile.Grass, Tile.Camp]]⟩⟩, true) ∧
    processIntersections ⟨[0, 1, 1], [1, 0, 1],
        ⟨[[Tile.Unassigned, Tile.Grass, Tile.Grass],
          [Tile.Unassigned, Tile.Grass, Tile.Grass],
          [Tile.Grass, Tile.Grass, Tile.Camp]]⟩⟩ =
      .ok (⟨[0, 1, 1], [1, 0, 1],
        ⟨[[Tile.Grass, Tile.Grass, Tile.Grass],
          [Tile.Camp, Tile.Grass, Tile.Grass],
          [Tile.Grass, Tile.Grass, Tile.Camp]]⟩⟩, true) ∧
    (⟨[[Tile.Grass, Tile.Grass, Tile.Grass],
       [Tile.Camp, Tile.Grass, Tile.Grass],
       [Tile.Grass, Tile.Grass, Tile.Camp]]⟩ : Grid) ≠
      ⟨[[Tile.Unassigned, Tile.Grass, Tile.Grass],
        [Tile.Unassigned, Tile.Grass, Tile.Grass],
        [Tile.Grass, Tile.Grass, Tile.Camp]]⟩ := by
  exact ⟨rfl, rfl, by decide⟩

end CampsAndTrees

namespace CampsAndTrees

/-- C6: `solve` terminates on every board: the loop of `solveLoop`
never exhausts `unassignedCount + 1` turns of fuel, because each of the
four looped rules only narrows cells out of `Unassigned` (in
particular `process_intersections` never resets a non-`Unassigned`
cell of the pre-pass board) and any call that reports a change
strictly decreases the number of `Unassigned` cells. -/
theorem claim_C6 :
    (∀ (n : Nat) (b : Board), unassignedCount b.grid < n →
      ∀ b', solveLoop n b ≠ LoopRes.fuelOut b') ∧
    (∀ (b b' : Board) (ch : Bool), fillZeros b = .ok (b', ch) →
      Narrow b.grid b'.grid ∧
      (ch = true → unassignedCount b'.grid < unassignedCount b.grid)) ∧
    (∀ (b b' : Board) (ch : Bool), fillCamps b = .ok (b', ch) →
      Narrow b.grid b'.grid ∧
      (ch = true → unassignedCount b'.grid < unassignedCount b.grid)) ∧
    (∀ (b b' : Board) (ch : Bool),
      processIntersections b = .ok (b', ch) →
      Narrow b.grid b'.grid ∧
      (ch = true → unassignedCount b'.grid < unassignedCount b.grid)) ∧
    (∀ (g g' : Grid) (ch : Bool), associateTrees g = .ok (g', ch) →
      Narrow g g' ∧
      (ch = true → unassignedCount g' < unassignedCount g)) := by
  refine ⟨solveLoop_no_fuelOut, ?_, ?_, ?_, ?_⟩
  · intro b b' ch h
    have hInv := fillZeros_inv h
    exact ⟨stepRel_narrow (by simp) hInv.2.2.1, hInv.2.2.2.2⟩
  · intro b b' ch h
    have hInv := fillCamps_inv h
    exact ⟨stepRel_narrow (by simp) hInv.2.2.1, hInv.2.2.2.2⟩
  · intro b b' ch h
    have hInv := processIntersections_inv h
    exact ⟨hInv.2.2.1, hInv.2.2.2.2⟩
  · intro g g' ch h
    have hInv := associateTrees_inv h
    exact ⟨stepRel_narrow (by simp) hInv.1, hInv.2.2⟩

/-- C5 (amended): `initialize_grass`, `fill_zeros` and
`associate_trees` never place a `Camp` — every row and column `Camp`
count is exactly preserved, and the target vectors are untouched — so
they keep every quota that held before.  (`fill_camps` and
`process_intersections` do place camps and can exceed a quota; see the
counterexample.) -/
theorem claim_C5 :
    (∀ (b b' : Board) (ch : Bool), initGrass b = .ok (b', ch) →
      b'.rows = b.rows ∧ b'.columns = b.columns ∧
      (∀ r, Grid.countRowP b'.grid r Tile.Camp =
        Grid.countRowP b.grid r Tile.Camp) ∧
      (∀ c, Grid.countColP b'.grid c Tile.Camp =
        Grid.countColP b.grid c Tile.Camp)) ∧
    (∀ (b b' : Board) (ch : Bool), fillZeros b = .ok (b', ch) →
      b'.rows = b.rows ∧ b'.columns = b.columns ∧
      (∀ r, Grid.countRowP b'.grid r Tile.Camp =
        Grid.countRowP b.grid r Tile.Camp) ∧
      (∀ c, Grid.countColP b'.grid c Tile.Camp =
        Grid.countColP b.grid c Tile.Camp)) ∧
    (∀ (g : Grid) (g' : Grid) (ch : Bool),
      associateTrees g = .ok (g', ch) →
      (∀ r, Grid.countRowP g' r Tile.Camp =
        Grid.countRowP g r Tile.Camp) ∧
      (∀ c, Grid.countColP g' c Tile.Camp =
        Grid.countColP g c Tile.Camp)) := by
  refine ⟨?_, ?_, ?_⟩
  · intro b b' ch h
    have hInv := initGrass_inv h
    have hrel : stepRel Tile.Grass b.grid b'.grid := hInv.2.2.1
    exact ⟨hInv.1, hInv.2.1,
      fun r => stepRel_countRowP (by simp) (by simp) hrel r,
      fun c => stepRel_countColP (by simp) (by simp) hrel c⟩
  · intro b b' ch h
    have hInv := fillZeros_inv h
    have hrel : stepRel Tile.Grass b.grid b'.grid := hInv.2.2.1
    exact ⟨hInv.1, hInv.2.1,
      fun r => stepRel_countRowP (by simp) (by simp) hrel r,
      fun c => stepRel_countColP (by simp) (by simp) hrel c⟩
  · intro g g' ch h
    have hInv := associateTrees_inv h
    have hrel : stepRel Tile.Grass g g' := hInv.1
    exact ⟨fun r => stepRel_countRowP (by simp) (by simp) hrel r,
      fun c => stepRel_countColP (by simp) (by simp) hrel c⟩

/-- C1 (amended): whenever `solve` completes without panicking — the
pristine claim fails because `solve` can panic, see the
counterexample — it returns `Ok` exactly when the fixed-point grid has
no `Unassigned` cell left; otherwise the error message is exactly
"Reached steady state" followed by the rendering of the final board;
and the final board keeps every deduction (its grid narrows the input
grid, never rolled back, targets untouched). -/
theorem claim_C1 (b b' : Board) (res : Option (List Char))
    (h : solve b = .ok (b', res)) :
    b'.rows = b.rows ∧ b'.columns = b.columns ∧
    Narrow b.grid b'.grid ∧
    ((res = none) ↔ b'.grid.is_solved = true) ∧
    (∀ msg, res = some msg →
      msg = "Reached steady state\n".data ++ b'.grid.debugChars ∧
      b'.grid.is_solved = false) := by
  unfold solve at h
  split at h
  · cases h
  · rename_i s1 b1 c1 hig
    have hInv1 := initGrass_inv hig
    have hN1 : Narrow b.grid b1.grid :=
      stepRel_narrow (by simp) hInv1.2.2.1
    split at h
    · cases h
    · cases h
    · rename_i b2 hloop
      have hdone := solveLoop_done_narrow _ b1 b2 hloop
      have hrows : b2.rows = b.rows := by
        rw [hdone.2.1]
        exact hInv1.1
      have hcols : b2.columns = b.columns := by
        rw [hdone.2.2]
        exact hInv1.2.1
      have hNar : Narrow b.grid b2.grid := Narrow.trans hN1 hdone.1
      split at h
      · rename_i hsol
        simp only [Except.ok.injEq, Prod.mk.injEq] at h
        obtain ⟨rfl, rfl⟩ := h
        refine ⟨hrows, hcols, hNar, by simp [hsol], ?_⟩
        intro msg hmsg
        cases hmsg
      · rename_i hsol
        simp only [Except.ok.injEq, Prod.mk.injEq] at h
        obtain ⟨rfl, rfl⟩ := h
        have hsol' : b2.grid.is_solved = false := by
          simpa using hsol
        refine ⟨hrows, hcols, hNar, by simp [hsol'], ?_⟩
        intro msg hmsg
        simp only [Option.some.injEq] at hmsg
        exact ⟨hmsg.symm, hsol'⟩

theorem claim_C1_witness :
    solve ⟨[1, 0], [0, 1],
      ⟨[[Tile.Tree, Tile.Unassigned],
        [Tile.Unassigned, Tile.Unassigned]]⟩⟩ =
      .ok (⟨[1, 0], [0, 1],
        ⟨[[Tile.Tree, Tile.Camp], [Tile.Grass, Tile.Grass]]⟩⟩, none) ∧
    (Grid.is_solved
      ⟨[[Tile.Tree, Tile.Camp], [Tile.Grass, Tile.Grass]]⟩ = true) ∧
    Narrow ⟨[[Tile.Tree, Tile.Unassigned],
        [Tile.Unassigned, Tile.Unassigned]]⟩
      ⟨[[Tile.Tree, Tile.Camp], [Tile.Grass, Tile.Grass]]⟩ := by
  refine ⟨rfl, ?_, ?_⟩
  · exact ((claim_C1 ⟨[1, 0], [0, 1],
        ⟨[[Tile.Tree, Tile.Unassigned],
          [Tile.Unassigned, Tile.Unassigned]]⟩⟩
      ⟨[1, 0], [0, 1],
        ⟨[[Tile.Tree, Tile.Camp], [Tile.Grass, Tile.Grass]]⟩⟩
      none rfl).2.2.2.1).mp rfl
  · exact (claim_C1 ⟨[1, 0], [0, 1],
        ⟨[[Tile.Tree, Tile.Unassigned],
          [Tile.Unassigned, Tile.Unassigned]]⟩⟩
      ⟨[1, 0], [0, 1],
        ⟨[[Tile.Tree, Tile.Camp], [Tile.Grass, Tile.Grass]]⟩⟩
      none rfl).2.2.1

/-- C2 (amended): `fill_camps` fills each qualifying row/column by
writing `Camp` directly into the grid, not through the validated
`set_camp` mutator, so no neighbouring `Unassigned` cell is forced to
`Grass`: the only cell transitions are `Unassigned → Camp`
(`stepRel Tile.Camp`; the counterexample shows adjacent camps result
where `set_camp` would have refused and grassed the neighbour).  In a
row (resp. column) whose target equals its `Unassigned` count plus its
`Camp` count, every `Unassigned` cell is set to `Camp`, and the
returned flag reports whether anything changed. -/
theorem claim_C2 :
    (∀ (b b' : Board) (ch : Bool), fillCamps b = .ok (b', ch) →
      b'.rows = b.rows ∧ b'.columns = b.columns ∧
      stepRel Tile.Camp b.grid b'.grid ∧
      (ch = false → b' = b) ∧
      (ch = true → b'.grid ≠ b.grid)) ∧
    (∀ (b0 b : Board) (row : Nat) (ch : Bool) (s' : Board × Bool)
      (target cntU cntC : Nat),
      fcRow b0 row (b, ch) = .ok s' →
      listIdx b.rows row = .ok target →
      b.grid.count_in_row row Tile.Unassigned = .ok cntU →
      b.grid.count_in_row row Tile.Camp = .ok cntC →
      target = cntU + cntC →
      ∀ c, c < b0.columns.length →
        b.grid.get row c = some Tile.Unassigned →
        s'.1.grid.get row c = some Tile.Camp) ∧
    (∀ (b0 b : Board) (column : Nat) (ch : Bool) (s' : Board × Bool)
      (target cntU cntC : Nat),
      fcColumn b0 column (b, ch) = .ok s' →
      listIdx b.columns column = .ok target →
      b.grid.count_in_column column Tile.Unassigned = .ok cntU →
      b.grid.count_in_column column Tile.Camp = .ok cntC →
      target = cntU + cntC →
      ∀ r, r < b0.rows.length →
        b.grid.get r column = some Tile.Unassigned →
        s'.1.grid.get r column = some Tile.Camp) := by
  refine ⟨?_, ?_, ?_⟩
  · intro b b' ch h
    obtain ⟨hr, hc, hrel, hfalse, htrue⟩ := fillCamps_inv h
    refine ⟨hr, hc, hrel, hfalse, ?_⟩
    intro hch he
    have hlt := htrue hch
    rw [he] at hlt
    exact Nat.lt_irrefl _ hlt
  · intro b0 b row ch s' target cntU cntC h hT hU hC htc
    unfold fcRow at h
    simp only [bind, Except.bind] at h
    split at h
    · rename_i he; rw [hT] at he; cases he
    · rename_i a hTa
      rw [hT] at hTa
      injection hTa with hTa'
      subst hTa'
      split at h
      · rename_i he; rw [hU] at he; cases he
      · rename_i u hUa
        rw [hU] at hUa
        injection hUa with hUa'
        subst hUa'
        split at h
        · rename_i he; rw [hC] at he; cases he
        · rename_i v2 hCa
          rw [hC] at hCa
          injection hCa with hCa'
          subst hCa'
          split at h
          · intro c hc hUc
            exact fcRowLoop_sets (by decide) row b0.columns.length 0
              (b, ch) s' h c (Nat.zero_le c) (by omega) hUc
          · rename_i hno
            exact absurd htc hno
  · intro b0 b column ch s' target cntU cntC h hT hU hC htc
    unfold fcColumn at h
    simp only [bind, Except.bind] at h
    split at h
    · rename_i he; rw [hT] at he; cases he
    · rename_i a hTa
      rw [hT] at hTa
      injection hTa with hTa'
      subst hTa'
      split at h
      · rename_i he; rw [hU] at he; cases he
      · rename_i u hUa
        rw [hU] at hUa
        injection hUa with hUa'
        subst hUa'
        split at h
        · rename_i he; rw [hC] at he; cases he
        · rename_i v2 hCa
          rw [hC] at hCa
          injection hCa with hCa'
          subst hCa'
          split at h
          · intro r hr hUr
            exact fcColLoop_sets (by decide) column b0.rows.length 0
              (b, ch) s' h r (Nat.zero_le r) (by omega) hUr
          · rename_i hno
            exact absurd htc hno

/-- C7 (amended): the idempotence claim holds for `initialize_grass`,
`fill_zeros`, `fill_camps` and `associate_trees` — a second invocation
right after a successful first one returns the same state and reports
`changed = false` — but not for `process_intersections`: the separate
counterexample shows its second call can make a further change. -/
theorem claim_C7 :
    (∀ (b b' : Board) (ch : Bool),
      initGrass b = .ok (b', ch) → initGrass b' = .ok (b', false)) ∧
    (∀ (b b' : Board) (ch : Bool),
      fillZeros b = .ok (b', ch) → fillZeros b' = .ok (b', false)) ∧
    (∀ (b b' : Board) (ch : Bool),
      fillCamps b = .ok (b', ch) → fillCamps b' = .ok (b', false)) ∧
    (∀ (g g' : Grid) (ch : Bool),
      associateTrees g = .ok (g', ch) →
        associateTrees g' = .ok (g', false)) :=
  ⟨fun _ _ _ h => initGrass_idem h, fun _ _ _ h => fillZeros_idem h,
    fun _ _ _ h => fillCamps_idem h, fun _ _ _ h => associateTrees_idem h⟩

end CampsAndTrees
